import Mathlib

set_option linter.unusedSectionVars false
set_option linter.unusedVariables false

/-!
Verification development for the po-rrt belief-space planner.

The Rust source is shallowly embedded as follows.  Machine doubles are
modelled by the type `F α` below: a finite value carrying an element of a
linear ordered commutative ring `α` (every finite IEEE double is such a
value; the planner uses only `+`, `*`, `<`, `<=` and literals on doubles),
together with the special values `inf`, `ninf` and `nan`, whose arithmetic
mirrors IEEE-754 (`0 * inf = nan`, any operation on `nan` yields `nan`,
comparisons with `nan` are false).  Exact ring arithmetic replaces rounded
arithmetic; the claims settled here are structural (finiteness, equalities
between a stored value and its defining expression, monotonicity), which
rounding does not affect because IEEE rounding is monotone.

`Vec<f64>` belief states become `List α`; graphs become structures of
lists; the `PriorityQueue` crate (push updates the priority of an existing
item, pop removes a maximal item under the reversed `Priority` order,
i.e. an item of numerically smallest priority) is modelled as an
association list; `while` loops become fuel-indexed recursion, and `panic!`
/ failed `assert!` become `none` / dedicated error constructors.
-/

/-- Model of an IEEE double as used by the planner: a finite ring value, a
signed infinity, or `nan`. -/
inductive F (α : Type) where
  | fin (q : α)
  | inf
  | ninf
  | nan
deriving DecidableEq

variable {α : Type} [LinearOrderedCommRing α]

/-- IEEE addition on `F`: `nan` is absorbing, `inf + ninf = nan`. -/
def F.add : F α → F α → F α
  | .nan, _ => .nan
  | .fin a, .fin b => .fin (a + b)
  | .fin _, .inf => .inf
  | .fin _, .ninf => .ninf
  | .fin _, .nan => .nan
  | .inf, .fin _ => .inf
  | .inf, .inf => .inf
  | .inf, .ninf => .nan
  | .inf, .nan => .nan
  | .ninf, .fin _ => .ninf
  | .ninf, .inf => .nan
  | .ninf, .ninf => .ninf
  | .ninf, .nan => .nan

/-- IEEE multiplication on `F`: `nan` is absorbing and `0 * (±inf) = nan`. -/
def F.mul : F α → F α → F α
  | .nan, _ => .nan
  | .fin a, .fin b => .fin (a * b)
  | .fin a, .inf => if a = 0 then .nan else if 0 < a then .inf else .ninf
  | .fin a, .ninf => if a = 0 then .nan else if 0 < a then .ninf else .inf
  | .fin _, .nan => .nan
  | .inf, .fin a => if a = 0 then .nan else if 0 < a then .inf else .ninf
  | .inf, .inf => .inf
  | .inf, .ninf => .ninf
  | .inf, .nan => .nan
  | .ninf, .fin a => if a = 0 then .nan else if 0 < a then .ninf else .inf
  | .ninf, .inf => .ninf
  | .ninf, .ninf => .inf
  | .ninf, .nan => .nan

/-- IEEE strict comparison on `F`: comparisons involving `nan` are false. -/
def F.lt : F α → F α → Bool
  | .nan, _ => false
  | .fin _, .nan => false
  | .fin a, .fin b => decide (a < b)
  | .fin _, .inf => true
  | .fin _, .ninf => false
  | .inf, _ => false
  | .ninf, .nan => false
  | .ninf, .ninf => false
  | .ninf, .fin _ => true
  | .ninf, .inf => true

/-- IEEE non-strict comparison on `F`: comparisons involving `nan` are false. -/
def F.leb : F α → F α → Bool
  | .nan, _ => false
  | .fin _, .nan => false
  | .fin a, .fin b => decide (a ≤ b)
  | .fin _, .inf => true
  | .fin _, .ninf => false
  | .inf, .inf => true
  | .inf, _ => false
  | .ninf, .nan => false
  | .ninf, _ => true

/-- Proof-side order on `F`: strictly below, or equal.  Unlike `F.leb` this
is reflexive also at `nan`, which makes it the right order for stating that
`dist` entries only decrease. -/
def Fle (a b : F α) : Prop := F.lt a b = true ∨ a = b

/-- Nonnegative, non-`nan`, non-`ninf` values: the values a `dist` entry can
take (`inf` initially, a nonnegative finite value after a relaxation). -/
def F.nn (d : F α) : Prop := d = F.inf ∨ ∃ q : α, 0 ≤ q ∧ d = F.fin q

theorem Fle.refl (a : F α) : Fle a a := Or.inr rfl

theorem F.lt_nan_false (a : F α) : F.lt a F.nan = false := by
  cases a <;> rfl

theorem F.nan_lt_false (a : F α) : F.lt F.nan a = false := by
  rfl

theorem F.lt_of_lt_true {a b : F α} (h : F.lt a b = true) : a ≠ F.nan ∧ b ≠ F.nan := by
  constructor
  · intro he; subst he; simp [F.lt] at h
  · intro he; subst he; rw [F.lt_nan_false] at h; exact Bool.false_ne_true h

theorem F.lt_trans {a b c : F α} (hab : F.lt a b = true) (hbc : F.lt b c = true) :
    F.lt a c = true := by
  cases a <;> cases b <;> cases c <;> simp_all [F.lt]
  exact hab.trans hbc

theorem Fle.trans {a b c : F α} (hab : Fle a b) (hbc : Fle b c) : Fle a c := by
  rcases hab with h1 | h1
  · rcases hbc with h2 | h2
    · exact Or.inl (F.lt_trans h1 h2)
    · subst h2; exact Or.inl h1
  · subst h1; exact hbc

theorem Fle_nan_right {a : F α} (h : Fle a F.nan) : a = F.nan := by
  rcases h with h | h
  · rw [F.lt_nan_false] at h; exact absurd h (Bool.false_ne_true)
  · exact h

theorem F.nn.not_nan {d : F α} (h : F.nn d) : d ≠ F.nan := by
  rcases h with h | ⟨q, _, h⟩ <;> subst h <;> simp

theorem F.nn.not_ninf {d : F α} (h : F.nn d) : d ≠ F.ninf := by
  rcases h with h | ⟨q, _, h⟩ <;> subst h <;> simp

theorem nn_Fle_fin {d : F α} {q : α} (hd : F.nn d) (h : Fle d (F.fin q)) :
    ∃ r, 0 ≤ r ∧ d = F.fin r := by
  rcases hd with hd | ⟨r, hr, hd⟩ <;> subst hd
  · rcases h with h | h
    · simp [F.lt] at h
    · exact absurd h (by simp)
  · exact ⟨r, hr, rfl⟩

theorem Fle_of_not_lt_of_le {a b : F α} (hab : Fle a b) (h : F.lt a b = false) : a = b := by
  rcases hab with h1 | h1
  · rw [h1] at h; exact absurd h (by simp)
  · exact h1

/-! Source `src/common.rs`: the `Priority` wrapper and its (reversed, broken)
`Ord` instance, and the belief-state validity assertion. -/

/-- Priority wrapper around a floating cost, from `src/common.rs`. -/
structure Priority (α : Type) where
  prio : α
deriving DecidableEq

/-- The source's `Ord for Priority`:
`if self.prio < other.prio { Greater } else { Less }`. -/
def Priority.cmp (a b : Priority α) : Ordering :=
  if a.prio < b.prio then Ordering.gt else Ordering.lt

/-- The source's `PartialEq for Priority`: equality of the wrapped costs. -/
def Priority.eqb (a b : Priority α) : Bool :=
  decide (a.prio = b.prio)

/-- Belief-state validity assertion from `src/common.rs`:
`assert!((belief_state.iter().fold(0.0, |s, p| p + s) - 1.0).abs() < 0.000001)`.
Returns `true` when the assertion passes.  The literal `0.000001` is read as
the rational `1/1000000`. -/
def assert_belief_state_validity (belief_state : List ℚ) : Bool :=
  decide (|belief_state.foldl (fun s p => p + s) 0 - 1| < 1 / 1000000)

/-! Source `src/belief_graph.rs`: belief graph data model, transition
probabilities, the conditional Dijkstra solver and the policy extractor. -/

/-- Node kinds of the belief graph. -/
inductive BeliefNodeType where
  | Unknown
  | Action
  | Observation
deriving DecidableEq

/-- A belief-graph node: a configuration `state`, a belief vector, the dense
id of that belief vector, parent and child node ids, and the node kind. -/
structure BeliefNode (σ α : Type) where
  state : σ
  belief_state : List α
  belief_id : ℕ
  parents : List ℕ
  children : List ℕ
  node_type : BeliefNodeType
deriving DecidableEq

/-- The belief graph: a node store plus the enumerated reachable beliefs. -/
structure BeliefGraph (σ α : Type) where
  nodes : List (BeliefNode σ α)
  reachable_belief_states : List (List α)
deriving DecidableEq

/-- Default node used by the total node accessor (Rust indexing panics out of
range; all theorems carry in-range hypotheses under which the default is
never read). -/
def defaultBeliefNode (σ α : Type) [Inhabited σ] : BeliefNode σ α :=
  ⟨default, [], 0, [], [], BeliefNodeType.Unknown⟩

variable {σ : Type} [Inhabited σ]

/-- Total accessor for `graph.nodes[id]`. -/
def BeliefGraph.node (g : BeliefGraph σ α) (id : ℕ) : BeliefNode σ α :=
  g.nodes.getD id (defaultBeliefNode σ α)

/-- `BeliefGraph::add_node` from the source: push a fresh node with no
parents and no children, returning its id. -/
def BeliefGraph.add_node (g : BeliefGraph σ α) (state : σ) (belief_state : List α)
    (belief_id : ℕ) (node_type : BeliefNodeType) : ℕ × BeliefGraph σ α :=
  (g.nodes.length,
    ⟨g.nodes ++ [⟨state, belief_state, belief_id, [], [], node_type⟩],
     g.reachable_belief_states⟩)

/-- Helper: replace the node at index `i` (no-op out of range, like
`List.set`). -/
def BeliefGraph.setNode (g : BeliefGraph σ α) (i : ℕ) (n : BeliefNode σ α) :
    BeliefGraph σ α :=
  ⟨g.nodes.set i n, g.reachable_belief_states⟩

/-- `BeliefGraph::add_edge` from the source: push `to_id` on the children of
`from_id` and `from_id` on the parents of `to_id`. -/
def BeliefGraph.add_edge (g : BeliefGraph σ α) (from_id to_id : ℕ) : BeliefGraph σ α :=
  let g1 := g.setNode from_id
    ⟨(g.node from_id).state, (g.node from_id).belief_state, (g.node from_id).belief_id,
     (g.node from_id).parents, (g.node from_id).children ++ [to_id],
     (g.node from_id).node_type⟩
  g1.setNode to_id
    ⟨(g1.node to_id).state, (g1.node to_id).belief_state, (g1.node to_id).belief_id,
     (g1.node to_id).parents ++ [from_id], (g1.node to_id).children,
     (g1.node to_id).node_type⟩

/-- `BeliefGraph::belief_id` from the source: position of a belief vector in
the reachable-belief list (`None` models the `expect` panic). -/
def BeliefGraph.beliefIdOf (g : BeliefGraph σ α) (belief_state : List α) : Option ℕ :=
  g.reachable_belief_states.findIdx? (fun b => b == belief_state)

/-- `transition_probability` from `src/belief_graph.rs`:
`child_bs.iter().zip(parent_bs).fold(0.0, |s, (p, q)| s + if *p > 0.0 { *q } else { 0.0 })`. -/
def transition_probability [DecidableEq α] (parent_bs child_bs : List α) : α :=
  (child_bs.zip parent_bs).foldl
    (fun s pq => s + if 0 < pq.1 then pq.2 else 0) 0

/-- One entry of the priority queue: a node id and its priority. -/
abbrev QEntry (α : Type) := ℕ × F α

/-- Model of `PriorityQueue::push` from the `priority_queue` crate: if the
item is present its priority is replaced, otherwise the item is inserted. -/
def qpush (q : List (QEntry α)) (id : ℕ) (pr : F α) : List (QEntry α) :=
  if q.any (fun e => e.1 == id) then
    q.map (fun e => if e.1 == id then (id, pr) else e)
  else
    q ++ [(id, pr)]

/-- Model of `PriorityQueue::pop`, selection part: an entry maximal for the
reversed `Priority` order, i.e. of numerically smallest priority (first such
entry on ties or incomparable priorities). -/
def qbest : List (QEntry α) → Option (QEntry α)
  | [] => none
  | e :: es =>
    match qbest es with
    | none => some e
    | some b => if F.lt b.2 e.2 then some b else some e

/-- Model of `PriorityQueue::pop`, removal part. -/
def qerase (q : List (QEntry α)) (id : ℕ) : List (QEntry α) :=
  q.filter (fun e => !(e.1 == id))

/-- State of the conditional Dijkstra loop: the tentative costs and the
priority queue. -/
structure DState (α : Type) where
  dist : List (F α)
  queue : List (QEntry α)
deriving DecidableEq

/-- The relaxation candidate computed for an `Action` parent `u` when its
child `v` is popped: `alternative = 0.0 + (cost(u.state, v.state) + dist[v])`. -/
def actionCandidate (g : BeliefGraph σ α) (cost : σ → σ → α) (u_id v_id : ℕ)
    (dist : List (F α)) : F α :=
  F.add (F.fin 0)
    (F.add (F.fin (cost (g.node u_id).state (g.node v_id).state))
      (dist.getD v_id F.nan))

/-- The relaxation candidate computed for an `Observation` parent `u`:
`alternative = 0.0 + Σ_{vv ∈ u.children} P(u.belief → vv.belief) * (cost(u.state, vv.state) + dist[vv])`,
folded left as in the source. -/
def obsCandidate [DecidableEq α] (g : BeliefGraph σ α) (cost : σ → σ → α) (u_id : ℕ)
    (dist : List (F α)) : F α :=
  (g.node u_id).children.foldl
    (fun alt vv_id =>
      F.add alt
        (F.mul (F.fin (transition_probability (g.node u_id).belief_state
                        (g.node vv_id).belief_state))
          (F.add (F.fin (cost (g.node u_id).state (g.node vv_id).state))
            (dist.getD vv_id F.nan))))
    (F.fin 0)

/-- Relax one parent `u_id` of the popped node `v_id`, as in the body of the
`for &u_id in &graph.nodes[v_id].parents` loop: compute `alternative`
according to the parent's kind (`none` models the `panic!` on an `Unknown`
kind), then assign and push if it improves `dist[u_id]`. -/
def relaxOne [DecidableEq α] (g : BeliefGraph σ α) (cost : σ → σ → α) (v_id : ℕ)
    (s : DState α) (u_id : ℕ) : Option (DState α) :=
  let alt? : Option (F α) :=
    match (g.node u_id).node_type with
    | BeliefNodeType.Action => some (actionCandidate g cost u_id v_id s.dist)
    | BeliefNodeType.Observation => some (obsCandidate g cost u_id s.dist)
    | BeliefNodeType.Unknown => none
  match alt? with
  | none => none
  | some alt =>
    if F.lt alt (s.dist.getD u_id F.nan) then
      some ⟨s.dist.set u_id alt, qpush s.queue u_id alt⟩
    else
      some s

/-- Relax all parents of the popped node in order, threading the state. -/
def relaxParents [DecidableEq α] (g : BeliefGraph σ α) (cost : σ → σ → α) (v_id : ℕ)
    (parents : List ℕ) (s : DState α) : Option (DState α) :=
  parents.foldlM (fun s u_id => relaxOne g cost v_id s u_id) s

/-- The main loop of `conditional_dijkstra`, fuel-indexed: while the queue is
nonempty, pop a node and relax its parents. -/
def dijkstraGo [DecidableEq α] (g : BeliefGraph σ α) (cost : σ → σ → α) :
    ℕ → DState α → Option (DState α)
  | 0, s => some s
  | fuel + 1, s =>
    match qbest s.queue with
    | none => some s
    | some e =>
      match relaxParents g cost e.1 (g.node e.1).parents ⟨s.dist, qerase s.queue e.1⟩ with
      | none => none
      | some s1 => dijkstraGo g cost fuel s1

/-- Initialization of `conditional_dijkstra`: `dist = [∞; n]`, then for each
terminal id set `dist[id] = 0` and push it with priority `0`. -/
def dijkstraInit (n : ℕ) (final_node_ids : List ℕ) : DState α :=
  final_node_ids.foldl
    (fun s id => ⟨s.dist.set id (F.fin 0), qpush s.queue id (F.fin 0)⟩)
    ⟨List.replicate n F.inf, []⟩

/-- `conditional_dijkstra` from `src/belief_graph.rs` (fuel-indexed: the
claims below are conditional on the loop reaching an empty queue, which the
returned state records). -/
def conditional_dijkstra [DecidableEq α] (g : BeliefGraph σ α) (final_node_ids : List ℕ)
    (cost : σ → σ → α) (fuel : ℕ) : Option (DState α) :=
  dijkstraGo g cost fuel (dijkstraInit g.nodes.length final_node_ids)

/-! Supporting lemmas: list access, queue model, `F` arithmetic. -/

theorem getD_set_self {β : Type} : ∀ (l : List β) (i : ℕ) (x d : β), i < l.length →
    (l.set i x).getD i d = x
  | [], i, _, _, h => absurd h (by simp)
  | _ :: _, 0, _, _, _ => rfl
  | _ :: l, i + 1, x, d, h => getD_set_self l i x d (by simpa using h)

theorem getD_set_ne {β : Type} : ∀ (l : List β) (i j : ℕ) (x d : β), j ≠ i →
    (l.set i x).getD j d = l.getD j d
  | [], _, _, _, _, _ => by simp
  | _ :: _, 0, 0, _, _, h => absurd rfl h
  | _ :: _, 0, _ + 1, _, _, _ => rfl
  | _ :: _, _ + 1, 0, _, _, _ => rfl
  | _ :: l, i + 1, j + 1, x, d, h =>
    getD_set_ne l i j x d (fun he => h (by rw [he]))

theorem getD_mem {β : Type} : ∀ (l : List β) (i : ℕ) (d : β), i < l.length →
    l.getD i d ∈ l
  | [], _, _, h => absurd h (by simp)
  | _ :: _, 0, _, _ => List.mem_cons_self _ _
  | _ :: l, i + 1, d, h => List.mem_cons_of_mem _ (getD_mem l i d (by simpa using h))

theorem getD_oob {β : Type} : ∀ (l : List β) (i : ℕ) (d : β), l.length ≤ i →
    l.getD i d = d
  | [], _, _, _ => by simp
  | _ :: _, 0, _, h => absurd h (by simp)
  | _ :: l, i + 1, d, h => getD_oob l i d (by simpa using h)

/-- Membership in the queue, as a predicate on ids. -/
def inQ (q : List (QEntry α)) (w : ℕ) : Prop := ∃ pr, (w, pr) ∈ q

theorem inQ_qpush_self (q : List (QEntry α)) (id : ℕ) (pr : F α) :
    inQ (qpush q id pr) id := by
  unfold qpush
  by_cases h : q.any (fun e => e.1 == id) = true
  · rw [if_pos h]
    rcases List.any_eq_true.mp h with ⟨e, he, heq⟩
    refine ⟨pr, List.mem_map.mpr ⟨e, he, ?_⟩⟩
    rw [if_pos heq]
  · rw [if_neg h]
    exact ⟨pr, List.mem_append_right _ (List.mem_singleton.mpr rfl)⟩

theorem inQ_qpush_mono {q : List (QEntry α)} {w : ℕ} (id : ℕ) (pr : F α)
    (h : inQ q w) : inQ (qpush q id pr) w := by
  by_cases hw : w = id
  · subst hw; exact inQ_qpush_self q w pr
  · obtain ⟨p0, hp0⟩ := h
    unfold qpush
    by_cases hq : q.any (fun e => e.1 == id) = true
    · rw [if_pos hq]
      refine ⟨p0, List.mem_map.mpr ⟨(w, p0), hp0, ?_⟩⟩
      rw [if_neg (by simpa using hw)]
    · rw [if_neg hq]
      exact ⟨p0, List.mem_append_left _ hp0⟩

theorem mem_qpush_elim {q : List (QEntry α)} {id : ℕ} {pr : F α} {e : QEntry α}
    (h : e ∈ qpush q id pr) : e = (id, pr) ∨ (e ∈ q ∧ e.1 ≠ id) := by
  unfold qpush at h
  by_cases hq : q.any (fun e => e.1 == id) = true
  · rw [if_pos hq] at h
    rcases List.mem_map.mp h with ⟨e0, he0, heq⟩
    by_cases hid : (e0.1 == id) = true
    · rw [if_pos hid] at heq; exact Or.inl heq.symm
    · rw [if_neg hid] at heq
      exact Or.inr ⟨heq ▸ he0, by subst heq; simpa using hid⟩
  · rw [if_neg hq] at h
    rcases List.mem_append.mp h with h | h
    · refine Or.inr ⟨h, fun hc => hq ?_⟩
      exact List.any_eq_true.mpr ⟨e, h, by simpa using hc⟩
    · exact Or.inl (List.mem_singleton.mp h)

theorem mem_qerase {q : List (QEntry α)} {id : ℕ} {e : QEntry α} :
    e ∈ qerase q id ↔ e ∈ q ∧ e.1 ≠ id := by
  unfold qerase
  rw [List.mem_filter]
  simp

theorem qbest_mem {q : List (QEntry α)} {e : QEntry α} (h : qbest q = some e) :
    e ∈ q := by
  induction q with
  | nil => simp [qbest] at h
  | cons a l ih =>
    unfold qbest at h
    split at h
    · exact (Option.some.inj h) ▸ List.mem_cons_self _ _
    · rename_i b hb
      split at h
      · exact List.mem_cons_of_mem _ (ih (hb.trans (congrArg some (Option.some.inj h))))
      · exact (Option.some.inj h) ▸ List.mem_cons_self _ _

theorem F.zero_add (x : F α) : F.add (F.fin 0) x = x := by
  cases x <;> simp [F.add]

theorem F.add_nan (x : F α) : F.add F.nan x = F.nan := rfl

theorem add_nn {a b : F α} (ha : F.nn a) (hb : F.nn b) : F.nn (F.add a b) := by
  rcases ha with ha | ⟨q, hq, ha⟩ <;> rcases hb with hb | ⟨r, hr, hb⟩ <;> subst ha <;> subst hb
  · exact Or.inl rfl
  · exact Or.inl rfl
  · exact Or.inl rfl
  · exact Or.inr ⟨q + r, add_nonneg hq hr, rfl⟩

theorem add_eq_fin {a b : F α} {q : α} (h : F.add a b = F.fin q) :
    (∃ r, a = F.fin r) ∧ ∃ s, b = F.fin s := by
  cases a <;> cases b <;> simp [F.add] at h ⊢

theorem nn_Fle_inf {x : F α} (h : F.nn x) : Fle x F.inf := by
  rcases h with h | ⟨q, _, h⟩ <;> subst h
  · exact Or.inr rfl
  · exact Or.inl (by simp [F.lt])

theorem add_fin_nn {c : α} (hc : 0 ≤ c) {d : F α} (hd : F.nn d) :
    F.nn (F.add (F.fin c) d) :=
  add_nn (Or.inr ⟨c, hc, rfl⟩) hd

theorem mul_pos_nn {p : α} (hp : 0 < p) {d : F α} (hd : F.nn d) :
    F.nn (F.mul (F.fin p) d) := by
  rcases hd with hd | ⟨q, hq, hd⟩ <;> subst hd
  · simp only [F.mul]
    rw [if_neg (ne_of_gt hp), if_pos hp]
    exact Or.inl rfl
  · exact Or.inr ⟨p * q, mul_nonneg hp.le hq, rfl⟩

theorem add_fin_mono {c : α} {d d' : F α} (hd : F.nn d) (hd' : F.nn d')
    (h : Fle d' d) : Fle (F.add (F.fin c) d') (F.add (F.fin c) d) := by
  rcases h with h | h
  · rcases hd with hd | ⟨q, hq, hd⟩ <;> subst hd
    · rcases hd' with hd' | ⟨r, hr, hd'⟩ <;> subst hd'
      · simp [F.lt] at h
      · simp only [F.add]
        exact Or.inl (by simp [F.lt])
    · rcases hd' with hd' | ⟨r, hr, hd'⟩ <;> subst hd'
      · simp [F.lt] at h
      · simp only [F.add]
        refine Or.inl ?_
        simp [F.lt] at h ⊢
        linarith
  · subst h; exact Fle.refl _

theorem add_fin_strict_mono {c : α} {d d' : F α} (hd : F.nn d) (hd' : F.nn d')
    (h : F.lt d' d = true) :
    F.lt (F.add (F.fin c) d') (F.add (F.fin c) d) = true := by
  rcases hd with hd | ⟨q, hq, hd⟩ <;> rcases hd' with hd' | ⟨r, hr, hd'⟩ <;>
    subst hd <;> subst hd' <;> simp [F.lt, F.add] at h ⊢
  linarith

/-- Left fold of additions over a mapped list equals the start value plus the
sum of the images. -/
theorem foldl_add_eq_sum {β : Type} (h : β → α) :
    ∀ (l : List β) (a : α), l.foldl (fun s x => s + h x) a = a + (l.map h).sum
  | [], a => by simp
  | x :: l, a => by
    rw [List.foldl_cons, foldl_add_eq_sum h l (a + h x), List.map_cons, List.sum_cons]
    ring

/-- Fold of `F.add` over terms: a `nan` starting value is absorbing. -/
theorem foldl_fadd_nan {f : ℕ → F α} : ∀ (l : List ℕ),
    l.foldl (fun acc v => F.add acc (f v)) F.nan = F.nan
  | [] => rfl
  | v :: l => by rw [List.foldl_cons, F.add_nan, foldl_fadd_nan l]

/-- Fold of `F.add` over terms: if some term is `nan`, the result is `nan`. -/
theorem foldl_fadd_term_nan {f : ℕ → F α} : ∀ (l : List ℕ) (acc : F α) (w : ℕ),
    w ∈ l → f w = F.nan → l.foldl (fun acc v => F.add acc (f v)) acc = F.nan
  | [], _, _, hw, _ => absurd hw (by simp)
  | v :: l, acc, w, hw, hnan => by
    rcases List.mem_cons.mp hw with h | h
    · subst h
      rw [List.foldl_cons, hnan]
      have : F.add acc F.nan = F.nan := by cases acc <;> rfl
      rw [this, foldl_fadd_nan]
    · exact foldl_fadd_term_nan l _ w h hnan

/-- Fold of `F.add` over `nn` terms starting from an `nn` value is `nn`. -/
theorem foldl_fadd_nn {f : ℕ → F α} : ∀ (l : List ℕ) (acc : F α), F.nn acc →
    (∀ v ∈ l, F.nn (f v)) → F.nn (l.foldl (fun acc v => F.add acc (f v)) acc)
  | [], acc, hacc, _ => hacc
  | v :: l, acc, hacc, hterm => by
    rw [List.foldl_cons]
    exact foldl_fadd_nn l _ (add_nn hacc (hterm v (List.mem_cons_self _ _)))
      (fun w hw => hterm w (List.mem_cons_of_mem _ hw))

/-- If a fold of `F.add` produces a finite value, the start value and every
term are finite. -/
theorem foldl_fadd_fin {f : ℕ → F α} : ∀ (l : List ℕ) (acc : F α) (q : α),
    l.foldl (fun acc v => F.add acc (f v)) acc = F.fin q →
    (∃ r, acc = F.fin r) ∧ ∀ v ∈ l, ∃ r, f v = F.fin r
  | [], acc, q, h => ⟨⟨q, h⟩, by simp⟩
  | v :: l, acc, q, h => by
    rw [List.foldl_cons] at h
    obtain ⟨⟨r, hr⟩, hterm⟩ := foldl_fadd_fin l _ q h
    obtain ⟨⟨r1, hr1⟩, ⟨r2, hr2⟩⟩ := add_eq_fin hr
    refine ⟨⟨r1, hr1⟩, fun w hw => ?_⟩
    rcases List.mem_cons.mp hw with h1 | h1
    · exact h1 ▸ ⟨r2, hr2⟩
    · exact hterm w h1

/-- Monotonicity of `F.add` on `nn` values. -/
theorem add_mono2 {a a' b b' : F α} (ha : F.nn a) (ha' : F.nn a') (hb : F.nn b)
    (hb' : F.nn b') (h1 : Fle a' a) (h2 : Fle b' b) :
    Fle (F.add a' b') (F.add a b) := by
  rcases ha with hia | ⟨q, hq, hia⟩ <;> subst hia
  · have : F.add F.inf b = F.inf := by
      rcases hb with h | ⟨r, _, h⟩ <;> subst h <;> rfl
    rw [this]
    exact nn_Fle_inf (add_nn ha' hb')
  · rcases hb with hib | ⟨r, hr, hib⟩ <;> subst hib
    · rw [show F.add (F.fin q) F.inf = F.inf from rfl]
      exact nn_Fle_inf (add_nn ha' hb')
    · obtain ⟨q', hq', hfa⟩ := nn_Fle_fin ha' h1
      obtain ⟨r', hr', hfb⟩ := nn_Fle_fin hb' h2
      subst hfa; subst hfb
      simp only [F.add]
      rcases h1 with h1 | h1 <;> rcases h2 with h2 | h2
      · simp [F.lt] at h1 h2
        exact Or.inl (by simp [F.lt]; linarith)
      · have h2q : r' = r := by simpa using congrArg (fun x => match x with | F.fin y => y | _ => 0) h2
        subst h2q
        simp [F.lt] at h1
        exact Or.inl (by simp [F.lt]; linarith)
      · have h1q : q' = q := by simpa using congrArg (fun x => match x with | F.fin y => y | _ => 0) h1
        subst h1q
        simp [F.lt] at h2
        exact Or.inl (by simp [F.lt]; linarith)
      · have h1q : q' = q := by simpa using congrArg (fun x => match x with | F.fin y => y | _ => 0) h1
        have h2q : r' = r := by simpa using congrArg (fun x => match x with | F.fin y => y | _ => 0) h2
        subst h1q; subst h2q
        exact Fle.refl _

/-- Monotonicity of a fold of `F.add` over pointwise-dominated `nn` terms. -/
theorem foldl_fadd_mono {f f' : ℕ → F α} : ∀ (l : List ℕ) (acc acc' : F α),
    F.nn acc → F.nn acc' → Fle acc' acc →
    (∀ v ∈ l, F.nn (f v) ∧ F.nn (f' v) ∧ Fle (f' v) (f v)) →
    Fle (l.foldl (fun acc v => F.add acc (f' v)) acc')
      (l.foldl (fun acc v => F.add acc (f v)) acc)
  | [], _, _, _, _, hle, _ => hle
  | v :: l, acc, acc', hacc, hacc', hle, hterm => by
    rw [List.foldl_cons, List.foldl_cons]
    obtain ⟨h1, h2, h3⟩ := hterm v (List.mem_cons_self _ _)
    exact foldl_fadd_mono l _ _ (add_nn hacc h1) (add_nn hacc' h2)
      (add_mono2 hacc hacc' h1 h2 hle h3)
      (fun w hw => hterm w (List.mem_cons_of_mem _ hw))

/-- An `nn` value is dominated by its sum with an `nn` value on the right. -/
theorem Fle_add_right {a t : F α} (ha : F.nn a) (ht : F.nn t) : Fle a (F.add a t) := by
  rcases ha with h | ⟨q, hq, h⟩ <;> subst h <;>
    rcases ht with h2 | ⟨r, hr, h2⟩ <;> subst h2
  · exact Or.inr rfl
  · exact Or.inr rfl
  · exact Or.inl (by simp [F.add, F.lt])
  · simp only [F.add]
    rcases eq_or_lt_of_le hr with hr0 | hr0
    · exact Or.inr (by rw [← hr0, add_zero])
    · refine Or.inl ?_
      simp [F.lt]
      linarith

/-- An `nn` value is dominated by its sum with an `nn` value on the left. -/
theorem Fle_add_left {a t : F α} (ha : F.nn a) (ht : F.nn t) : Fle t (F.add a t) := by
  rcases ha with h | ⟨q, hq, h⟩ <;> subst h <;>
    rcases ht with h2 | ⟨r, hr, h2⟩ <;> subst h2
  · exact Or.inr rfl
  · exact Or.inl (by simp [F.add, F.lt])
  · exact Or.inr rfl
  · simp only [F.add]
    rcases eq_or_lt_of_le hq with hq0 | hq0
    · exact Or.inr (by rw [← hq0, zero_add])
    · refine Or.inl ?_
      simp [F.lt]
      linarith

/-- A fold of `F.add` over `nn` terms dominates its start value. -/
theorem foldl_fadd_ge_acc {f : ℕ → F α} : ∀ (l : List ℕ) (acc : F α), F.nn acc →
    (∀ v ∈ l, F.nn (f v)) →
    Fle acc (l.foldl (fun acc v => F.add acc (f v)) acc)
  | [], _, _, _ => Fle.refl _
  | v :: l, acc, hacc, hterm => by
    rw [List.foldl_cons]
    have h1 : F.nn (f v) := hterm v (List.mem_cons_self _ _)
    exact (Fle_add_right hacc h1).trans
      (foldl_fadd_ge_acc l _ (add_nn hacc h1)
        (fun w hw => hterm w (List.mem_cons_of_mem _ hw)))

/-- A fold of `F.add` over `nn` terms dominates each of its terms. -/
theorem foldl_fadd_ge_term {f : ℕ → F α} : ∀ (l : List ℕ) (acc : F α) (w : ℕ),
    w ∈ l → F.nn acc → (∀ v ∈ l, F.nn (f v)) →
    Fle (f w) (l.foldl (fun acc v => F.add acc (f v)) acc)
  | [], _, _, hw, _, _ => absurd hw (by simp)
  | v :: l, acc, w, hw, hacc, hterm => by
    rw [List.foldl_cons]
    have h1 : F.nn (f v) := hterm v (List.mem_cons_self _ _)
    rcases List.mem_cons.mp hw with h | h
    · subst h
      exact (Fle_add_left hacc h1).trans
        (foldl_fadd_ge_acc l _ (add_nn hacc h1)
          (fun x hx => hterm x (List.mem_cons_of_mem _ hx)))
    · exact foldl_fadd_ge_term l _ w h (add_nn hacc h1)
        (fun x hx => hterm x (List.mem_cons_of_mem _ hx))

/-! Transition-probability lemmas. -/

/-- `transition_probability` as a sum over the zipped lists. -/
theorem tp_eq_sum [DecidableEq α] (parent_bs child_bs : List α) :
    transition_probability parent_bs child_bs =
      ((child_bs.zip parent_bs).map (fun pq => if 0 < pq.1 then pq.2 else 0)).sum := by
  unfold transition_probability
  rw [foldl_add_eq_sum (fun pq => if 0 < pq.1 then pq.2 else 0) (child_bs.zip parent_bs) 0,
    zero_add]

/-- Transition probabilities out of a belief with nonnegative entries are
nonnegative. -/
theorem tp_nonneg [DecidableEq α] {parent_bs : List α} (child_bs : List α)
    (h : ∀ x ∈ parent_bs, 0 ≤ x) :
    0 ≤ transition_probability parent_bs child_bs := by
  rw [tp_eq_sum]
  refine List.sum_nonneg ?_
  intro x hx
  rcases List.mem_map.mp hx with ⟨pq, hpq, hval⟩
  have hq : pq.2 ∈ parent_bs := (List.of_mem_zip hpq).2
  subst hval
  by_cases hp : 0 < pq.1
  · rw [if_pos hp]; exact h _ hq
  · rw [if_neg hp]

/-- A transition probability out of a belief with nonnegative entries is at
most the total mass of that belief. -/
theorem tp_le_sum [DecidableEq α] : ∀ (parent_bs child_bs : List α),
    (∀ x ∈ parent_bs, 0 ≤ x) →
    transition_probability parent_bs child_bs ≤ parent_bs.sum
  | _, [], h => by
    rw [tp_eq_sum]
    simp
    exact List.sum_nonneg h
  | [], _ :: _, h => by
    rw [tp_eq_sum]
    simp
  | q :: parent_bs, p :: child_bs, h => by
    rw [tp_eq_sum] at *
    have ih := tp_le_sum parent_bs child_bs (fun x hx => h x (List.mem_cons_of_mem _ hx))
    rw [tp_eq_sum] at ih
    simp only [List.zip_cons_cons, List.map_cons, List.sum_cons]
    have hq : 0 ≤ q := h q (List.mem_cons_self _ _)
    have hterm : (if 0 < p then q else 0) ≤ q := by
      by_cases hp : 0 < p
      · rw [if_pos hp]
      · rw [if_neg hp]; exact hq
    calc (if 0 < p then q else 0) + ((child_bs.zip parent_bs).map
            (fun pq => if 0 < pq.1 then pq.2 else 0)).sum
        ≤ q + parent_bs.sum := add_le_add hterm ih
      _ = (q :: parent_bs).sum := by rw [List.sum_cons]

/-- Self transitions have probability equal to the belief mass when entries
are nonnegative: each positive entry contributes itself, each zero entry
contributes zero either way. -/
theorem tp_self [DecidableEq α] : ∀ (bs : List α), (∀ x ∈ bs, 0 ≤ x) →
    transition_probability bs bs = bs.sum
  | [], _ => rfl
  | x :: bs, h => by
    rw [tp_eq_sum]
    simp only [List.zip_cons_cons, List.map_cons, List.sum_cons]
    have ih := tp_self bs (fun y hy => h y (List.mem_cons_of_mem _ hy))
    rw [tp_eq_sum] at ih
    rw [ih]
    have hx : 0 ≤ x := h x (List.mem_cons_self _ _)
    by_cases hp : 0 < x
    · rw [if_pos hp]
    · rw [if_neg hp]
      have : x = 0 := le_antisymm (not_lt.mp hp) hx
      rw [this]

/-! The relaxation invariant of `conditional_dijkstra`. -/

/-- One term of the observation sum: the contribution of child `vv`. -/
def obsTerm [DecidableEq α] (g : BeliefGraph σ α) (cost : σ → σ → α) (u_id : ℕ)
    (dist : List (F α)) (vv_id : ℕ) : F α :=
  F.mul (F.fin (transition_probability (g.node u_id).belief_state
          (g.node vv_id).belief_state))
    (F.add (F.fin (cost (g.node u_id).state (g.node vv_id).state))
      (dist.getD vv_id F.nan))

theorem obsCandidate_eq_foldl [DecidableEq α] (g : BeliefGraph σ α) (cost : σ → σ → α)
    (u_id : ℕ) (dist : List (F α)) :
    obsCandidate g cost u_id dist =
      (g.node u_id).children.foldl
        (fun alt vv_id => F.add alt (obsTerm g cost u_id dist vv_id)) (F.fin 0) := rfl

/-- Each observation term is either `nan` (a zero-probability child whose
cost is infinite) or an `nn` value. -/
theorem obsTerm_cases {p c : α} {d : F α} (hp : 0 ≤ p) (hc : 0 ≤ c) (hd : F.nn d) :
    (F.mul (F.fin p) (F.add (F.fin c) d) = F.nan ∧ p = 0 ∧ d = F.inf) ∨
      F.nn (F.mul (F.fin p) (F.add (F.fin c) d)) := by
  rcases hd with hd | ⟨q, hq, hd⟩ <;> subst hd
  · rcases eq_or_lt_of_le hp with hp0 | hp0
    · refine Or.inl ⟨?_, hp0.symm, rfl⟩
      simp only [F.add, F.mul]
      rw [if_pos hp0.symm]
    · refine Or.inr (Or.inl ?_)
      simp only [F.add, F.mul]
      rw [if_neg (ne_of_gt hp0), if_pos hp0]
  · refine Or.inr (Or.inr ⟨p * (c + q), mul_nonneg hp (by linarith), ?_⟩)
    simp only [F.add, F.mul]

/-- Monotonicity of a single observation term in the child cost. -/
theorem obsTerm_mono {p c : α} {d d' : F α} (hp : 0 ≤ p) (hc : 0 ≤ c)
    (hd : F.nn d) (hd' : F.nn d') (hle : Fle d' d)
    (hnan : F.mul (F.fin p) (F.add (F.fin c) d) ≠ F.nan) :
    F.nn (F.mul (F.fin p) (F.add (F.fin c) d')) ∧
      Fle (F.mul (F.fin p) (F.add (F.fin c) d'))
        (F.mul (F.fin p) (F.add (F.fin c) d)) := by
  rcases hd with hd | ⟨q, hq, hd⟩ <;> subst hd
  · have hp0 : 0 < p := by
      rcases eq_or_lt_of_le hp with h0 | h0
      · exfalso
        apply hnan
        simp only [F.add, F.mul]
        rw [if_pos h0.symm]
      · exact h0
    have hdi : F.mul (F.fin p) (F.add (F.fin c) F.inf) = F.inf := by
      simp only [F.add, F.mul]
      rw [if_neg (ne_of_gt hp0), if_pos hp0]
    rw [hdi]
    have hterm : F.nn (F.mul (F.fin p) (F.add (F.fin c) d')) := by
      rcases hd' with hd' | ⟨r, hr, hd'⟩ <;> subst hd'
      · rw [hdi]; exact Or.inl rfl
      · exact Or.inr ⟨p * (c + r), mul_nonneg hp (by linarith), rfl⟩
    exact ⟨hterm, nn_Fle_inf hterm⟩
  · obtain ⟨r, hr, hfd⟩ := nn_Fle_fin hd' hle
    subst hfd
    have hl : r ≤ q := by
      rcases hle with h | h
      · have hrq : r < q := by simpa [F.lt] using h
        exact hrq.le
      · simp only [F.fin.injEq] at h
        exact h.le
    refine ⟨Or.inr ⟨p * (c + r), mul_nonneg hp (by linarith), rfl⟩, ?_⟩
    simp only [F.add, F.mul]
    rcases eq_or_lt_of_le (mul_le_mul_of_nonneg_left (add_le_add_left hl c) hp) with h | h
    · exact Or.inr (by rw [h])
    · exact Or.inl (by simp [F.lt]; exact h)

/-- Congruence of a fold of `F.add` in the terms. -/
theorem foldl_fadd_congr {f f' : ℕ → F α} : ∀ (l : List ℕ) (acc : F α),
    (∀ v ∈ l, f' v = f v) →
    l.foldl (fun acc v => F.add acc (f' v)) acc =
      l.foldl (fun acc v => F.add acc (f v)) acc
  | [], _, _ => rfl
  | v :: l, acc, h => by
    rw [List.foldl_cons, List.foldl_cons, h v (List.mem_cons_self _ _)]
    exact foldl_fadd_congr l _ (fun w hw => h w (List.mem_cons_of_mem _ hw))

/-- The observation candidate only depends on `dist` at the children. -/
theorem obsCandidate_congr [DecidableEq α] {g : BeliefGraph σ α} {cost : σ → σ → α}
    {u_id : ℕ} {dist dist' : List (F α)}
    (h : ∀ vv ∈ (g.node u_id).children, dist'.getD vv F.nan = dist.getD vv F.nan) :
    obsCandidate g cost u_id dist' = obsCandidate g cost u_id dist := by
  rw [obsCandidate_eq_foldl, obsCandidate_eq_foldl]
  refine foldl_fadd_congr _ _ (fun vv hvv => ?_)
  unfold obsTerm
  rw [h vv hvv]

/-- If the observation candidate is not `nan`, every term is `nn`, hence so
is the candidate. -/
theorem obsCandidate_nn [DecidableEq α] {g : BeliefGraph σ α} {cost : σ → σ → α}
    {u_id : ℕ} {dist : List (F α)}
    (hbs : ∀ x ∈ (g.node u_id).belief_state, 0 ≤ x)
    (hcost : ∀ a b, 0 ≤ cost a b)
    (hch : ∀ vv ∈ (g.node u_id).children, F.nn (dist.getD vv F.nan))
    (hnan : obsCandidate g cost u_id dist ≠ F.nan) :
    (∀ vv ∈ (g.node u_id).children, F.nn (obsTerm g cost u_id dist vv)) ∧
      F.nn (obsCandidate g cost u_id dist) := by
  have hterm : ∀ vv ∈ (g.node u_id).children, F.nn (obsTerm g cost u_id dist vv) := by
    intro vv hvv
    rcases obsTerm_cases (tp_nonneg _ hbs) (hcost _ _) (hch vv hvv) with ⟨hn, _, _⟩ | hok
    · exfalso
      apply hnan
      rw [obsCandidate_eq_foldl]
      exact foldl_fadd_term_nan _ _ vv hvv hn
    · exact hok
  refine ⟨hterm, ?_⟩
  rw [obsCandidate_eq_foldl]
  exact foldl_fadd_nn _ _ (Or.inr ⟨0, le_rfl, rfl⟩) hterm

/-- Monotonicity of the observation candidate in `dist`, on `nn` cost
vectors, when the old candidate is not `nan`. -/
theorem obsCandidate_mono [DecidableEq α] {g : BeliefGraph σ α} {cost : σ → σ → α}
    {u_id : ℕ} {dist dist' : List (F α)}
    (hbs : ∀ x ∈ (g.node u_id).belief_state, 0 ≤ x)
    (hcost : ∀ a b, 0 ≤ cost a b)
    (hch : ∀ vv ∈ (g.node u_id).children, F.nn (dist.getD vv F.nan))
    (hch' : ∀ vv ∈ (g.node u_id).children, F.nn (dist'.getD vv F.nan))
    (hle : ∀ i, Fle (dist'.getD i F.nan) (dist.getD i F.nan))
    (hnan : obsCandidate g cost u_id dist ≠ F.nan) :
    Fle (obsCandidate g cost u_id dist') (obsCandidate g cost u_id dist) := by
  obtain ⟨hterm, _⟩ := obsCandidate_nn hbs hcost hch hnan
  rw [obsCandidate_eq_foldl, obsCandidate_eq_foldl]
  refine foldl_fadd_mono _ _ _ (Or.inr ⟨0, le_rfl, rfl⟩) (Or.inr ⟨0, le_rfl, rfl⟩)
    (Fle.refl _) (fun vv hvv => ?_)
  have hmono := obsTerm_mono (tp_nonneg (g.node vv).belief_state hbs) (hcost _ _)
    (hch vv hvv) (hch' vv hvv) (hle vv) ((hterm vv hvv).not_nan)
  exact ⟨hterm vv hvv, hmono.1, hmono.2⟩

/-- If the observation candidate is finite, every child cost is finite. -/
theorem obsCandidate_fin_child [DecidableEq α] {g : BeliefGraph σ α} {cost : σ → σ → α}
    {u_id : ℕ} {dist : List (F α)} {q : α}
    (hbs : ∀ x ∈ (g.node u_id).belief_state, 0 ≤ x)
    (h : obsCandidate g cost u_id dist = F.fin q) :
    ∀ vv ∈ (g.node u_id).children, dist.getD vv F.nan ≠ F.inf := by
  intro vv hvv hinf
  rw [obsCandidate_eq_foldl] at h
  obtain ⟨_, hterm⟩ := foldl_fadd_fin _ _ _ h
  obtain ⟨r, hr⟩ := hterm vv hvv
  unfold obsTerm at hr
  rw [hinf] at hr
  have hp : 0 ≤ transition_probability (g.node u_id).belief_state
      (g.node vv).belief_state := tp_nonneg (g.node vv).belief_state hbs
  rcases eq_or_lt_of_le hp with h0 | h0
  · simp only [F.add, F.mul] at hr
    rw [if_pos h0.symm] at hr
    exact absurd hr (by simp)
  · simp only [F.add, F.mul] at hr
    rw [if_neg (ne_of_gt h0), if_pos h0] at hr
    exact absurd hr (by simp)

/-! The node-level relaxation invariant. -/

/-- The pending-relaxation predicate used while the parents of the popped
node `v` are being processed: `pend u w` holds when `w` is the popped node
and `u` is still in the remaining parent list `R`. -/
def pendR (v : ℕ) (R : List ℕ) : ℕ → ℕ → Prop := fun u w => w = v ∧ u ∈ R

/-- The empty pending predicate (between loop iterations). -/
def noPend : ℕ → ℕ → Prop := fun _ _ => False

/-- The per-node invariant: a non-terminal node `u` of finite cost is
classified, and carries a relaxation witness.  For an `Action` node: some
child whose candidate equals `dist[u]`, unless that child is queued (or
pending) with a candidate not above `dist[u]`.  For an `Observation` node:
the observation sum is not above `dist[u]`, and equals it unless some child
is queued or pending. -/
def nodeInv [DecidableEq α] (g : BeliefGraph σ α) (cost : σ → σ → α) (finals : List ℕ)
    (dist : List (F α)) (q : List (QEntry α)) (pend : ℕ → ℕ → Prop) (u : ℕ) : Prop :=
  u < dist.length → u ∉ finals → dist.getD u F.nan ≠ F.inf →
    ((g.node u).node_type ≠ BeliefNodeType.Unknown ∧
     ((g.node u).node_type = BeliefNodeType.Action →
        ∃ v ∈ (g.node u).children,
          Fle (actionCandidate g cost u v dist) (dist.getD u F.nan) ∧
            (actionCandidate g cost u v dist = dist.getD u F.nan ∨ inQ q v ∨ pend u v)) ∧
     ((g.node u).node_type = BeliefNodeType.Observation →
        Fle (obsCandidate g cost u dist) (dist.getD u F.nan) ∧
          (obsCandidate g cost u dist = dist.getD u F.nan ∨
            ∃ v ∈ (g.node u).children, inQ q v ∨ pend u v)))

/-- The loop invariant of `conditional_dijkstra`. -/
structure DInv [DecidableEq α] (g : BeliefGraph σ α) (cost : σ → σ → α)
    (finals : List ℕ) (s : DState α) (pend : ℕ → ℕ → Prop) : Prop where
  len : s.dist.length = g.nodes.length
  dOK : ∀ d ∈ s.dist, F.nn d
  qOK : ∀ e ∈ s.queue, e.1 < s.dist.length ∧ e.2 = s.dist.getD e.1 F.nan
  inv : ∀ u, nodeInv g cost finals s.dist s.queue pend u

theorem nodeInv_mono_pend [DecidableEq α] {g : BeliefGraph σ α} {cost : σ → σ → α}
    {finals : List ℕ} {dist : List (F α)} {q : List (QEntry α)}
    {pend pend' : ℕ → ℕ → Prop} (hp : ∀ u w, pend u w → pend' u w) {u : ℕ}
    (h : nodeInv g cost finals dist q pend u) :
    nodeInv g cost finals dist q pend' u := by
  intro h1 h2 h3
  obtain ⟨hA, hB, hC⟩ := h h1 h2 h3
  refine ⟨hA, fun ht => ?_, fun ht => ?_⟩
  · obtain ⟨v, hv, hle, hd⟩ := hB ht
    exact ⟨v, hv, hle, hd.imp id (Or.imp id (hp u v))⟩
  · obtain ⟨hle, hd⟩ := hC ht
    refine ⟨hle, hd.imp id ?_⟩
    rintro ⟨v, hv, hq⟩
    exact ⟨v, hv, hq.imp id (hp u v)⟩

theorem DInv_mono_pend [DecidableEq α] {g : BeliefGraph σ α} {cost : σ → σ → α}
    {finals : List ℕ} {s : DState α} {pend pend' : ℕ → ℕ → Prop}
    (hp : ∀ u w, pend u w → pend' u w)
    (h : DInv g cost finals s pend) : DInv g cost finals s pend' :=
  ⟨h.len, h.dOK, h.qOK, fun u => nodeInv_mono_pend hp (h.inv u)⟩

/-! Step lemmas for the relaxation loop. -/

theorem relaxOne_eq_unknown [DecidableEq α] {g : BeliefGraph σ α} {cost : σ → σ → α}
    {v u : ℕ} {s : DState α} (h : (g.node u).node_type = BeliefNodeType.Unknown) :
    relaxOne g cost v s u = none := by
  unfold relaxOne
  rw [h]

theorem relaxOne_eq_action [DecidableEq α] {g : BeliefGraph σ α} {cost : σ → σ → α}
    {v u : ℕ} {s : DState α} (h : (g.node u).node_type = BeliefNodeType.Action) :
    relaxOne g cost v s u =
      if F.lt (actionCandidate g cost u v s.dist) (s.dist.getD u F.nan) then
        some ⟨s.dist.set u (actionCandidate g cost u v s.dist),
              qpush s.queue u (actionCandidate g cost u v s.dist)⟩
      else some s := by
  unfold relaxOne
  rw [h]

theorem relaxOne_eq_obs [DecidableEq α] {g : BeliefGraph σ α} {cost : σ → σ → α}
    {v u : ℕ} {s : DState α} (h : (g.node u).node_type = BeliefNodeType.Observation) :
    relaxOne g cost v s u =
      if F.lt (obsCandidate g cost u s.dist) (s.dist.getD u F.nan) then
        some ⟨s.dist.set u (obsCandidate g cost u s.dist),
              qpush s.queue u (obsCandidate g cost u s.dist)⟩
      else some s := by
  unfold relaxOne
  rw [h]

/-- A nonnegative cost added to an `nn` value never drops below that value:
the guard `alternative < dist[v]` can never fire on a self loop. -/
theorem not_lt_add_fin_self {c : α} (hc : 0 ≤ c) {d : F α} (hd : F.nn d) :
    F.lt (F.add (F.fin c) d) d = false := by
  rcases hd with h | ⟨q, hq, h⟩ <;> subst h
  · rfl
  · simp only [F.add, F.lt]
    simp
    linarith

theorem Fle_ne_nan {a b : F α} (h : Fle a b) (hb : b ≠ F.nan) : a ≠ F.nan := by
  intro ha
  subst ha
  rcases h with h | h
  · exact absurd h (by simp [F.lt])
  · exact hb h.symm

/-- Pointwise decrease of `dist` after an improving assignment. -/
theorem set_pointwise_le {dist : List (F α)} {u₀ : ℕ} {alt : F α}
    (hu₀ : u₀ < dist.length) (hlt : F.lt alt (dist.getD u₀ F.nan) = true) :
    ∀ i, Fle ((dist.set u₀ alt).getD i F.nan) (dist.getD i F.nan) := by
  intro i
  by_cases h : i = u₀
  · subst h
    rw [getD_set_self _ _ _ _ hu₀]
    exact Or.inl hlt
  · rw [getD_set_ne _ _ _ _ _ h]
    exact Fle.refl _

/-- `nn`-ness of all entries is preserved by an `nn` assignment. -/
theorem dOK_set {dist : List (F α)} {u₀ : ℕ} {alt : F α}
    (hdOK : ∀ d ∈ dist, F.nn d) (halt : F.nn alt) :
    ∀ d ∈ dist.set u₀ alt, F.nn d := by
  intro d hd
  rcases List.mem_or_eq_of_mem_set hd with h | h
  · exact hdOK d h
  · exact h ▸ halt

/-- Preservation of the per-node invariant at a node other than the assigned
one, after an improving assignment `dist[u₀] := alt` with push of `u₀`. -/
theorem nodeInv_after_assign_other [DecidableEq α] {g : BeliefGraph σ α}
    {cost : σ → σ → α} {finals : List ℕ}
    (hcoh1 : ∀ u, u < g.nodes.length → ∀ w ∈ (g.node u).children,
      w < g.nodes.length ∧ u ∈ (g.node w).parents)
    (hbs : ∀ u, u < g.nodes.length → ∀ x ∈ (g.node u).belief_state, 0 ≤ x)
    (hcost : ∀ a b, 0 ≤ cost a b)
    {dist : List (F α)} {q : List (QEntry α)} {u₀ : ℕ} {alt : F α}
    (hlen : dist.length = g.nodes.length)
    (hu₀ : u₀ < dist.length)
    (hdOK : ∀ d ∈ dist, F.nn d)
    (halt : F.nn alt)
    (hlt : F.lt alt (dist.getD u₀ F.nan) = true)
    {v : ℕ} {R : List ℕ} {x : ℕ} (hx : x ≠ u₀)
    (hold : nodeInv g cost finals dist q (pendR v (u₀ :: R)) x) :
    nodeInv g cost finals (dist.set u₀ alt) (qpush q u₀ alt) (pendR v R) x := by
  intro hxlen hxf hxinf
  rw [List.length_set] at hxlen
  have hdx : (dist.set u₀ alt).getD x F.nan = dist.getD x F.nan :=
    getD_set_ne _ _ _ _ _ hx
  rw [hdx] at hxinf
  obtain ⟨hA, hB, hC⟩ := hold hxlen hxf hxinf
  have hxg : x < g.nodes.length := hlen ▸ hxlen
  refine ⟨hA, fun ht => ?_, fun ht => ?_⟩
  · obtain ⟨w, hw, hle, hd⟩ := hB ht
    by_cases hwu : w = u₀
    · subst hwu
      have hcand : F.lt (actionCandidate g cost x w (dist.set w alt))
          (actionCandidate g cost x w dist) = true := by
        unfold actionCandidate
        rw [F.zero_add, F.zero_add, getD_set_self _ _ _ _ hu₀]
        exact add_fin_strict_mono (hdOK _ (getD_mem _ _ _ hu₀)) halt hlt
      refine ⟨w, hw, ?_, Or.inr (Or.inl (inQ_qpush_self _ _ _))⟩
      rw [hdx]
      exact Fle.trans (Or.inl hcand) hle
    · have hcand : actionCandidate g cost x w (dist.set u₀ alt) =
          actionCandidate g cost x w dist := by
        unfold actionCandidate
        rw [getD_set_ne _ _ _ _ _ hwu]
      refine ⟨w, hw, ?_, ?_⟩
      · rw [hcand, hdx]; exact hle
      · rcases hd with hd | hd | hd
        · exact Or.inl (by rw [hcand, hdx]; exact hd)
        · exact Or.inr (Or.inl (inQ_qpush_mono _ _ hd))
        · obtain ⟨hdv, hdR⟩ := hd
          rcases List.mem_cons.mp hdR with h1 | h1
          · exact absurd h1 hx
          · exact Or.inr (Or.inr ⟨hdv, h1⟩)
  · obtain ⟨hle, hd⟩ := hC ht
    have hchild : ∀ vv ∈ (g.node x).children, vv < dist.length :=
      fun vv hvv => hlen ▸ (hcoh1 x hxg vv hvv).1
    have hxnn : F.nn (dist.getD x F.nan) := hdOK _ (getD_mem _ _ _ hxlen)
    have hnan : obsCandidate g cost x dist ≠ F.nan := Fle_ne_nan hle hxnn.not_nan
    have hmono := obsCandidate_mono (hbs x hxg) hcost
      (fun vv hvv => hdOK _ (getD_mem _ _ _ (hchild vv hvv)))
      (fun vv hvv => dOK_set hdOK halt _
        (getD_mem _ _ _ (by rw [List.length_set]; exact hchild vv hvv)))
      (set_pointwise_le hu₀ hlt) hnan
    refine ⟨by rw [hdx]; exact hmono.trans hle, ?_⟩
    by_cases hmem : u₀ ∈ (g.node x).children
    · exact Or.inr ⟨u₀, hmem, Or.inl (inQ_qpush_self _ _ _)⟩
    · have hcong : obsCandidate g cost x (dist.set u₀ alt) =
          obsCandidate g cost x dist :=
        obsCandidate_congr (fun vv hvv =>
          getD_set_ne _ _ _ _ _ (fun he => hmem (he ▸ hvv)))
      rcases hd with hd | ⟨w, hw, hq⟩
      · exact Or.inl (by rw [hcong, hdx]; exact hd)
      · refine Or.inr ⟨w, hw, ?_⟩
        rcases hq with hq | ⟨hqv, hqR⟩
        · exact Or.inl (inQ_qpush_mono _ _ hq)
        · rcases List.mem_cons.mp hqR with h1 | h1
          · exact absurd h1 hx
          · exact Or.inr ⟨hqv, h1⟩

/-- One relaxation step preserves the loop invariant, discharging the
pending obligation of the processed parent, and only decreases `dist`. -/
theorem relaxOne_inv [DecidableEq α] {g : BeliefGraph σ α} {cost : σ → σ → α}
    {finals : List ℕ}
    (hcoh1 : ∀ u, u < g.nodes.length → ∀ w ∈ (g.node u).children,
      w < g.nodes.length ∧ u ∈ (g.node w).parents)
    (hcoh2 : ∀ w, w < g.nodes.length → ∀ u ∈ (g.node w).parents,
      u < g.nodes.length ∧ w ∈ (g.node u).children)
    (hbs : ∀ u, u < g.nodes.length → ∀ x ∈ (g.node u).belief_state, 0 ≤ x)
    (hcost : ∀ a b, 0 ≤ cost a b)
    {v u₀ : ℕ} {R : List ℕ} (hv : v < g.nodes.length)
    (hu₀p : u₀ ∈ (g.node v).parents)
    {s s' : DState α} (hinv : DInv g cost finals s (pendR v (u₀ :: R)))
    (hres : relaxOne g cost v s u₀ = some s') :
    DInv g cost finals s' (pendR v R) ∧ s'.dist.length = s.dist.length ∧
      ∀ i, Fle (s'.dist.getD i F.nan) (s.dist.getD i F.nan) := by
  obtain ⟨hu₀g, hvch⟩ := hcoh2 v hv u₀ hu₀p
  have hlen := hinv.len
  have hu₀len : u₀ < s.dist.length := by rw [hlen]; exact hu₀g
  have hvlen : v < s.dist.length := by rw [hlen]; exact hv
  cases htype : (g.node u₀).node_type with
  | Unknown =>
    rw [relaxOne_eq_unknown htype] at hres
    exact absurd hres (by simp)
  | Action =>
    rw [relaxOne_eq_action htype] at hres
    by_cases hlt : F.lt (actionCandidate g cost u₀ v s.dist) (s.dist.getD u₀ F.nan) = true
    · rw [if_pos hlt] at hres
      have hs' := (Option.some.inj hres).symm
      have halt_nn : F.nn (actionCandidate g cost u₀ v s.dist) := by
        unfold actionCandidate
        rw [F.zero_add]
        exact add_fin_nn (hcost _ _) (hinv.dOK _ (getD_mem _ _ _ hvlen))
      have hvne : v ≠ u₀ := by
        intro he
        subst he
        unfold actionCandidate at hlt
        rw [F.zero_add, not_lt_add_fin_self (hcost _ _)
          (hinv.dOK _ (getD_mem _ _ _ hvlen))] at hlt
        exact Bool.false_ne_true hlt
      subst hs'
      refine ⟨⟨?_, ?_, ?_, ?_⟩, by simp, set_pointwise_le hu₀len hlt⟩
      · simp only [List.length_set]; exact hlen
      · exact dOK_set hinv.dOK halt_nn
      · intro e he
        rcases mem_qpush_elim he with he | ⟨he, hne⟩
        · subst he
          refine ⟨by simpa using hu₀len, ?_⟩
          simp only
          rw [getD_set_self _ _ _ _ hu₀len]
        · refine ⟨by simpa using (hinv.qOK e he).1, ?_⟩
          simp only
          rw [getD_set_ne _ _ _ _ _ hne]
          exact (hinv.qOK e he).2
      · intro x
        by_cases hx : x = u₀
        · subst hx
          intro hxlen hxf hxinf
          have hdx : (s.dist.set x (actionCandidate g cost x v s.dist)).getD x F.nan =
              actionCandidate g cost x v s.dist := getD_set_self _ _ _ _ hu₀len
          refine ⟨by rw [htype]; simp, fun _ => ?_, fun hobs => ?_⟩
          · refine ⟨v, hvch, ?_, ?_⟩
            · rw [hdx]
              have : actionCandidate g cost x v
                  (s.dist.set x (actionCandidate g cost x v s.dist)) =
                  actionCandidate g cost x v s.dist := by
                unfold actionCandidate
                rw [getD_set_ne _ _ _ _ _ hvne]
              rw [this]
              exact Fle.refl _
            · refine Or.inl ?_
              rw [hdx]
              unfold actionCandidate
              rw [getD_set_ne _ _ _ _ _ hvne]
          · rw [htype] at hobs
            exact absurd hobs (by simp)
        · exact nodeInv_after_assign_other hcoh1 hbs hcost hlen hu₀len hinv.dOK
            halt_nn hlt hx (hinv.inv x)
    · rw [if_neg hlt] at hres
      have hs2 := Option.some.inj hres
      subst hs2
      have hlt0 : F.lt (actionCandidate g cost u₀ v s.dist) (s.dist.getD u₀ F.nan) =
          false := Bool.eq_false_iff.mpr hlt
      refine ⟨⟨hinv.len, hinv.dOK, hinv.qOK, ?_⟩, rfl, fun i => Fle.refl _⟩
      intro x hxlen hxf hxinf
      obtain ⟨hA, hB, hC⟩ := hinv.inv x hxlen hxf hxinf
      refine ⟨hA, fun ht => ?_, fun ht => ?_⟩
      · obtain ⟨w, hw, hle, hd⟩ := hB ht
        refine ⟨w, hw, hle, ?_⟩
        rcases hd with hd | hd | ⟨hwv, hxR⟩
        · exact Or.inl hd
        · exact Or.inr (Or.inl hd)
        · rcases List.mem_cons.mp hxR with h1 | h1
          · subst h1
            subst hwv
            exact Or.inl (Fle_of_not_lt_of_le hle hlt0)
          · exact Or.inr (Or.inr ⟨hwv, h1⟩)
      · obtain ⟨hle, hd⟩ := hC ht
        refine ⟨hle, ?_⟩
        rcases hd with hd | ⟨w, hw, hq⟩
        · exact Or.inl hd
        · rcases hq with hq | ⟨hwv, hxR⟩
          · exact Or.inr ⟨w, hw, Or.inl hq⟩
          · rcases List.mem_cons.mp hxR with h1 | h1
            · subst h1
              rw [htype] at ht
              exact absurd ht (by simp)
            · exact Or.inr ⟨w, hw, Or.inr ⟨hwv, h1⟩⟩
  | Observation =>
    rw [relaxOne_eq_obs htype] at hres
    by_cases hlt : F.lt (obsCandidate g cost u₀ s.dist) (s.dist.getD u₀ F.nan) = true
    · rw [if_pos hlt] at hres
      have hs' := (Option.some.inj hres).symm
      have hnan : obsCandidate g cost u₀ s.dist ≠ F.nan :=
        (F.lt_of_lt_true hlt).1
      have hchild : ∀ vv ∈ (g.node u₀).children, vv < s.dist.length :=
        fun vv hvv => by rw [hlen]; exact (hcoh1 u₀ hu₀g vv hvv).1
      have halt_nn : F.nn (obsCandidate g cost u₀ s.dist) :=
        (obsCandidate_nn (hbs u₀ hu₀g) hcost
          (fun vv hvv => hinv.dOK _ (getD_mem _ _ _ (hchild vv hvv))) hnan).2
      subst hs'
      refine ⟨⟨?_, ?_, ?_, ?_⟩, by simp, set_pointwise_le hu₀len hlt⟩
      · simp only [List.length_set]; exact hlen
      · exact dOK_set hinv.dOK halt_nn
      · intro e he
        rcases mem_qpush_elim he with he | ⟨he, hne⟩
        · subst he
          refine ⟨by simpa using hu₀len, ?_⟩
          simp only
          rw [getD_set_self _ _ _ _ hu₀len]
        · refine ⟨by simpa using (hinv.qOK e he).1, ?_⟩
          simp only
          rw [getD_set_ne _ _ _ _ _ hne]
          exact (hinv.qOK e he).2
      · intro x
        by_cases hx : x = u₀
        · subst hx
          intro hxlen hxf hxinf
          have hdx : (s.dist.set x (obsCandidate g cost x s.dist)).getD x F.nan =
              obsCandidate g cost x s.dist := getD_set_self _ _ _ _ hu₀len
          refine ⟨by rw [htype]; simp, fun hact => ?_, fun _ => ?_⟩
          · rw [htype] at hact
            exact absurd hact (by simp)
          · have hmono : Fle (obsCandidate g cost x
                (s.dist.set x (obsCandidate g cost x s.dist)))
                (obsCandidate g cost x s.dist) := by
              refine obsCandidate_mono (hbs x hu₀g) hcost
                (fun vv hvv => hinv.dOK _ (getD_mem _ _ _ (hchild vv hvv)))
                (fun vv hvv => dOK_set hinv.dOK halt_nn _
                  (getD_mem _ _ _ (by simpa using hchild vv hvv)))
                (set_pointwise_le hu₀len hlt) hnan
            refine ⟨by rw [hdx]; exact hmono, ?_⟩
            by_cases hmem : x ∈ (g.node x).children
            · exact Or.inr ⟨x, hmem, Or.inl (inQ_qpush_self _ _ _)⟩
            · refine Or.inl ?_
              rw [hdx]
              exact obsCandidate_congr (fun vv hvv =>
                getD_set_ne _ _ _ _ _ (fun he => hmem (he ▸ hvv)))
        · exact nodeInv_after_assign_other hcoh1 hbs hcost hlen hu₀len hinv.dOK
            halt_nn hlt hx (hinv.inv x)
    · rw [if_neg hlt] at hres
      have hs2 := Option.some.inj hres
      subst hs2
      have hlt0 : F.lt (obsCandidate g cost u₀ s.dist) (s.dist.getD u₀ F.nan) =
          false := Bool.eq_false_iff.mpr hlt
      refine ⟨⟨hinv.len, hinv.dOK, hinv.qOK, ?_⟩, rfl, fun i => Fle.refl _⟩
      intro x hxlen hxf hxinf
      obtain ⟨hA, hB, hC⟩ := hinv.inv x hxlen hxf hxinf
      refine ⟨hA, fun ht => ?_, fun ht => ?_⟩
      · obtain ⟨w, hw, hle, hd⟩ := hB ht
        refine ⟨w, hw, hle, ?_⟩
        rcases hd with hd | hd | ⟨hwv, hxR⟩
        · exact Or.inl hd
        · exact Or.inr (Or.inl hd)
        · rcases List.mem_cons.mp hxR with h1 | h1
          · subst h1
            rw [htype] at ht
            exact absurd ht (by simp)
          · exact Or.inr (Or.inr ⟨hwv, h1⟩)
      · obtain ⟨hle, hd⟩ := hC ht
        refine ⟨hle, ?_⟩
        rcases hd with hd | ⟨w, hw, hq⟩
        · exact Or.inl hd
        · rcases hq with hq | ⟨hwv, hxR⟩
          · exact Or.inr ⟨w, hw, Or.inl hq⟩
          · rcases List.mem_cons.mp hxR with h1 | h1
            · subst h1
              exact Or.inl (Fle_of_not_lt_of_le hle hlt0)
            · exact Or.inr ⟨w, hw, Or.inr ⟨hwv, h1⟩⟩

/-- Folding relaxation over a list of parents of the popped node preserves
the invariant, discharging all pending obligations. -/
theorem relaxParents_inv [DecidableEq α] {g : BeliefGraph σ α} {cost : σ → σ → α}
    {finals : List ℕ}
    (hcoh1 : ∀ u, u < g.nodes.length → ∀ w ∈ (g.node u).children,
      w < g.nodes.length ∧ u ∈ (g.node w).parents)
    (hcoh2 : ∀ w, w < g.nodes.length → ∀ u ∈ (g.node w).parents,
      u < g.nodes.length ∧ w ∈ (g.node u).children)
    (hbs : ∀ u, u < g.nodes.length → ∀ x ∈ (g.node u).belief_state, 0 ≤ x)
    (hcost : ∀ a b, 0 ≤ cost a b)
    {v : ℕ} (hv : v < g.nodes.length) :
    ∀ (R : List ℕ) (s s' : DState α), (∀ u ∈ R, u ∈ (g.node v).parents) →
    DInv g cost finals s (pendR v R) →
    relaxParents g cost v R s = some s' →
    DInv g cost finals s' (pendR v []) ∧ s'.dist.length = s.dist.length ∧
      ∀ i, Fle (s'.dist.getD i F.nan) (s.dist.getD i F.nan)
  | [], s, s', _, hinv, hres => by
    have hs2 : s = s' := Option.some.inj hres
    subst hs2
    exact ⟨hinv, rfl, fun i => Fle.refl _⟩
  | u₀ :: R, s, s', hR, hinv, hres => by
    unfold relaxParents at hres
    rw [List.foldlM_cons] at hres
    rcases ho : relaxOne g cost v s u₀ with _ | s1
    · rw [ho] at hres
      exact absurd hres (by simp)
    · rw [ho] at hres
      obtain ⟨hinv1, hlen1, hle1⟩ := relaxOne_inv hcoh1 hcoh2 hbs hcost hv
        (hR u₀ (List.mem_cons_self _ _)) hinv ho
      obtain ⟨hinv2, hlen2, hle2⟩ := relaxParents_inv hcoh1 hcoh2 hbs hcost hv R s1 s'
        (fun u hu => hR u (List.mem_cons_of_mem _ hu)) hinv1 hres
      exact ⟨hinv2, hlen2.trans hlen1, fun i => (hle2 i).trans (hle1 i)⟩

/-- Popping the minimal queue entry converts queued obligations on the
popped node into pending obligations over its parents. -/
theorem pop_inv [DecidableEq α] {g : BeliefGraph σ α} {cost : σ → σ → α}
    {finals : List ℕ}
    (hcoh1 : ∀ u, u < g.nodes.length → ∀ w ∈ (g.node u).children,
      w < g.nodes.length ∧ u ∈ (g.node w).parents)
    {s : DState α} {e : QEntry α}
    (hinv : DInv g cost finals s noPend)
    (hbest : qbest s.queue = some e) :
    e.1 < g.nodes.length ∧
      DInv g cost finals ⟨s.dist, qerase s.queue e.1⟩ (pendR e.1 (g.node e.1).parents) := by
  have hmem := qbest_mem hbest
  have hv : e.1 < g.nodes.length := hinv.len ▸ (hinv.qOK e hmem).1
  refine ⟨hv, ?_, ?_, ?_, ?_⟩
  · exact hinv.len
  · exact hinv.dOK
  · intro e1 he1
    exact hinv.qOK e1 (mem_qerase.mp he1).1
  · intro x hxlen hxf hxinf
    obtain ⟨hA, hB, hC⟩ := hinv.inv x hxlen hxf hxinf
    have hxg : x < g.nodes.length := hinv.len ▸ hxlen
    refine ⟨hA, fun ht => ?_, fun ht => ?_⟩
    · obtain ⟨w, hw, hle, hd⟩ := hB ht
      refine ⟨w, hw, hle, ?_⟩
      rcases hd with hd | ⟨pr, hpr⟩ | hd
      · exact Or.inl hd
      · by_cases hwe : w = e.1
        · subst hwe
          exact Or.inr (Or.inr ⟨rfl, (hcoh1 x hxg e.1 hw).2⟩)
        · exact Or.inr (Or.inl ⟨pr, mem_qerase.mpr ⟨hpr, hwe⟩⟩)
      · exact absurd hd id
    · obtain ⟨hle, hd⟩ := hC ht
      refine ⟨hle, ?_⟩
      rcases hd with hd | ⟨w, hw, hq⟩
      · exact Or.inl hd
      · rcases hq with ⟨pr, hpr⟩ | hq
        · by_cases hwe : w = e.1
          · subst hwe
            exact Or.inr ⟨e.1, hw, Or.inr ⟨rfl, (hcoh1 x hxg e.1 hw).2⟩⟩
          · exact Or.inr ⟨w, hw, Or.inl ⟨pr, mem_qerase.mpr ⟨hpr, hwe⟩⟩⟩
        · exact absurd hq id

/-- The main loop of `conditional_dijkstra` preserves the invariant and only
decreases `dist`. -/
theorem dijkstraGo_inv [DecidableEq α] {g : BeliefGraph σ α} {cost : σ → σ → α}
    {finals : List ℕ}
    (hcoh1 : ∀ u, u < g.nodes.length → ∀ w ∈ (g.node u).children,
      w < g.nodes.length ∧ u ∈ (g.node w).parents)
    (hcoh2 : ∀ w, w < g.nodes.length → ∀ u ∈ (g.node w).parents,
      u < g.nodes.length ∧ w ∈ (g.node u).children)
    (hbs : ∀ u, u < g.nodes.length → ∀ x ∈ (g.node u).belief_state, 0 ≤ x)
    (hcost : ∀ a b, 0 ≤ cost a b) :
    ∀ (fuel : ℕ) (s s' : DState α), DInv g cost finals s noPend →
    dijkstraGo g cost fuel s = some s' →
    DInv g cost finals s' noPend ∧ s'.dist.length = s.dist.length ∧
      ∀ i, Fle (s'.dist.getD i F.nan) (s.dist.getD i F.nan)
  | 0, s, s', hinv, hres => by
    have hs2 : s = s' := Option.some.inj hres
    subst hs2
    exact ⟨hinv, rfl, fun i => Fle.refl _⟩
  | fuel + 1, s, s', hinv, hres => by
    unfold dijkstraGo at hres
    split at hres
    · have hs2 : s = s' := Option.some.inj hres
      subst hs2
      exact ⟨hinv, rfl, fun i => Fle.refl _⟩
    · rename_i e hb
      obtain ⟨hv, hinv1⟩ := pop_inv hcoh1 hinv hb
      split at hres
      · exact absurd hres (by simp)
      · rename_i s1 hr
        obtain ⟨hinv2, hlen2, hle2⟩ := relaxParents_inv hcoh1 hcoh2 hbs hcost hv
          (g.node e.1).parents _ s1 (fun u hu => hu) hinv1 hr
        obtain ⟨hinv3, hlen3, hle3⟩ := dijkstraGo_inv hcoh1 hcoh2 hbs hcost fuel s1 s'
          (DInv_mono_pend (fun u w h => absurd h.2 (by simp)) hinv2) hres
        exact ⟨hinv3, hlen3.trans hlen2, fun i => (hle3 i).trans (hle2 i)⟩

/-! Initialization lemmas. -/

theorem getD_replicate {β : Type} : ∀ (n i : ℕ) (a d : β), i < n →
    (List.replicate n a).getD i d = a
  | 0, _, _, _, h => absurd h (by simp)
  | _ + 1, 0, _, _, _ => rfl
  | n + 1, i + 1, a, d, h => getD_replicate n i a d (by simpa using h)

/-- The initialization fold preserves length. -/
theorem dijkstraInit_len (n : ℕ) (finals : List ℕ) :
    (dijkstraInit (α := α) n finals).dist.length = n := by
  unfold dijkstraInit
  suffices h : ∀ (ids : List ℕ) (s : DState α), s.dist.length = n →
      (ids.foldl (fun s id => ⟨s.dist.set id (F.fin 0), qpush s.queue id (F.fin 0)⟩)
        s).dist.length = n by
    exact h finals _ (by simp)
  intro ids
  induction ids with
  | nil => exact fun s h => h
  | cons id ids ih =>
    intro s h
    rw [List.foldl_cons]
    exact ih _ (by simpa using h)

/-- Entries untouched by the initialization fold keep their value. -/
theorem dijkstraInit_getD_untouched : ∀ (ids : List ℕ) (s : DState α) (u : ℕ),
    u ∉ ids →
    ((ids.foldl (fun s id => ⟨s.dist.set id (F.fin 0), qpush s.queue id (F.fin 0)⟩)
      s).dist.getD u F.nan) = s.dist.getD u F.nan
  | [], _, _, _ => rfl
  | id :: ids, s, u, hu => by
    rw [List.foldl_cons]
    rw [dijkstraInit_getD_untouched ids _ u (fun h => hu (List.mem_cons_of_mem _ h))]
    exact getD_set_ne _ _ _ _ _ (fun h => hu (h ▸ List.mem_cons_self _ _))

/-- Entries set to `0` by the fold stay `0` afterwards. -/
theorem dijkstraInit_getD_zero_stays : ∀ (ids : List ℕ) (s : DState α) (u : ℕ),
    s.dist.getD u F.nan = F.fin 0 →
    ((ids.foldl (fun s id => ⟨s.dist.set id (F.fin 0), qpush s.queue id (F.fin 0)⟩)
      s).dist.getD u F.nan) = F.fin 0
  | [], _, _, h => h
  | id :: ids, s, u, h => by
    rw [List.foldl_cons]
    refine dijkstraInit_getD_zero_stays ids _ u ?_
    by_cases he : u = id
    · subst he
      by_cases hl : u < s.dist.length
      · exact getD_set_self _ _ _ _ hl
      · rw [List.set_eq_of_length_le (not_lt.mp hl)]
        exact h
    · rw [getD_set_ne _ _ _ _ _ he]
      exact h

/-- Terminal entries end at `0` after initialization, provided they are in
range. -/
theorem dijkstraInit_final_zero (n : ℕ) (finals : List ℕ)
    (hfin : ∀ id ∈ finals, id < n) :
    ∀ f ∈ finals, (dijkstraInit (α := α) n finals).dist.getD f F.nan = F.fin 0 := by
  unfold dijkstraInit
  suffices h : ∀ (ids : List ℕ) (s : DState α), s.dist.length = n →
      (∀ id ∈ ids, id < n) → ∀ f ∈ ids,
      ((ids.foldl (fun s id => ⟨s.dist.set id (F.fin 0), qpush s.queue id (F.fin 0)⟩)
        s).dist.getD f F.nan) = F.fin 0 by
    exact h finals _ (by simp) hfin
  intro ids
  induction ids with
  | nil => intro _ _ _ f hf; exact absurd hf (by simp)
  | cons id ids ih =>
    intro s hlen hb f hf
    rw [List.foldl_cons]
    rcases List.mem_cons.mp hf with h | h
    · subst h
      refine dijkstraInit_getD_zero_stays ids _ f ?_
      exact getD_set_self _ _ _ _ (hlen ▸ hb f (List.mem_cons_self _ _))
    · exact ih _ (by simpa using hlen) (fun i hi => hb i (List.mem_cons_of_mem _ hi)) f h

/-- Non-terminal entries are `∞` after initialization. -/
theorem dijkstraInit_nonfinal_inf (n : ℕ) (finals : List ℕ) {u : ℕ} (hu : u < n)
    (hnf : u ∉ finals) :
    (dijkstraInit (α := α) n finals).dist.getD u F.nan = F.inf := by
  unfold dijkstraInit
  rw [dijkstraInit_getD_untouched finals _ u hnf]
  exact getD_replicate n u _ _ hu

/-- The initial state satisfies the loop invariant. -/
theorem dijkstraInit_inv [DecidableEq α] {g : BeliefGraph σ α} {cost : σ → σ → α}
    {finals : List ℕ} (hfin : ∀ id ∈ finals, id < g.nodes.length) :
    DInv g cost finals (dijkstraInit g.nodes.length finals) noPend := by
  have hzero : ∀ (ids : List ℕ) (s : DState α),
      (∀ d ∈ s.dist, d = F.inf ∨ d = F.fin 0) →
      (∀ e ∈ s.queue, e.1 < s.dist.length ∧ e.2 = F.fin 0 ∧
        s.dist.getD e.1 F.nan = F.fin 0) →
      (∀ id ∈ ids, id < s.dist.length) →
      (∀ d ∈ (ids.foldl (fun s id =>
          ⟨s.dist.set id (F.fin 0), qpush s.queue id (F.fin 0)⟩) s).dist,
        d = F.inf ∨ d = F.fin 0) ∧
      (∀ e ∈ (ids.foldl (fun s id =>
          ⟨s.dist.set id (F.fin 0), qpush s.queue id (F.fin 0)⟩) s).queue,
        e.1 < (ids.foldl (fun s id =>
          ⟨s.dist.set id (F.fin 0), qpush s.queue id (F.fin 0)⟩) s).dist.length ∧
        e.2 = F.fin 0 ∧
        (ids.foldl (fun s id =>
          ⟨s.dist.set id (F.fin 0), qpush s.queue id (F.fin 0)⟩) s).dist.getD e.1 F.nan
          = F.fin 0) := by
    intro ids
    induction ids with
    | nil => exact fun s h1 h2 _ => ⟨h1, h2⟩
    | cons id ids ih =>
      intro s h1 h2 hb
      rw [List.foldl_cons]
      have hidlen : id < s.dist.length := hb id (List.mem_cons_self _ _)
      refine ih _ ?_ ?_ (fun i hi => by simpa using hb i (List.mem_cons_of_mem _ hi))
      · intro d hd
        rcases List.mem_or_eq_of_mem_set hd with h | h
        · exact h1 d h
        · exact Or.inr h
      · intro e he
        rcases mem_qpush_elim he with he | ⟨he, hne⟩
        · subst he
          exact ⟨by simpa using hidlen, rfl, getD_set_self _ _ _ _ hidlen⟩
        · obtain ⟨hl, hz, hdz⟩ := h2 e he
          exact ⟨by simpa using hl, hz, by rw [getD_set_ne _ _ _ _ _ hne]; exact hdz⟩
  obtain ⟨h1, h2⟩ := hzero finals ⟨List.replicate g.nodes.length F.inf, []⟩
    (fun d hd => Or.inl (List.eq_of_mem_replicate hd))
    (fun e he => absurd he (by simp))
    (fun id hi => by simpa using hfin id hi)
  refine ⟨dijkstraInit_len _ _, ?_, ?_, ?_⟩
  · intro d hd
    rcases h1 d hd with h | h
    · exact Or.inl h
    · exact Or.inr ⟨0, le_rfl, h⟩
  · intro e he
    obtain ⟨hl, hz, hdz⟩ := h2 e he
    exact ⟨hl, by rw [hz]; exact hdz.symm⟩
  · intro u hulen hunf huinf
    exact absurd (dijkstraInit_nonfinal_inf g.nodes.length finals
      (dijkstraInit_len (α := α) g.nodes.length finals ▸ hulen) hunf) huinf

/-! Unconditional monotonicity: every step of the loop only decreases
`dist`, with no graph hypotheses at all. -/

theorem set_push_le {s : DState α} {u₀ : ℕ} {alt : F α}
    (hlt : F.lt alt (s.dist.getD u₀ F.nan) = true) :
    (s.dist.set u₀ alt).length = s.dist.length ∧
      ∀ i, Fle ((s.dist.set u₀ alt).getD i F.nan) (s.dist.getD i F.nan) := by
  refine ⟨by simp, fun i => ?_⟩
  by_cases hi : i = u₀
  · subst hi
    by_cases hl : i < s.dist.length
    · rw [getD_set_self _ _ _ _ hl]
      exact Or.inl hlt
    · rw [List.set_eq_of_length_le (not_lt.mp hl)]
      exact Fle.refl _
  · rw [getD_set_ne _ _ _ _ _ hi]
    exact Fle.refl _

theorem relaxOne_le [DecidableEq α] {g : BeliefGraph σ α} {cost : σ → σ → α}
    {v u₀ : ℕ} {s s' : DState α} (hres : relaxOne g cost v s u₀ = some s') :
    s'.dist.length = s.dist.length ∧
      ∀ i, Fle (s'.dist.getD i F.nan) (s.dist.getD i F.nan) := by
  cases htype : (g.node u₀).node_type with
  | Unknown =>
    rw [relaxOne_eq_unknown htype] at hres
    exact absurd hres (by simp)
  | Action =>
    rw [relaxOne_eq_action htype] at hres
    split at hres
    · rename_i hlt
      have hs2 := (Option.some.inj hres).symm
      subst hs2
      exact set_push_le hlt
    · have hs2 := (Option.some.inj hres).symm
      subst hs2
      exact ⟨rfl, fun i => Fle.refl _⟩
  | Observation =>
    rw [relaxOne_eq_obs htype] at hres
    split at hres
    · rename_i hlt
      have hs2 := (Option.some.inj hres).symm
      subst hs2
      exact set_push_le hlt
    · have hs2 := (Option.some.inj hres).symm
      subst hs2
      exact ⟨rfl, fun i => Fle.refl _⟩

theorem relaxParents_le [DecidableEq α] {g : BeliefGraph σ α} {cost : σ → σ → α}
    {v : ℕ} : ∀ (R : List ℕ) (s s' : DState α),
    relaxParents g cost v R s = some s' →
    s'.dist.length = s.dist.length ∧
      ∀ i, Fle (s'.dist.getD i F.nan) (s.dist.getD i F.nan)
  | [], s, s', hres => by
    have hs2 : s = s' := Option.some.inj hres
    subst hs2
    exact ⟨rfl, fun i => Fle.refl _⟩
  | u₀ :: R, s, s', hres => by
    unfold relaxParents at hres
    rw [List.foldlM_cons] at hres
    rcases ho : relaxOne g cost v s u₀ with _ | s1
    · rw [ho] at hres
      exact absurd hres (by simp)
    · rw [ho] at hres
      obtain ⟨hlen1, hle1⟩ := relaxOne_le ho
      obtain ⟨hlen2, hle2⟩ := relaxParents_le R s1 s' hres
      exact ⟨hlen2.trans hlen1, fun i => (hle2 i).trans (hle1 i)⟩

/-- During a run of the main loop, `dist` entries only decrease. -/
theorem dijkstraGo_le [DecidableEq α] {g : BeliefGraph σ α} {cost : σ → σ → α} :
    ∀ (fuel : ℕ) (s s' : DState α), dijkstraGo g cost fuel s = some s' →
    s'.dist.length = s.dist.length ∧
      ∀ i, Fle (s'.dist.getD i F.nan) (s.dist.getD i F.nan)
  | 0, s, s', hres => by
    have hs2 : s = s' := Option.some.inj hres
    subst hs2
    exact ⟨rfl, fun i => Fle.refl _⟩
  | fuel + 1, s, s', hres => by
    unfold dijkstraGo at hres
    split at hres
    · have hs2 : s = s' := Option.some.inj hres
      subst hs2
      exact ⟨rfl, fun i => Fle.refl _⟩
    · split at hres
      · exact absurd hres (by simp)
      · rename_i e hb s1 hr
        obtain ⟨hlen1, hle1⟩ := relaxParents_le _ _ _ hr
        obtain ⟨hlen2, hle2⟩ := dijkstraGo_le fuel s1 s' hres
        exact ⟨hlen2.trans hlen1, fun i => (hle2 i).trans (hle1 i)⟩

/-- Master lemma: a successful run of `conditional_dijkstra` satisfies the
loop invariant, only decreases `dist` from its initialization, and leaves
every terminal at `0`. -/
theorem conditional_dijkstra_master [DecidableEq α] {g : BeliefGraph σ α}
    {cost : σ → σ → α} {finals : List ℕ} {fuel : ℕ} {s' : DState α}
    (hcoh1 : ∀ u, u < g.nodes.length → ∀ w ∈ (g.node u).children,
      w < g.nodes.length ∧ u ∈ (g.node w).parents)
    (hcoh2 : ∀ w, w < g.nodes.length → ∀ u ∈ (g.node w).parents,
      u < g.nodes.length ∧ w ∈ (g.node u).children)
    (hbs : ∀ u, u < g.nodes.length → ∀ x ∈ (g.node u).belief_state, 0 ≤ x)
    (hcost : ∀ a b, 0 ≤ cost a b)
    (hfin : ∀ id ∈ finals, id < g.nodes.length)
    (hres : conditional_dijkstra g finals cost fuel = some s') :
    DInv g cost finals s' noPend ∧ s'.dist.length = g.nodes.length ∧
      (∀ f ∈ finals, s'.dist.getD f F.nan = F.fin 0) := by
  obtain ⟨hinv, hlen, hle⟩ := dijkstraGo_inv hcoh1 hcoh2 hbs hcost fuel _ s'
    (dijkstraInit_inv hfin) hres
  refine ⟨hinv, hlen.trans (dijkstraInit_len _ _), fun f hf => ?_⟩
  have hinit : (dijkstraInit (α := α) g.nodes.length finals).dist.getD f F.nan =
      F.fin 0 := dijkstraInit_final_zero _ _ hfin f hf
  have hlef := hle f
  rw [hinit] at hlef
  have hflen : f < s'.dist.length := by
    rw [hlen.trans (dijkstraInit_len _ _)]
    exact hfin f hf
  obtain ⟨r, hr, hfr⟩ := nn_Fle_fin (hinv.dOK _ (getD_mem _ _ _ hflen)) hlef
  rw [hfr] at hlef ⊢
  rcases hlef with h | h
  · simp [F.lt] at h
    linarith
  · exact h

/-- C1: after `conditional_dijkstra` terminates (queue emptied) on a finite
belief graph whose parent/child lists are mutually coherent, whose belief
vectors are nonnegative, with a nonnegative cost function and in-range
terminal ids (on which `dist` is initialized to `0`), every non-terminal
node `u` with finite `dist[u]` carries a relaxation candidate over its
children equal to `dist[u]`: for an `Action` node, `cost(u.state, v.state) +
dist[v]` for some child `v`; for an `Observation` node, the sum over all
children `w` of `P(u.belief → w.belief) * (cost(u.state, w.state) + dist[w])`
(the value `obsCandidate`); moreover `dist` entries only decrease during the
run (every suffix of the loop maps each entry to a value not above it). -/
theorem conditional_dijkstra_optimality [DecidableEq α]
    (g : BeliefGraph σ α) (cost : σ → σ → α) (finals : List ℕ) (fuel : ℕ)
    (s' : DState α)
    (hcoh1 : ∀ u, u < g.nodes.length → ∀ w ∈ (g.node u).children,
      w < g.nodes.length ∧ u ∈ (g.node w).parents)
    (hcoh2 : ∀ w, w < g.nodes.length → ∀ u ∈ (g.node w).parents,
      u < g.nodes.length ∧ w ∈ (g.node u).children)
    (hbs : ∀ u, u < g.nodes.length → ∀ x ∈ (g.node u).belief_state, 0 ≤ x)
    (htyped : ∀ u, u < g.nodes.length → (g.node u).parents ≠ [] →
      (g.node u).node_type = BeliefNodeType.Action ∨
        (g.node u).node_type = BeliefNodeType.Observation)
    (hcost : ∀ a b, 0 ≤ cost a b)
    (hfin : ∀ id ∈ finals, id < g.nodes.length)
    (hrun : conditional_dijkstra g finals cost fuel = some s')
    (hterm : s'.queue = []) :
    (∀ u, u < g.nodes.length → u ∉ finals → s'.dist.getD u F.nan ≠ F.inf →
      ((g.node u).node_type = BeliefNodeType.Action →
        ∃ v ∈ (g.node u).children,
          F.add (F.fin (cost (g.node u).state (g.node v).state))
            (s'.dist.getD v F.nan) = s'.dist.getD u F.nan) ∧
      ((g.node u).node_type = BeliefNodeType.Observation →
        obsCandidate g cost u s'.dist = s'.dist.getD u F.nan)) ∧
    (∀ (fuel2 : ℕ) (s1 s2 : DState α), dijkstraGo g cost fuel2 s1 = some s2 →
      ∀ i, Fle (s2.dist.getD i F.nan) (s1.dist.getD i F.nan)) := by
  obtain ⟨hinv, hlen, _⟩ := conditional_dijkstra_master hcoh1 hcoh2 hbs hcost hfin hrun
  refine ⟨fun u hu hnf hninf => ?_, fun fuel2 s1 s2 h => (dijkstraGo_le fuel2 s1 s2 h).2⟩
  have hulen : u < s'.dist.length := by rw [hlen]; exact hu
  obtain ⟨hA, hB, hC⟩ := hinv.inv u hulen hnf hninf
  refine ⟨fun ht => ?_, fun ht => ?_⟩
  · obtain ⟨v, hv, hle, hd⟩ := hB ht
    refine ⟨v, hv, ?_⟩
    rcases hd with hd | ⟨pr, hpr⟩ | hd
    · unfold actionCandidate at hd
      rw [F.zero_add] at hd
      exact hd
    · rw [hterm] at hpr
      exact absurd hpr (by simp)
    · exact absurd hd id
  · obtain ⟨hle, hd⟩ := hC ht
    rcases hd with hd | ⟨w, hw, hq⟩
    · exact hd
    · rcases hq with ⟨pr, hpr⟩ | hq
      · rw [hterm] at hpr
        exact absurd hpr (by simp)
      · exact absurd hq id

/-- Example graph used by the concrete witnesses: two action nodes connected
by one edge `0 → 1`, with uniform belief mass on one world. -/
def exG1 : BeliefGraph Unit ℤ :=
  ⟨[⟨(), [1], 0, [], [1], BeliefNodeType.Action⟩,
    ⟨(), [1], 0, [0], [], BeliefNodeType.Action⟩], [[1]]⟩

/-- Constant unit cost used by the concrete witnesses. -/
def exCost : Unit → Unit → ℤ := fun _ _ => 1

/-- C1 witness: on `exG1` with terminal `1` the run terminates with
`dist = [1, 0]`, and node `0` carries the equal relaxation candidate through
its child `1`. -/
theorem conditional_dijkstra_optimality_witness :
    conditional_dijkstra exG1 [1] exCost 4 =
      some ⟨[F.fin 1, F.fin 0], []⟩ ∧
    ∃ v ∈ (exG1.node 0).children,
      F.add (F.fin (exCost (exG1.node 0).state (exG1.node v).state))
        (([F.fin 1, F.fin 0] : List (F ℤ)).getD v F.nan) =
      ([F.fin 1, F.fin 0] : List (F ℤ)).getD 0 F.nan := by
  refine ⟨by decide, ?_⟩
  exact ((conditional_dijkstra_optimality exG1 exCost [1] 4 ⟨[F.fin 1, F.fin 0], []⟩
    (by decide) (by decide) (by decide) (by decide) (fun _ _ => zero_le_one)
    (by decide) (by decide) rfl).1 0 (by decide) (by decide) (by decide)).1 rfl

/-- Example graph with an observation node `0` whose only child is the
action node `1`. -/
def exG2 : BeliefGraph Unit ℤ :=
  ⟨[⟨(), [1], 0, [], [1], BeliefNodeType.Observation⟩,
    ⟨(), [1], 0, [0], [], BeliefNodeType.Action⟩], [[1]]⟩

/-- C10 counterexample: the claim quantifies over every `Observation` node,
but a terminal observation node gets `dist = 0` from the initialization while
its child may stay at `+∞`.  On `exG2` with terminal list `[0]`, node `0` is
an observation node with finite `dist[0] = 0` whose child `1` has
`dist[1] = ∞`. -/
theorem conditional_dijkstra_obs_children_cex :
    conditional_dijkstra exG2 [0] exCost 3 = some ⟨[F.fin 0, F.inf], []⟩ ∧
    (exG2.node 0).node_type = BeliefNodeType.Observation ∧
    1 ∈ (exG2.node 0).children ∧
    ([F.fin 0, F.inf] : List (F ℤ)).getD 0 F.nan ≠ F.inf ∧
    ([F.fin 0, F.inf] : List (F ℤ)).getD 1 F.nan = F.inf := by decide

/-- C10 amended: at termination of `conditional_dijkstra`, for every
NON-TERMINAL node `u` of kind `Observation`, `dist[u]` is finite only if
`dist[v]` is finite for every child `v`: the observation candidate sums over
all children, and a child still at `+∞` keeps every candidate for `u`
non-finite (`+∞` when its transition probability is positive, `nan` when it
is zero), so `u` is never relaxed to a finite value. -/
theorem conditional_dijkstra_obs_children_finite [DecidableEq α]
    (g : BeliefGraph σ α) (cost : σ → σ → α) (finals : List ℕ) (fuel : ℕ)
    (s' : DState α)
    (hcoh1 : ∀ u, u < g.nodes.length → ∀ w ∈ (g.node u).children,
      w < g.nodes.length ∧ u ∈ (g.node w).parents)
    (hcoh2 : ∀ w, w < g.nodes.length → ∀ u ∈ (g.node w).parents,
      u < g.nodes.length ∧ w ∈ (g.node u).children)
    (hbs : ∀ u, u < g.nodes.length → ∀ x ∈ (g.node u).belief_state, 0 ≤ x)
    (hcost : ∀ a b, 0 ≤ cost a b)
    (hfin : ∀ id ∈ finals, id < g.nodes.length)
    (hrun : conditional_dijkstra g finals cost fuel = some s')
    (hterm : s'.queue = []) :
    ∀ u, u < g.nodes.length → u ∉ finals →
      (g.node u).node_type = BeliefNodeType.Observation →
      s'.dist.getD u F.nan ≠ F.inf →
      ∀ v ∈ (g.node u).children, s'.dist.getD v F.nan ≠ F.inf := by
  obtain ⟨hinv, hlen, _⟩ := conditional_dijkstra_master hcoh1 hcoh2 hbs hcost hfin hrun
  intro u hu hnf ht hninf
  have hulen : u < s'.dist.length := by rw [hlen]; exact hu
  obtain ⟨hA, hB, hC⟩ := hinv.inv u hulen hnf hninf
  obtain ⟨hle, hd⟩ := hC ht
  have heq : obsCandidate g cost u s'.dist = s'.dist.getD u F.nan := by
    rcases hd with hd | ⟨w, hw, hq⟩
    · exact hd
    · rcases hq with ⟨pr, hpr⟩ | hq
      · rw [hterm] at hpr
        exact absurd hpr (by simp)
      · exact absurd hq id
  rcases hinv.dOK _ (getD_mem _ _ _ hulen) with hd0 | ⟨q, hq, hfq⟩
  · exact absurd hd0 hninf
  · rw [hfq] at heq
    exact obsCandidate_fin_child (hbs u hu) heq

/-- C10 witness for the amended theorem: on `exG2` with terminal `1`, the
observation node `0` ends with the finite cost `1`, and its child has the
finite cost `0`. -/
theorem conditional_dijkstra_obs_children_finite_witness :
    conditional_dijkstra exG2 [1] exCost 4 = some ⟨[F.fin 1, F.fin 0], []⟩ ∧
    ∀ v ∈ (exG2.node 0).children,
      (⟨[F.fin 1, F.fin 0], []⟩ : DState ℤ).dist.getD v F.nan ≠ F.inf := by
  refine ⟨by decide, ?_⟩
  exact conditional_dijkstra_obs_children_finite exG2 exCost [1] 4
    ⟨[F.fin 1, F.fin 0], []⟩ (by decide) (by decide) (by decide)
    (fun _ _ => zero_le_one) (by decide) (by decide) rfl 0 (by decide)
    (by decide) (by decide) (by decide)

/-- `transition_probability` as a sum over the indices of the prior, for
equal-length vectors. -/
theorem tp_eq_range_sum [DecidableEq α] : ∀ (parent_bs child_bs : List α),
    child_bs.length = parent_bs.length →
    transition_probability parent_bs child_bs =
      ∑ i ∈ Finset.range parent_bs.length,
        (if 0 < child_bs.getD i 0 then parent_bs.getD i 0 else 0)
  | [], [], _ => by simp [transition_probability]
  | [], _ :: _, h => by simp at h
  | _ :: _, [], h => by simp at h
  | q :: parent_bs, p :: child_bs, h => by
    rw [tp_eq_sum]
    simp only [List.zip_cons_cons, List.map_cons, List.sum_cons, List.length_cons]
    rw [Finset.sum_range_succ']
    have ih := tp_eq_range_sum parent_bs child_bs (by simpa using h)
    rw [tp_eq_sum] at ih
    simp only [List.getD_cons_succ, List.getD_cons_zero]
    rw [← ih]
    ring

/-- C2: for every pair of equal-length belief vectors `q` (the prior, with
nonnegative entries) and `p` (the posterior), `transition_probability q p`
equals `Σ_i q[i] · 1[p[i] > 0]`; it equals `0` when no index has both
`q[i] > 0` and `p[i] > 0`; it equals `1` when `p = q` and `q` sums to `1`;
and it takes exactly the five values of scenario S1 on those literal
inputs. -/
theorem transition_probability_spec (q p : List ℚ)
    (hlen : p.length = q.length) (hq : ∀ x ∈ q, 0 ≤ x) :
    transition_probability q p =
      (∑ i ∈ Finset.range q.length, (if 0 < p.getD i 0 then q.getD i 0 else 0)) ∧
    ((∀ i < q.length, ¬(0 < q.getD i 0 ∧ 0 < p.getD i 0)) →
      transition_probability q p = 0) ∧
    (p = q → q.sum = 1 → transition_probability q p = 1) ∧
    (transition_probability [1, 0] [1, 0] = (1 : ℚ) ∧
     transition_probability [0, 1] [1, 0] = (0 : ℚ) ∧
     transition_probability [2/5, 3/5] [2/5, 3/5] = (1 : ℚ) ∧
     transition_probability [2/5, 3/5] [1, 0] = (2/5 : ℚ) ∧
     transition_probability [1/2, 0, 1/2, 0] [0, 1/2, 0, 1/2] = (0 : ℚ)) := by
  refine ⟨tp_eq_range_sum q p hlen, fun hdisj => ?_, fun hp hsum => ?_, ?_, ?_, ?_, ?_, ?_⟩
  · rw [tp_eq_range_sum q p hlen]
    refine Finset.sum_eq_zero (fun i hi => ?_)
    have hi' : i < q.length := Finset.mem_range.mp hi
    by_cases hpi : 0 < p.getD i 0
    · rw [if_pos hpi]
      have hqi : ¬ 0 < q.getD i 0 := fun h => hdisj i hi' ⟨h, hpi⟩
      have hqi0 : 0 ≤ q.getD i 0 := hq _ (getD_mem _ _ _ hi')
      exact le_antisymm (not_lt.mp hqi) hqi0
    · rw [if_neg hpi]
  · rw [hp, tp_self q hq, hsum]
  · norm_num [transition_probability]
  · norm_num [transition_probability]
  · norm_num [transition_probability]
  · norm_num [transition_probability]
  · norm_num [transition_probability]

/-- C2 witness: the specification applied at the literal input
`q = p = [1, 0]`. -/
theorem transition_probability_spec_witness :
    (([1, 0] : List ℚ).length = ([1, 0] : List ℚ).length) ∧
    (∀ x ∈ ([1, 0] : List ℚ), 0 ≤ x) ∧
    transition_probability ([1, 0] : List ℚ) [1, 0] = 1 :=
  ⟨rfl, by simp,
    (transition_probability_spec [1, 0] [1, 0] rfl (by simp)).2.2.2.1⟩

/-- C8 counterexample: `Priority::cmp` at two equal priorities returns
`Less`, never `Equal`, although the claimed total order requires `Equal`
exactly on equal priorities (and `Less` only when the left priority is
numerically greater). -/
theorem priority_cmp_cex :
    Priority.cmp (⟨0⟩ : Priority ℤ) ⟨0⟩ = Ordering.lt ∧
    Priority.cmp (⟨0⟩ : Priority ℤ) ⟨0⟩ ≠ Ordering.eq ∧
    ¬ ((⟨0⟩ : Priority ℤ).prio > (⟨0⟩ : Priority ℤ).prio) ∧
    (⟨0⟩ : Priority ℤ).prio = (⟨0⟩ : Priority ℤ).prio := by decide

/-- C8 amended: the comparison on `Priority` reverses the numeric order but
is not consistent with equality: `cmp a b = Greater` iff `a.prio < b.prio`,
`cmp a b = Less` iff `b.prio ≤ a.prio` (so also on ties), `cmp` never
returns `Equal`, and the equality predicate holds iff the priorities are
numerically equal.  In particular a max-heap over this order still prefers
numerically smaller priorities, but the `Ord` contract (`cmp a a = Equal`)
is violated. -/
theorem priority_cmp_spec (a b : Priority α) :
    (Priority.cmp a b = Ordering.gt ↔ a.prio < b.prio) ∧
    (Priority.cmp a b = Ordering.lt ↔ b.prio ≤ a.prio) ∧
    Priority.cmp a b ≠ Ordering.eq ∧
    (Priority.eqb a b = true ↔ a.prio = b.prio) := by
  unfold Priority.cmp Priority.eqb
  by_cases h : a.prio < b.prio
  · rw [if_pos h]
    exact ⟨⟨fun _ => h, fun _ => rfl⟩,
      ⟨fun hc => absurd hc (by simp), fun hle => ((not_lt.mpr hle) h).elim⟩,
      by simp, by simp⟩
  · rw [if_neg h]
    exact ⟨⟨fun hc => absurd hc (by simp), fun hlt => (h hlt).elim⟩,
      ⟨fun _ => not_lt.mp h, fun _ => rfl⟩, by simp, by simp⟩

/-! Source `src/belief_graph.rs`: `extract_policy` and
`get_best_expected_children`.  The `Policy` container they use (with a
`leafs` list and a three-argument `add_node`) is not among the provided
sources, whose `common.rs` predates it. -/

/-- Modelled from the spec: the policy node
`{state, belief_state, parent, children, is_leaf}` of section 3 of the
specification (the `PolicyNode` used by this version of `extract_policy` is
not in the provided sources). -/
structure PolicyNode (σ α : Type) where
  state : σ
  belief_state : List α
  parent : Option ℕ
  children : List ℕ
  is_leaf : Bool
deriving DecidableEq

/-- Modelled from the spec: the policy container with its node store and
leaf list (`Policy { nodes, leafs }` as used by `extract_policy`). -/
structure Policy (σ α : Type) where
  nodes : List (PolicyNode σ α)
  leafs : List ℕ
deriving DecidableEq

/-- Modelled from the spec: `Policy::add_node(state, belief_state, is_leaf)`
pushes a fresh parentless, childless node, recording it in `leafs` when
`is_leaf`, and returns its id. -/
def Policy.add_node (p : Policy σ α) (state : σ) (belief_state : List α)
    (is_leaf : Bool) : ℕ × Policy σ α :=
  let id := p.nodes.length
  (id, ⟨p.nodes ++ [⟨state, belief_state, none, [], is_leaf⟩],
        if is_leaf then p.leafs ++ [id] else p.leafs⟩)

/-- `Policy::add_edge` as in `src/common.rs`: push the child on the parent's
children and set the child's parent. -/
def Policy.add_edge (p : Policy σ α) (parent_id child_id : ℕ) : Policy σ α :=
  let withChild : Policy σ α :=
    ⟨p.nodes.set parent_id
      (let n := p.nodes.getD parent_id ⟨default, [], none, [], false⟩
       ⟨n.state, n.belief_state, n.parent, n.children ++ [child_id], n.is_leaf⟩),
     p.leafs⟩
  ⟨withChild.nodes.set child_id
    (let n := withChild.nodes.getD child_id ⟨default, [], none, [], false⟩
     ⟨n.state, n.belief_state, some parent_id, n.children, n.is_leaf⟩),
   withChild.leafs⟩

/-- Ascending insertion used to model the iteration order of the `BTreeMap`
keys in `get_best_expected_children`. -/
def insSorted (x : ℕ) : List ℕ → List ℕ
  | [] => [x]
  | y :: l => if x ≤ y then x :: y :: l else y :: insSorted x l

/-- The keys of the `BTreeMap`, in ascending order. -/
def sortKeys (l : List ℕ) : List ℕ := l.foldr insSorted []

/-- The body of the per-belief-id loop of `get_best_expected_children`: pick
the group's first child, assert `p > 0`, select the child minimizing
`p * cost` (the source's `skip(0)` skips nothing, so the whole group is
scanned), and assert `p * cost[best] <= cost[node]`.  `none` models a failed
`assert!`. -/
def bestSel (dist : List (F α)) (p : α) (group : List ℕ) (c0 : ℕ) : ℕ :=
  group.foldl
    (fun best c =>
      if F.lt (F.mul (F.fin p) (dist.getD c F.nan))
          (F.mul (F.fin p) (dist.getD best F.nan)) = true then c else best) c0

def bestOfGroup [DecidableEq α] (g : BeliefGraph σ α) (belief_node_id : ℕ)
    (dist : List (F α)) (children : List ℕ) (key : ℕ) : Option ℕ :=
  match children.filter (fun c => (g.node c).belief_id == key) with
  | [] => none
  | c0 :: rest =>
    if 0 < transition_probability (g.node belief_node_id).belief_state
        (g.node c0).belief_state then
      if F.leb
          (F.mul (F.fin (transition_probability (g.node belief_node_id).belief_state
            (g.node c0).belief_state))
            (dist.getD (bestSel dist (transition_probability
              (g.node belief_node_id).belief_state (g.node c0).belief_state)
              (c0 :: rest) c0) F.nan))
          (dist.getD belief_node_id F.nan) = true then
        some (bestSel dist (transition_probability
          (g.node belief_node_id).belief_state (g.node c0).belief_state)
          (c0 :: rest) c0)
      else none
    else none

/-- Sequential per-key loop: the first failed assertion aborts. -/
def mapOrNone (f : ℕ → Option ℕ) : List ℕ → Option (List ℕ)
  | [] => some []
  | k :: ks =>
    match f k with
    | none => none
    | some b =>
      match mapOrNone f ks with
      | none => none
      | some bs => some (b :: bs)

/-- `get_best_expected_children` from `src/belief_graph.rs`: cluster the
children by target belief id (`BTreeMap` iterates keys in ascending order;
each group keeps the children's insertion order), pick the best child of
each group, with the two `assert!`s modelled as `none`. -/
def get_best_expected_children [DecidableEq α] (g : BeliefGraph σ α)
    (belief_node_id : ℕ) (dist : List (F α)) : Option (List ℕ) :=
  let children := (g.node belief_node_id).children
  let keys := sortKeys (children.map (fun c => (g.node c).belief_id)).dedup
  mapOrNone (bestOfGroup g belief_node_id dist children) keys

/-- Result of `extract_policy`: the policy, a failed assertion inside
`get_best_expected_children`, or exhausted fuel (the Rust loop has no such
case; it is an artifact of the fuel-indexed embedding). -/
inductive ExtractResult (σ α : Type) where
  | ok (policy : Policy σ α)
  | assertFailed
  | fuelOut
deriving DecidableEq

/-- The body of the `for child_id in children_ids` loop of `extract_policy`:
create the policy node (a leaf when its expected cost equals `0.0`), add the
edge, and push non-leaves on the stack. -/
def extractPush (g : BeliefGraph σ α) (dist : List (F α)) (policy_node_id : ℕ)
    (acc : List (ℕ × ℕ) × Policy σ α) (child_id : ℕ) :
    List (ℕ × ℕ) × Policy σ α :=
  let child := g.node child_id
  let is_leaf := dist.getD child_id F.nan == F.fin 0
  let idp := acc.2.add_node child.state child.belief_state is_leaf
  let p2 := idp.2.add_edge policy_node_id idp.1
  (if is_leaf then acc.1 else (idp.1, child_id) :: acc.1, p2)

/-- The `while !lifo.is_empty()` loop of `extract_policy`, fuel-indexed.
The stack is kept top-first (`Vec::pop` takes the last pushed entry). -/
def extractGo [DecidableEq α] (g : BeliefGraph σ α) (dist : List (F α)) :
    ℕ → List (ℕ × ℕ) → Policy σ α → ExtractResult σ α
  | 0, lifo, policy => if lifo.isEmpty then ExtractResult.ok policy else ExtractResult.fuelOut
  | fuel + 1, lifo, policy =>
    match lifo with
    | [] => ExtractResult.ok policy
    | (policy_node_id, belief_node_id) :: rest =>
      match get_best_expected_children g belief_node_id dist with
      | none => ExtractResult.assertFailed
      | some children_ids =>
        let st := children_ids.foldl (extractPush g dist policy_node_id) (rest, policy)
        extractGo g dist fuel st.1 st.2

/-- `extract_policy` from `src/belief_graph.rs`: panic (`none`) on an empty
graph, otherwise create the root policy node from belief node `0` and run
the stack loop from `lifo = [(0, 0)]`. -/
def extract_policy [DecidableEq α] (g : BeliefGraph σ α) (dist : List (F α))
    (fuel : ℕ) : Option (ExtractResult σ α) :=
  if g.nodes.isEmpty then none
  else
    let idp := (⟨[], []⟩ : Policy σ α).add_node (g.node 0).state
      (g.node 0).belief_state false
    some (extractGo g dist fuel [(0, 0)] idp.2)

theorem F.leb_inf_right {x : F α} (h : x ≠ F.nan) : F.leb x F.inf = true := by
  cases x <;> simp [F.leb] at *

theorem F.leb_inf_left {y : F α} (h : F.leb F.inf y = true) : y = F.inf := by
  cases y <;> simp [F.leb] at *

theorem leb_of_lt_false {x y : F α} (h : F.lt x y = false) (hx : x ≠ F.nan)
    (hy : y ≠ F.nan) : F.leb y x = true := by
  cases x <;> cases y <;> simp [F.lt, F.leb] at *
  linarith

theorem F.lt_irrefl (x : F α) : F.lt x x = false := by
  cases x <;> simp [F.lt]

/-- The selection fold of `get_best_expected_children`: the result is the
start or a member, its cost does not exceed the start's, and no member's
cost is below it. -/
theorem foldMin_spec (f : ℕ → F α) : ∀ (l : List ℕ) (b0 : ℕ),
    (l.foldl (fun best c => if F.lt (f c) (f best) = true then c else best) b0
      ∈ b0 :: l) ∧
    (l.foldl (fun best c => if F.lt (f c) (f best) = true then c else best) b0 = b0 ∨
      F.lt (f (l.foldl (fun best c => if F.lt (f c) (f best) = true then c else best) b0))
        (f b0) = true) ∧
    ∀ c ∈ l,
      F.lt (f c)
        (f (l.foldl (fun best c => if F.lt (f c) (f best) = true then c else best) b0))
        = false
  | [], b0 => ⟨List.mem_cons_self _ _, Or.inl rfl, by simp⟩
  | c :: l, b0 => by
    rw [List.foldl_cons]
    by_cases hc : F.lt (f c) (f b0) = true
    · rw [if_pos hc]
      obtain ⟨hmem, hle, hall⟩ := foldMin_spec f l c
      refine ⟨List.mem_cons_of_mem _ hmem, ?_, ?_⟩
      · rcases hle with h | h
        · right
          rw [h]
          exact hc
        · exact Or.inr (F.lt_trans h hc)
      · intro d hd
        rcases List.mem_cons.mp hd with h | h
        · subst h
          rcases hle with h2 | h2
          · rw [h2]
            exact F.lt_irrefl _
          · by_contra hlt
            rw [Bool.not_eq_false] at hlt
            have h3 := F.lt_trans hlt h2
            rw [F.lt_irrefl] at h3
            exact Bool.false_ne_true h3
        · exact hall d h
    · rw [if_neg hc]
      obtain ⟨hmem, hle, hall⟩ := foldMin_spec f l b0
      refine ⟨?_, hle, ?_⟩
      · rcases List.mem_cons.mp hmem with h | h
        · rw [h]
          exact List.mem_cons_self _ _
        · exact List.mem_cons_of_mem _ (List.mem_cons_of_mem _ h)
      · intro d hd
        rcases List.mem_cons.mp hd with h | h
        · subst h
          by_contra hlt
          rw [Bool.not_eq_false] at hlt
          rcases hle with h2 | h2
          · rw [h2] at hlt
            exact hc hlt
          · exact hc (F.lt_trans hlt h2)
        · exact hall d h

theorem mapOrNone_mem {f : ℕ → Option ℕ} : ∀ {ks : List ℕ} {l : List ℕ},
    mapOrNone f ks = some l → ∀ c ∈ l, ∃ k ∈ ks, f k = some c := by
  intro ks
  induction ks with
  | nil =>
    intro l h c hc
    unfold mapOrNone at h
    rw [← Option.some.inj h] at hc
    exact absurd hc (by simp)
  | cons k ks ih =>
    intro l h c hc
    unfold mapOrNone at h
    rcases hk : f k with _ | b
    · rw [hk] at h
      exact absurd h (by simp)
    · rw [hk] at h
      rcases hks : mapOrNone f ks with _ | bs
      · rw [hks] at h
        exact absurd h (by simp)
      · rw [hks] at h
        rw [← Option.some.inj h] at hc
        rcases List.mem_cons.mp hc with h1 | h1
        · exact ⟨k, List.mem_cons_self _ _, h1 ▸ hk⟩
        · obtain ⟨k', hk', hfk⟩ := ih hks c h1
          exact ⟨k', List.mem_cons_of_mem _ hk', hfk⟩

theorem mapOrNone_some {f : ℕ → Option ℕ} : ∀ {ks : List ℕ},
    (∀ k ∈ ks, f k ≠ none) → mapOrNone f ks ≠ none := by
  intro ks
  induction ks with
  | nil => intro _ h; exact absurd h (by simp [mapOrNone])
  | cons k ks ih =>
    intro hall h
    unfold mapOrNone at h
    rcases hk : f k with _ | b
    · exact hall k (List.mem_cons_self _ _) hk
    · rw [hk] at h
      rcases hks : mapOrNone f ks with _ | bs
      · exact ih (fun k' hk' => hall k' (List.mem_cons_of_mem _ hk')) hks
      · rw [hks] at h
        exact absurd h (by simp)

/-- The selection fold, restated for `bestSel`. -/
theorem bestSel_spec (dist : List (F α)) (p : α) (group : List ℕ) (c0 : ℕ) :
    bestSel dist p group c0 ∈ c0 :: group ∧
    ∀ c ∈ group,
      F.lt (F.mul (F.fin p) (dist.getD c F.nan))
        (F.mul (F.fin p) (dist.getD (bestSel dist p group c0) F.nan)) = false := by
  obtain ⟨h1, _, h3⟩ := foldMin_spec
    (fun c => F.mul (F.fin p) (dist.getD c F.nan)) group c0
  exact ⟨h1, h3⟩

theorem bestOfGroup_mem [DecidableEq α] {g : BeliefGraph σ α} {u : ℕ}
    {dist : List (F α)} {children : List ℕ} {key b : ℕ}
    (h : bestOfGroup g u dist children key = some b) : b ∈ children := by
  unfold bestOfGroup at h
  split at h
  · exact absurd h (by simp)
  · rename_i c0 rest hf
    split at h
    · split at h
      · have hb := Option.some.inj h
        have hmem := (bestSel_spec dist (transition_probability (g.node u).belief_state
          (g.node c0).belief_state) (c0 :: rest) c0).1
        rw [hb] at hmem
        rcases List.mem_cons.mp hmem with h1 | h1
        · have hbf : b ∈ children.filter (fun c => (g.node c).belief_id == key) := by
            rw [hf, h1]
            exact List.mem_cons_self c0 rest
          exact List.mem_of_mem_filter hbf
        · have hbf : b ∈ children.filter (fun c => (g.node c).belief_id == key) := by
            rw [hf]
            exact h1
          exact List.mem_of_mem_filter hbf
      · exact absurd h (by simp)
    · exact absurd h (by simp)

theorem bestOfGroup_not_inf [DecidableEq α] {g : BeliefGraph σ α} {u : ℕ}
    {dist : List (F α)} {children : List ℕ} {key b : ℕ}
    (hu : dist.getD u F.nan ≠ F.inf)
    (h : bestOfGroup g u dist children key = some b) :
    dist.getD b F.nan ≠ F.inf := by
  unfold bestOfGroup at h
  split at h
  · exact absurd h (by simp)
  · rename_i c0 rest hf
    split at h
    · rename_i hp
      split at h
      · rename_i hleb
        have hb := Option.some.inj h
        rw [hb] at hleb
        intro hbinf
        rw [hbinf] at hleb
        have hmul : F.mul (F.fin (transition_probability (g.node u).belief_state
            (g.node c0).belief_state)) (F.inf (α := α)) = F.inf := by
          simp only [F.mul]
          rw [if_neg (ne_of_gt hp), if_pos hp]
        rw [hmul] at hleb
        exact hu (F.leb_inf_left hleb)
      · exact absurd h (by simp)
    · exact absurd h (by simp)

/-- C7 counterexample: the extractor has no infinity check.  On `exG1` with
every cost at `+∞` (no terminal is reachable), the walk from node `0`
descends into child `1` (whose cost is `+∞`) without error: the resulting
policy contains a second node built from belief node `1`. -/
theorem extract_policy_inf_descent_cex :
    extract_policy exG1 [F.inf, F.inf] 5 =
      some (ExtractResult.ok
        ⟨[⟨(), [1], none, [1], false⟩, ⟨(), [1], some 0, [], false⟩], []⟩) ∧
    ([F.inf, F.inf] : List (F ℤ)).getD 1 F.nan = F.inf ∧
    (⟨(), [1], some 0, [], false⟩ : PolicyNode Unit ℤ).belief_state =
      (exG1.node 1).belief_state := by decide

/-- C7 amended: by itself the extractor does descend into `+∞` children (see
the counterexample), but whenever the walk stands at a node `u` whose cost
is finite, the assertions inside `get_best_expected_children` force every
selected child — exactly the belief nodes for which policy nodes are created
and into which the walk descends — to have finite cost; and each loop
iteration only pushes entries from the previous stack or selected children
of non-zero cost.  So starting from a start node of finite cost the
extractor never descends into a `+∞` child, and missing observation branches
come from absent graph edges, not from a solver or extractor error. -/
theorem extract_policy_no_inf_descent [DecidableEq α] (g : BeliefGraph σ α)
    (dist : List (F α)) :
    (∀ u l, get_best_expected_children g u dist = some l →
      dist.getD u F.nan ≠ F.inf → ∀ c ∈ l, dist.getD c F.nan ≠ F.inf) ∧
    (∀ (pid : ℕ) (l : List ℕ) (rest : List (ℕ × ℕ)) (policy : Policy σ α),
      ∀ e ∈ (l.foldl (extractPush g dist pid) (rest, policy)).1,
        e ∈ rest ∨ (e.2 ∈ l ∧ dist.getD e.2 F.nan ≠ F.fin 0)) := by
  constructor
  · intro u l hsome hu c hc
    obtain ⟨k, _, hk⟩ := mapOrNone_mem hsome c hc
    exact bestOfGroup_not_inf hu hk
  · intro pid l
    induction l with
    | nil => intro rest policy e he; exact Or.inl he
    | cons c l ih =>
      intro rest policy e he
      rw [List.foldl_cons] at he
      rcases ih _ _ e he with h | ⟨h1, h2⟩
      · split at h
        · exact Or.inl h
        · rename_i hleaf
          rcases List.mem_cons.mp h with h2 | h2
          · refine Or.inr ⟨?_, ?_⟩
            · rw [h2]
              exact List.mem_cons_self _ _
            · rw [h2]
              simpa using hleaf
          · exact Or.inl h2
      · exact Or.inr ⟨List.mem_cons_of_mem _ h1, h2⟩

/-- Example graph refuting C4: one action edge whose transition probability
is zero (the parent belief `[1,0]` is disjoint from the child belief
`[0,1]`). -/
def exG4 : BeliefGraph Unit ℤ :=
  ⟨[⟨(), [1, 0], 0, [], [1], BeliefNodeType.Action⟩,
    ⟨(), [0, 1], 1, [0], [], BeliefNodeType.Action⟩], [[1, 0], [0, 1]]⟩

/-- C4 counterexample: on `exG4` (nonnegative costs), `conditional_dijkstra`
terminates with `dist = [1, 0]`, and `extract_policy` on that very `dist`
fails the assertion `p > 0.0` at the start node (the only child's transition
probability is `0`). -/
theorem extract_policy_assert_cex :
    conditional_dijkstra exG4 [1] exCost 3 = some ⟨[F.fin 1, F.fin 0], []⟩ ∧
    extract_policy exG4 [F.fin 1, F.fin 0] 5 =
      some (ExtractResult.assertFailed (σ := Unit) (α := ℤ)) := by decide

theorem mem_insSorted {a x : ℕ} : ∀ {l : List ℕ}, a ∈ insSorted x l ↔ a = x ∨ a ∈ l := by
  intro l
  induction l with
  | nil => simp [insSorted]
  | cons y l ih =>
    unfold insSorted
    by_cases h : x ≤ y
    · rw [if_pos h]
      simp
    · rw [if_neg h]
      simp only [List.mem_cons, ih]
      tauto

theorem mem_sortKeys {a : ℕ} : ∀ {l : List ℕ}, a ∈ sortKeys l ↔ a ∈ l := by
  intro l
  induction l with
  | nil => simp [sortKeys]
  | cons x l ih =>
    unfold sortKeys at *
    rw [List.foldr_cons, mem_insSorted, ih]
    simp

theorem Fle_fin_le {a b : α} (h : Fle (F.fin a) (F.fin b)) : a ≤ b := by
  rcases h with h | h
  · simp [F.lt] at h
    exact h.le
  · simp only [F.fin.injEq] at h
    exact h.le

/-- Each per-group assertion of `get_best_expected_children` succeeds on the
terminal state of a successful `conditional_dijkstra` run, at any node of
nonzero cost, provided every graph edge has positive transition probability,
action edges preserve the belief id, and belief masses are at most `1`. -/
theorem bestOfGroup_some [DecidableEq α] {g : BeliefGraph σ α} {cost : σ → σ → α}
    {finals : List ℕ} {s : DState α} {u k : ℕ}
    (hcoh1 : ∀ w, w < g.nodes.length → ∀ c ∈ (g.node w).children,
      c < g.nodes.length ∧ w ∈ (g.node c).parents)
    (hbs : ∀ w, w < g.nodes.length → ∀ x ∈ (g.node w).belief_state, 0 ≤ x)
    (hcost : ∀ a b, 0 ≤ cost a b)
    (hpos : ∀ w, w < g.nodes.length → ∀ c ∈ (g.node w).children,
      0 < transition_probability (g.node w).belief_state (g.node c).belief_state)
    (hact : ∀ w, w < g.nodes.length → (g.node w).node_type = BeliefNodeType.Action →
      ∀ c ∈ (g.node w).children, (g.node c).belief_id = (g.node w).belief_id)
    (hsum : ∀ w, w < g.nodes.length → (g.node w).belief_state.sum ≤ 1)
    (hinv : DInv g cost finals s noPend) (hterm : s.queue = [])
    (hlen : s.dist.length = g.nodes.length)
    (hfz : ∀ f ∈ finals, s.dist.getD f F.nan = F.fin 0)
    (hu : u < g.nodes.length) (hu0 : s.dist.getD u F.nan ≠ F.fin 0)
    (hk : ∃ c ∈ (g.node u).children, (g.node c).belief_id = k) :
    bestOfGroup g u s.dist (g.node u).children k ≠ none := by
  obtain ⟨cw, hcw, hcwk⟩ := hk
  have hcwf : cw ∈ (g.node u).children.filter (fun c => (g.node c).belief_id == k) :=
    List.mem_filter.mpr ⟨hcw, by simp [hcwk]⟩
  unfold bestOfGroup
  split
  · rename_i hf
    rw [hf] at hcwf
    exact absurd hcwf (by simp)
  · rename_i c0 rest hf
    set p := transition_probability (g.node u).belief_state (g.node c0).belief_state
      with hpdef
    set best := bestSel s.dist p (c0 :: rest) c0 with hbdef
    have hc0f : c0 ∈ (g.node u).children.filter (fun c => (g.node c).belief_id == k) := by
      rw [hf]
      exact List.mem_cons_self _ _
    have hc0 : c0 ∈ (g.node u).children := List.mem_of_mem_filter hc0f
    have hp : 0 < p := by
      rw [hpdef]
      exact hpos u hu c0 hc0
    have hmemb : best ∈ (g.node u).children := by
      rw [hbdef]
      rcases List.mem_cons.mp (bestSel_spec s.dist p (c0 :: rest) c0).1 with h1 | h1
      · rw [h1]
        exact hc0
      · have h2 : bestSel s.dist p (c0 :: rest) c0 ∈
            (g.node u).children.filter (fun c => (g.node c).belief_id == k) := by
          rw [hf]
          exact h1
        exact List.mem_of_mem_filter h2
    have hblen : best < g.nodes.length := (hcoh1 u hu best hmemb).1
    have hbnn : F.nn (s.dist.getD best F.nan) :=
      hinv.dOK _ (getD_mem _ _ _ (by rw [hlen]; exact hblen))
    have hunn : F.nn (s.dist.getD u F.nan) :=
      hinv.dOK _ (getD_mem _ _ _ (by rw [hlen]; exact hu))
    have hleb : F.leb (F.mul (F.fin p) (s.dist.getD best F.nan))
        (s.dist.getD u F.nan) = true := by
      rcases hunn with hui | ⟨qv, hqv, hufin⟩
      · rw [hui]
        exact F.leb_inf_right (F.nn.not_nan (mul_pos_nn hp hbnn))
      · have hnf : u ∉ finals := fun hin => hu0 (hfz u hin)
        have hninf : s.dist.getD u F.nan ≠ F.inf := by
          rw [hufin]
          simp
        obtain ⟨hA, hB, hC⟩ := hinv.inv u (by rw [hlen]; exact hu) hnf hninf
        have hp1 : p ≤ 1 := by
          rw [hpdef]
          exact le_trans (tp_le_sum _ _ (hbs u hu)) (hsum u hu)
        rcases htype : (g.node u).node_type with _ | _ | _
        · exact absurd htype hA
        · obtain ⟨v, hv, hle, hd⟩ := hB htype
          rcases hd with heq | hinq | hpend
          · rw [hufin] at heq
            unfold actionCandidate at heq
            rw [F.zero_add] at heq
            obtain ⟨⟨r1, hr1⟩, r, hr⟩ := add_eq_fin heq
            rw [hr] at heq
            simp only [F.add, F.fin.injEq] at heq
            have hvlen : v < g.nodes.length := (hcoh1 u hu v hv).1
            have hvnn : F.nn (s.dist.getD v F.nan) :=
              hinv.dOK _ (getD_mem _ _ _ (by rw [hlen]; exact hvlen))
            have hrnn : 0 ≤ r := by
              rcases hvnn with h1 | ⟨r2, hr2, h2⟩
              · rw [hr] at h1
                exact absurd h1 (by simp)
              · rw [hr] at h2
                simp only [F.fin.injEq] at h2
                rw [h2]
                exact hr2
            have hvk : (g.node v).belief_id = k := by
              rw [hact u hu htype v hv, ← hact u hu htype cw hcw]
              exact hcwk
            have hvgroup : v ∈ c0 :: rest := by
              rw [← hf]
              exact List.mem_filter.mpr ⟨hv, by simp [hvk]⟩
            have hmin := (bestSel_spec s.dist p (c0 :: rest) c0).2 v hvgroup
            rw [← hbdef, hr] at hmin
            rcases hbnn with hbinf | ⟨sB, hsB, hbfin⟩
            · rw [hbinf] at hmin
              simp only [F.mul] at hmin
              rw [if_neg (ne_of_gt hp), if_pos hp] at hmin
              simp [F.lt] at hmin
            · rw [hbfin, hufin]
              rw [hbfin] at hmin
              simp only [F.mul] at hmin
              simp only [F.lt, decide_eq_false_iff_not, not_lt] at hmin
              have h2 : p * r ≤ r := mul_le_of_le_one_left hrnn hp1
              have h3 : r ≤ qv := by
                rw [← heq]
                exact le_add_of_nonneg_left (hcost _ _)
              simp only [F.mul, F.leb, decide_eq_true_eq]
              linarith
          · rw [hterm] at hinq
            obtain ⟨pr, hpr⟩ := hinq
            exact absurd hpr (by simp)
          · exact False.elim hpend
        · obtain ⟨hle2, hd⟩ := hC htype
          have heq : obsCandidate g cost u s.dist = F.fin qv := by
            rcases hd with heq | ⟨v, hv, hinq | hpend⟩
            · rw [← hufin]
              exact heq
            · rw [hterm] at hinq
              obtain ⟨pr, hpr⟩ := hinq
              exact absurd hpr (by simp)
            · exact False.elim hpend
          have hfinch := obsCandidate_fin_child (hbs u hu) heq
          have hc0len : c0 < g.nodes.length := (hcoh1 u hu c0 hc0).1
          have hc0nn : F.nn (s.dist.getD c0 F.nan) :=
            hinv.dOK _ (getD_mem _ _ _ (by rw [hlen]; exact hc0len))
          obtain ⟨r0, hr0nn, hr0⟩ : ∃ r0, 0 ≤ r0 ∧ s.dist.getD c0 F.nan = F.fin r0 := by
            rcases hc0nn with h1 | ⟨r2, hr2, h2⟩
            · exact absurd h1 (hfinch c0 hc0)
            · exact ⟨r2, hr2, h2⟩
          have htermnn : ∀ vv ∈ (g.node u).children, F.nn (obsTerm g cost u s.dist vv) := by
            intro vv hvv
            unfold obsTerm
            exact mul_pos_nn (hpos u hu vv hvv)
              (add_fin_nn (hcost _ _)
                (hinv.dOK _ (getD_mem _ _ _ (by rw [hlen]; exact (hcoh1 u hu vv hvv).1))))
          have hge := foldl_fadd_ge_term (g.node u).children (F.fin 0) c0 hc0
            (Or.inr ⟨0, le_refl 0, rfl⟩) htermnn
          rw [← obsCandidate_eq_foldl, heq] at hge
          have hterm0 : obsTerm g cost u s.dist c0 =
              F.fin (p * (cost (g.node u).state (g.node c0).state + r0)) := by
            unfold obsTerm
            rw [hr0, ← hpdef]
            simp only [F.add, F.mul]
          rw [hterm0] at hge
          have hterm_le : p * (cost (g.node u).state (g.node c0).state + r0) ≤ qv :=
            Fle_fin_le hge
          have hmin := (bestSel_spec s.dist p (c0 :: rest) c0).2 c0
            (List.mem_cons_self _ _)
          rw [← hbdef, hr0] at hmin
          rcases hbnn with hbinf | ⟨sB, hsB, hbfin⟩
          · exact absurd hbinf (hfinch best hmemb)
          · rw [hbfin, hufin]
            rw [hbfin] at hmin
            simp only [F.mul] at hmin
            simp only [F.lt, decide_eq_false_iff_not, not_lt] at hmin
            have h2 : p * r0 ≤ p * (cost (g.node u).state (g.node c0).state + r0) := by
              apply mul_le_mul_of_nonneg_left _ hp.le
              exact le_add_of_nonneg_left (hcost _ _)
            simp only [F.mul, F.leb, decide_eq_true_eq]
            linarith
    rw [if_pos hp, if_pos hleb]
    simp

/-- `get_best_expected_children` succeeds (no assertion fires) at every
in-range node of nonzero cost, under the conditions of `bestOfGroup_some`. -/
theorem get_best_some [DecidableEq α] {g : BeliefGraph σ α} {cost : σ → σ → α}
    {finals : List ℕ} {s : DState α} {u : ℕ}
    (hcoh1 : ∀ w, w < g.nodes.length → ∀ c ∈ (g.node w).children,
      c < g.nodes.length ∧ w ∈ (g.node c).parents)
    (hbs : ∀ w, w < g.nodes.length → ∀ x ∈ (g.node w).belief_state, 0 ≤ x)
    (hcost : ∀ a b, 0 ≤ cost a b)
    (hpos : ∀ w, w < g.nodes.length → ∀ c ∈ (g.node w).children,
      0 < transition_probability (g.node w).belief_state (g.node c).belief_state)
    (hact : ∀ w, w < g.nodes.length → (g.node w).node_type = BeliefNodeType.Action →
      ∀ c ∈ (g.node w).children, (g.node c).belief_id = (g.node w).belief_id)
    (hsum : ∀ w, w < g.nodes.length → (g.node w).belief_state.sum ≤ 1)
    (hinv : DInv g cost finals s noPend) (hterm : s.queue = [])
    (hlen : s.dist.length = g.nodes.length)
    (hfz : ∀ f ∈ finals, s.dist.getD f F.nan = F.fin 0)
    (hu : u < g.nodes.length) (hu0 : s.dist.getD u F.nan ≠ F.fin 0) :
    get_best_expected_children g u s.dist ≠ none := by
  show mapOrNone (bestOfGroup g u s.dist (g.node u).children)
    (sortKeys ((g.node u).children.map (fun c => (g.node c).belief_id)).dedup) ≠ none
  apply mapOrNone_some
  intro k hkmem
  rw [mem_sortKeys, List.mem_dedup] at hkmem
  obtain ⟨c, hc, hck⟩ := List.mem_map.mp hkmem
  exact bestOfGroup_some hcoh1 hbs hcost hpos hact hsum hinv hterm hlen hfz hu hu0
    ⟨c, hc, hck⟩

/-- Each stack entry produced by the per-child fold of `extract_policy`
either was already on the stack or is a selected child of nonzero cost. -/
theorem extractPush_lifo_mem {g : BeliefGraph σ α} {dist : List (F α)} (pid : ℕ) :
    ∀ (l : List ℕ) (rest : List (ℕ × ℕ)) (policy : Policy σ α),
      ∀ e ∈ (l.foldl (extractPush g dist pid) (rest, policy)).1,
        e ∈ rest ∨ (e.2 ∈ l ∧ dist.getD e.2 F.nan ≠ F.fin 0) := by
  intro l
  induction l with
  | nil => intro rest policy e he; exact Or.inl he
  | cons c l ih =>
    intro rest policy e he
    rw [List.foldl_cons] at he
    rcases ih _ _ e he with h | ⟨h1, h2⟩
    · split at h
      · exact Or.inl h
      · rename_i hleaf
        rcases List.mem_cons.mp h with h2 | h2
        · refine Or.inr ⟨?_, ?_⟩
          · rw [h2]
            exact List.mem_cons_self _ _
          · rw [h2]
            simpa using hleaf
        · exact Or.inl h2
    · exact Or.inr ⟨List.mem_cons_of_mem _ h1, h2⟩

/-- The stack loop of `extract_policy` never reaches a failed assertion when
every stack entry points at an in-range node of nonzero cost, under the
conditions of `bestOfGroup_some`. -/
theorem extractGo_no_assert [DecidableEq α] {g : BeliefGraph σ α} {cost : σ → σ → α}
    {finals : List ℕ} {s : DState α}
    (hcoh1 : ∀ w, w < g.nodes.length → ∀ c ∈ (g.node w).children,
      c < g.nodes.length ∧ w ∈ (g.node c).parents)
    (hbs : ∀ w, w < g.nodes.length → ∀ x ∈ (g.node w).belief_state, 0 ≤ x)
    (hcost : ∀ a b, 0 ≤ cost a b)
    (hpos : ∀ w, w < g.nodes.length → ∀ c ∈ (g.node w).children,
      0 < transition_probability (g.node w).belief_state (g.node c).belief_state)
    (hact : ∀ w, w < g.nodes.length → (g.node w).node_type = BeliefNodeType.Action →
      ∀ c ∈ (g.node w).children, (g.node c).belief_id = (g.node w).belief_id)
    (hsum : ∀ w, w < g.nodes.length → (g.node w).belief_state.sum ≤ 1)
    (hinv : DInv g cost finals s noPend) (hterm : s.queue = [])
    (hlen : s.dist.length = g.nodes.length)
    (hfz : ∀ f ∈ finals, s.dist.getD f F.nan = F.fin 0) :
    ∀ (fuel : ℕ) (lifo : List (ℕ × ℕ)) (policy : Policy σ α),
      (∀ e ∈ lifo, e.2 < g.nodes.length ∧ s.dist.getD e.2 F.nan ≠ F.fin 0) →
      extractGo g s.dist fuel lifo policy ≠ ExtractResult.assertFailed := by
  intro fuel
  induction fuel with
  | zero =>
    intro lifo policy _
    unfold extractGo
    split <;> simp
  | succ fuel ih =>
    intro lifo policy hlifo
    rcases lifo with _ | ⟨⟨pid, nid⟩, rest⟩
    · unfold extractGo
      simp
    · obtain ⟨hnid, hnid0⟩ := hlifo (pid, nid) (List.mem_cons_self _ _)
      rcases hg : get_best_expected_children g nid s.dist with _ | l
      · exact absurd hg
          (get_best_some hcoh1 hbs hcost hpos hact hsum hinv hterm hlen hfz hnid hnid0)
      · simp only [extractGo, hg]
        apply ih
        intro e he
        rcases extractPush_lifo_mem pid l rest _ e he with h | ⟨h1, h2⟩
        · exact hlifo e (List.mem_cons_of_mem _ h)
        · obtain ⟨k, hk, hfk⟩ := mapOrNone_mem hg e.2 h1
          exact ⟨(hcoh1 nid hnid e.2 (bestOfGroup_mem hfk)).1, h2⟩

/-- C4 (amended): as stated the claim is false — `get_best_expected_children`
asserts `p > 0.0` for the probability of *every* child group, so a single
zero-probability edge (disjoint parent/child beliefs) makes `extract_policy`
panic (see the counterexample).  The assertions do hold under the natural
side conditions of the construction: every edge of the graph has strictly
positive transition probability, action edges preserve the belief id (so an
action node's children form one group minimized over in full), belief masses
are nonnegative and sum to at most `1`, costs are nonnegative, the
parent/child lists are mutually coherent, `dist` is the terminal state of a
successful `conditional_dijkstra` run, and the start node's cost is nonzero
(a zero-cost start is its own leaf).  Then for any fuel, `extract_policy`
never returns the failed-assertion outcome: at every node reached by the
walk and for every child group, `p > 0` holds and the selected child `best`
satisfies `p * dist[best] <= dist[node]`. -/
theorem extract_policy_asserts_hold [DecidableEq α]
    (g : BeliefGraph σ α) (cost : σ → σ → α) (finals : List ℕ) (fuel : ℕ)
    (s' : DState α)
    (hcoh1 : ∀ u, u < g.nodes.length → ∀ w ∈ (g.node u).children,
      w < g.nodes.length ∧ u ∈ (g.node w).parents)
    (hcoh2 : ∀ w, w < g.nodes.length → ∀ u ∈ (g.node w).parents,
      u < g.nodes.length ∧ w ∈ (g.node u).children)
    (hbs : ∀ u, u < g.nodes.length → ∀ x ∈ (g.node u).belief_state, 0 ≤ x)
    (hcost : ∀ a b, 0 ≤ cost a b)
    (hfin : ∀ id ∈ finals, id < g.nodes.length)
    (hpos : ∀ u, u < g.nodes.length → ∀ c ∈ (g.node u).children,
      0 < transition_probability (g.node u).belief_state (g.node c).belief_state)
    (hact : ∀ u, u < g.nodes.length → (g.node u).node_type = BeliefNodeType.Action →
      ∀ c ∈ (g.node u).children, (g.node c).belief_id = (g.node u).belief_id)
    (hsum : ∀ u, u < g.nodes.length → (g.node u).belief_state.sum ≤ 1)
    (hrun : conditional_dijkstra g finals cost fuel = some s')
    (hterm : s'.queue = [])
    (hzero : s'.dist.getD 0 F.nan ≠ F.fin 0) :
    ∀ fuel2, extract_policy g s'.dist fuel2 ≠
      some (ExtractResult.assertFailed (σ := σ) (α := α)) := by
  intro fuel2 h
  obtain ⟨hinv, hlen, hfz⟩ := conditional_dijkstra_master hcoh1 hcoh2 hbs hcost hfin hrun
  unfold extract_policy at h
  split at h
  · exact absurd h (by simp)
  · rename_i hne
    have h2 := Option.some.inj h
    have hlen0 : 0 < g.nodes.length := by
      rcases hh : g.nodes with _ | ⟨a, l⟩
      · rw [hh] at hne
        simp at hne
      · exact Nat.succ_pos _
    exact extractGo_no_assert hcoh1 hbs hcost hpos hact hsum hinv hterm hlen hfz
      fuel2 [(0, 0)] _
      (fun e he => by
        have he2 : e = (0, 0) := by simpa using he
        rw [he2]
        exact ⟨hlen0, hzero⟩) h2

theorem extract_policy_asserts_hold_witness :
    extract_policy exG1 [F.fin 1, F.fin 0] 5 ≠
      some (ExtractResult.assertFailed (σ := Unit) (α := ℤ)) :=
  extract_policy_asserts_hold exG1 exCost [1] 4 ⟨[F.fin 1, F.fin 0], []⟩
    (by decide) (by decide) (by decide) (fun _ _ => zero_le_one) (by decide)
    (by decide) (by decide) (by decide) (by decide) rfl (by decide) 5

/-- The entry of `plan_belief_space` from `src/prm.rs`: the only input check
before building the belief graph is `assert_belief_state_validity` on the
start belief (`none` models the panic of a failed assertion).  The function
receives no world count and performs no length check. -/
def plan_belief_space_entry (start_belief_state : List ℚ) : Option Unit :=
  if assert_belief_state_validity start_belief_state then some () else none

/-- C6 counterexample: a start belief of length `3` in a problem with `2`
worlds passes the entry of `plan_belief_space` (its entries sum to `1`), so
a dimension mismatch is NOT rejected at entry. -/
theorem plan_belief_space_length_cex :
    plan_belief_space_entry [1/2, 1/2, 0] = some () ∧
    ([1/2, 1/2, 0] : List ℚ).length ≠ 2 := by
  refine ⟨?_, by simp⟩
  have hc : assert_belief_state_validity [1/2, 1/2, 0] = true := by
    unfold assert_belief_state_validity
    simp only [List.foldl]
    norm_num
  unfold plan_belief_space_entry
  rw [if_pos hc]

/-- C6 amended: `plan_belief_space` fails loudly at entry exactly when the
start belief's entries sum (via the source's fold) to a value differing from
`1` by at least `10⁻⁶`; it checks nothing else — in particular a belief
whose length differs from the number of worlds proceeds past the entry
whenever its sum is close enough to `1` (see the counterexample). -/
theorem plan_belief_space_entry_spec (bs : List ℚ) :
    plan_belief_space_entry bs = none ↔
      1 / 1000000 ≤ |bs.foldl (fun s p => p + s) 0 - 1| := by
  unfold plan_belief_space_entry assert_belief_state_validity
  rcases lt_or_le (|bs.foldl (fun s p => p + s) 0 - 1|) (1 / 1000000) with h | h
  · rw [if_pos (by simpa using h)]
    exact ⟨fun hc => absurd hc (by simp), fun hc => absurd hc (not_le.mpr h)⟩
  · rw [if_neg (by simpa using h)]
    exact iff_of_true rfl h

/-! Source `src/prm.rs`: the sampling loop of `grow_graph`.  Modelled from
the spec: the per-iteration body (sampling, steering, node and edge
insertion) and `is_final_set_complete` live in modules missing from `src/`
(`sample_space.rs`, `nearest_neighbor.rs`, `prm_reachability.rs`), so they
are abstracted as a state transformer `step` and a predicate `complete`; the
loop structure, guard, counter and the final `match` are from
`src/prm.rs`. -/

/-- The loop guard of `grow_graph`, with Rust's `&&`-over-`||` precedence:
`i < n_iter_min || (!is_final_set_complete() && i < n_iter_max)`. -/
def growGuard {β : Type} (complete : β → Bool) (n_iter_min n_iter_max : ℕ)
    (i : ℕ) (s : β) : Bool :=
  decide (i < n_iter_min) || (!complete s && decide (i < n_iter_max))

/-- The `while` loop of `grow_graph`, fuel-indexed: each iteration increments
`i` and runs the body once. -/
def growLoop {β : Type} (step : β → β) (complete : β → Bool)
    (n_iter_min n_iter_max : ℕ) : ℕ → ℕ → β → Option (ℕ × β)
  | 0, i, s =>
    if growGuard complete n_iter_min n_iter_max i s then none else some (i, s)
  | fuel + 1, i, s =>
    if growGuard complete n_iter_min n_iter_max i s then
      growLoop step complete n_iter_min n_iter_max fuel (i + 1) (step s)
    else some (i, s)

/-- `grow_graph` from `src/prm.rs` (loop and final match): run the loop from
`i = 0`, then return the final counter, the final state (the graph built so
far is left in place in both cases) and whether the run is `Ok`
(`is_final_set_complete` at exit). -/
def grow_graph {β : Type} (step : β → β) (complete : β → Bool)
    (n_iter_min n_iter_max fuel : ℕ) (s0 : β) : Option ((ℕ × β) × Bool) :=
  match growLoop step complete n_iter_min n_iter_max fuel 0 s0 with
  | none => none
  | some (i, s) => some ((i, s), complete s)

/-- The loop of `grow_graph`: on normal exit the guard has just failed, every
earlier counter passed the guard, and the state is the iterated body. -/
theorem growLoop_spec {β : Type} (step : β → β) (complete : β → Bool)
    (nmin nmax : ℕ) : ∀ (fuel i0 : ℕ) (s0 : β) (iEnd : ℕ) (sEnd : β),
    growLoop step complete nmin nmax fuel i0 s0 = some (iEnd, sEnd) →
    i0 ≤ iEnd ∧ sEnd = step^[iEnd - i0] s0 ∧
    growGuard complete nmin nmax iEnd sEnd = false ∧
    ∀ j, i0 ≤ j → j < iEnd →
      growGuard complete nmin nmax j (step^[j - i0] s0) = true := by
  intro fuel
  induction fuel with
  | zero =>
    intro i0 s0 iEnd sEnd h
    unfold growLoop at h
    split at h
    · exact absurd h (by simp)
    · rename_i hg
      obtain ⟨h1, h2⟩ := Prod.mk.injEq .. ▸ Option.some.inj h
      refine ⟨h1 ▸ le_refl _, ?_, ?_, ?_⟩
      · rw [← h1, Nat.sub_self]
        exact h2.symm
      · rw [← h1, ← h2]
        exact Bool.not_eq_true _ ▸ hg
      · intro j hj1 hj2
        rw [← h1] at hj2
        omega
  | succ fuel ih =>
    intro i0 s0 iEnd sEnd h
    unfold growLoop at h
    split at h
    · rename_i hg
      obtain ⟨h1, h2, h3, h4⟩ := ih (i0 + 1) (step s0) iEnd sEnd h
      have hle : i0 ≤ iEnd := le_trans (Nat.le_succ _) h1
      refine ⟨hle, ?_, h3, ?_⟩
      · rw [h2, ← Function.iterate_succ_apply]
        have he : Nat.succ (iEnd - (i0 + 1)) = iEnd - i0 := by omega
        rw [he]
      · intro j hj1 hj2
        rcases eq_or_lt_of_le hj1 with he | hlt
        · rw [← he, Nat.sub_self]
          simpa using hg
        · have h5 := h4 j hlt hj2
          rw [← Function.iterate_succ_apply] at h5
          have he : Nat.succ (j - (i0 + 1)) = j - i0 := by omega
          rw [he] at h5
          exact h5
    · rename_i hg
      obtain ⟨h1, h2⟩ := Prod.mk.injEq .. ▸ Option.some.inj h
      refine ⟨h1 ▸ le_refl _, ?_, ?_, ?_⟩
      · rw [← h1, Nat.sub_self]
        exact h2.symm
      · rw [← h1, ← h2]
        exact Bool.not_eq_true _ ▸ hg
      · intro j hj1 hj2
        rw [← h1] at hj2
        omega

/-- The guard fails exactly at the claimed stopping condition, provided
`n_iter_min ≤ n_iter_max`. -/
theorem growGuard_false_iff {β : Type} (complete : β → Bool) {nmin nmax : ℕ}
    (hminmax : nmin ≤ nmax) (i : ℕ) (s : β) :
    growGuard complete nmin nmax i s = false ↔
      ((nmin ≤ i ∧ complete s = true) ∨ nmax ≤ i) := by
  unfold growGuard
  rcases hc : complete s <;> simp [hc] <;> omega

/-- C5 counterexample: the guard's precedence is
`i < n_min || (!complete && i < n_max)`, not the claimed
`(i < n_min || !complete) && i < n_max`.  With `n_iter_min = 2`,
`n_iter_max = 1` and a never-complete terminal set, the claimed stopping
condition `i ≥ n_max` already holds at `i = 1`, yet the guard is still true
there and the loop runs on to `i = 2`. -/
theorem grow_graph_stop_cex :
    grow_graph (fun (s : Unit) => s) (fun _ => false) 2 1 4 () =
      some ((2, ()), false) ∧
    growGuard (fun (_ : Unit) => false) 2 1 1 () = true ∧
    1 ≥ 1 := by decide

/-- C5 (amended): when `n_iter_min ≤ n_iter_max` (the intended way to call
the builder), `grow_graph` iterates exactly until `i ≥ n_iter_min` and the
terminal set is complete, or until `i ≥ n_iter_max`: on a normal exit the
stopping condition holds, and at every earlier counter it did not; `Ok` is
returned exactly when `is_final_set_complete` holds at loop exit, `Err`
exactly when `n_iter_max` was exhausted with the terminal set incomplete,
and in both cases the state built so far (`step` iterated `i` times) is
returned rather than cleared.  Without `n_iter_min ≤ n_iter_max` the claimed
stopping rule is wrong (see the counterexample): the guard's precedence is
`i < n_min || (!complete && i < n_max)`. -/
theorem grow_graph_stopping_spec {β : Type} (step : β → β) (complete : β → Bool)
    (n_iter_min n_iter_max fuel : ℕ) (s0 : β) (iEnd : ℕ) (sEnd : β) (isOk : Bool)
    (hminmax : n_iter_min ≤ n_iter_max)
    (hrun : grow_graph step complete n_iter_min n_iter_max fuel s0 =
      some ((iEnd, sEnd), isOk)) :
    ((n_iter_min ≤ iEnd ∧ complete sEnd = true) ∨ n_iter_max ≤ iEnd) ∧
    (∀ j, j < iEnd →
      ¬((n_iter_min ≤ j ∧ complete (step^[j] s0) = true) ∨ n_iter_max ≤ j)) ∧
    (isOk = true ↔ complete sEnd = true) ∧
    (isOk = false → n_iter_max ≤ iEnd ∧ complete sEnd = false) ∧
    sEnd = step^[iEnd] s0 := by
  unfold grow_graph at hrun
  rcases hloop : growLoop step complete n_iter_min n_iter_max fuel 0 s0 with _ | ⟨i, s⟩
  · rw [hloop] at hrun
    exact absurd hrun (by simp)
  · rw [hloop] at hrun
    obtain ⟨h1, h2⟩ := Prod.mk.injEq .. ▸ Option.some.inj hrun
    obtain ⟨hi, hs⟩ := Prod.mk.injEq .. ▸ h1
    obtain ⟨hle, hst, hgf, hgt⟩ := growLoop_spec step complete n_iter_min n_iter_max
      fuel 0 s0 i s hloop
    rw [Nat.sub_zero] at hst
    subst hi
    subst hs
    have hstop := (growGuard_false_iff complete hminmax _ _).mp hgf
    refine ⟨hstop, ?_, ?_, ?_, hst⟩
    · intro j hj hcl
      have hgj := hgt j (Nat.zero_le _) hj
      rw [Nat.sub_zero] at hgj
      have : growGuard complete n_iter_min n_iter_max j (step^[j] s0) = false :=
        (growGuard_false_iff complete hminmax j _).mpr hcl
      rw [this] at hgj
      exact Bool.false_ne_true hgj
    · rw [← h2]
    · intro hf
      rw [← h2] at hf
      rcases hstop with ⟨_, hc⟩ | hm
      · rw [hc] at hf
        exact absurd hf (by simp)
      · exact ⟨hm, hf⟩

theorem grow_graph_stopping_spec_witness :
    ((1 ≤ 1 ∧ (fun (_ : Unit) => true) () = true) ∨ 2 ≤ 1) ∧
    (∀ j, j < 1 →
      ¬((1 ≤ j ∧ (fun (_ : Unit) => true) ((fun (s : Unit) => s)^[j] ()) = true) ∨
        2 ≤ j)) ∧
    (true = true ↔ (fun (_ : Unit) => true) () = true) ∧
    (true = false → 2 ≤ 1 ∧ (fun (_ : Unit) => true) () = false) ∧
    () = (fun (s : Unit) => s)^[1] () :=
  grow_graph_stopping_spec (fun s => s) (fun _ => true) 1 2 3 () 1 () true
    (by decide) (by decide)

/-! Source `src/prm.rs`: the `fwd_edges`/`bwd_edges` computation of
`grow_graph`.  Modelled from the spec: the roadmap graph type and its
`add_edge` (in `prm_graph.rs`, missing from `src/`) follow §3 of the spec
(a directed edge to `id` with a world-validity mask, appended to the
source's child list); the transition oracle is an abstract pure function.
The two edge-list expressions and the two install loops are from
`src/prm.rs` lines 93-115. -/

/-- A roadmap edge: target node id and world-validity mask. -/
structure PRMEdge where
  id : ℕ
  validity : List Bool
deriving DecidableEq

/-- A roadmap node: configuration, validity mask, outgoing edges. -/
structure PRMNode (σ : Type) where
  state : σ
  validity : List Bool
  children : List PRMEdge
deriving DecidableEq

instance : Inhabited (PRMNode σ) := ⟨⟨default, [], []⟩⟩

/-- The roadmap graph. -/
structure PRMGraph (σ : Type) where
  nodes : List (PRMNode σ)
deriving DecidableEq

/-- `PRMGraph::add_edge`: append a directed edge `from_id → to_id` with the
given validity mask to the source's child list. -/
def PRMGraph.add_edge (g : PRMGraph σ) (from_id to_id : ℕ)
    (validity : List Bool) : PRMGraph σ :=
  ⟨g.nodes.set from_id
    ⟨(g.nodes.getD from_id default).state, (g.nodes.getD from_id default).validity,
     (g.nodes.getD from_id default).children ++ [⟨to_id, validity⟩]⟩⟩

/-- `fwd_edges` from `grow_graph`: map each neighbour id to its node, query
the transition oracle against the new node, and keep the approved ones. -/
def fwd_edges (nodes : List (PRMNode σ))
    (transition_validator : PRMNode σ → PRMNode σ → Option (List Bool))
    (neighbour_ids : List ℕ) (new_node : PRMNode σ) :
    List (ℕ × Option (List Bool)) :=
  ((neighbour_ids.map (fun id => (id, nodes.getD id default))).map
      (fun p => (p.1, transition_validator p.2 new_node))).filter
    (fun p => p.2.isSome)

/-- `bwd_edges` from `grow_graph`: the source computes it by an expression
identical to `fwd_edges` (same ids, same oracle direction, same filter). -/
def bwd_edges (nodes : List (PRMNode σ))
    (transition_validator : PRMNode σ → PRMNode σ → Option (List Bool))
    (neighbour_ids : List ℕ) (new_node : PRMNode σ) :
    List (ℕ × Option (List Bool)) :=
  ((neighbour_ids.map (fun id => (id, nodes.getD id default))).map
      (fun p => (p.1, transition_validator p.2 new_node))).filter
    (fun p => p.2.isSome)

/-- The `for (id, validity) in fwd_edges` loop: install `id → new_node_id`;
`none` models the `expect` panic on an unfiltered `None`. -/
def installFwd (g : PRMGraph σ) (new_node_id : ℕ) :
    List (ℕ × Option (List Bool)) → Option (PRMGraph σ)
  | [] => some g
  | (_, none) :: _ => none
  | (id, some v) :: rest => installFwd (g.add_edge id new_node_id v) new_node_id rest

/-- The `for (id, validity) in bwd_edges` loop: install `new_node_id → id`. -/
def installBwd (g : PRMGraph σ) (new_node_id : ℕ) :
    List (ℕ × Option (List Bool)) → Option (PRMGraph σ)
  | [] => some g
  | (_, none) :: _ => none
  | (id, some v) :: rest => installBwd (g.add_edge new_node_id id v) new_node_id rest

theorem fwd_edges_fst_mem {nodes : List (PRMNode σ)}
    {tv : PRMNode σ → PRMNode σ → Option (List Bool)}
    {nids : List ℕ} {nn : PRMNode σ} {p : ℕ × Option (List Bool)}
    (h : p ∈ fwd_edges nodes tv nids nn) : p.1 ∈ nids := by
  unfold fwd_edges at h
  have h1 := List.mem_of_mem_filter h
  obtain ⟨q, hq, rfl⟩ := List.mem_map.mp h1
  obtain ⟨id, hid, rfl⟩ := List.mem_map.mp hq
  simpa using hid

theorem add_edge_length {g : PRMGraph σ} {a b : ℕ} {v : List Bool} :
    (g.add_edge a b v).nodes.length = g.nodes.length := by
  unfold PRMGraph.add_edge
  exact List.length_set _ _ _

theorem add_edge_mem_children {g : PRMGraph σ} {a b : ℕ} {v : List Bool}
    {i : ℕ} {e : PRMEdge} (h : e ∈ (g.nodes.getD i default).children) :
    e ∈ ((g.add_edge a b v).nodes.getD i default).children := by
  unfold PRMGraph.add_edge
  by_cases hia : i = a
  · subst hia
    by_cases hlen : i < g.nodes.length
    · rw [getD_set_self _ _ _ _ hlen]
      exact List.mem_append_left _ h
    · rw [List.set_eq_of_length_le (le_of_not_lt hlen)]
      exact h
  · rw [getD_set_ne _ _ _ _ _ hia]
    exact h

theorem add_edge_new_child {g : PRMGraph σ} {a b : ℕ} {v : List Bool}
    (hlen : a < g.nodes.length) :
    (⟨b, v⟩ : PRMEdge) ∈ ((g.add_edge a b v).nodes.getD a default).children := by
  unfold PRMGraph.add_edge
  rw [getD_set_self _ _ _ _ hlen]
  exact List.mem_append_right _ (List.mem_cons_self _ _)

theorem installFwd_mem {nid : ℕ} : ∀ (l : List (ℕ × Option (List Bool)))
    (g g' : PRMGraph σ), installFwd g nid l = some g' →
    (∀ p ∈ l, p.1 < g.nodes.length) →
    g'.nodes.length = g.nodes.length ∧
    (∀ i e, e ∈ (g.nodes.getD i default).children →
      e ∈ (g'.nodes.getD i default).children) ∧
    ∀ p ∈ l, ∀ v, p.2 = some v →
      (⟨nid, v⟩ : PRMEdge) ∈ (g'.nodes.getD p.1 default).children
  | [], g, g', h, _ => by
    have hg := Option.some.inj h
    subst hg
    exact ⟨rfl, fun i e he => he, by simp⟩
  | (id, none) :: rest, g, g', h, _ => by
    exact absurd h (by simp [installFwd])
  | (id, some v) :: rest, g, g', h, hrange => by
    rw [show installFwd g nid ((id, some v) :: rest) =
        installFwd (g.add_edge id nid v) nid rest from rfl] at h
    obtain ⟨hl, hp, hm⟩ := installFwd_mem rest _ g' h
      (fun p hp => by rw [add_edge_length]; exact hrange p (List.mem_cons_of_mem _ hp))
    refine ⟨hl.trans add_edge_length, ?_, ?_⟩
    · intro i e he
      exact hp i e (add_edge_mem_children he)
    · intro p hpmem w hw
      rcases List.mem_cons.mp hpmem with h1 | h1
      · have hid : p.1 = id := by rw [h1]
        have hv : w = v := by
          rw [h1] at hw
          exact (Option.some.inj hw).symm
        rw [hid, hv]
        exact hp id _ (add_edge_new_child (hrange (id, some v) (List.mem_cons_self _ _)))
      · exact hm p h1 w hw

theorem installBwd_mem {nid : ℕ} : ∀ (l : List (ℕ × Option (List Bool)))
    (g g' : PRMGraph σ), installBwd g nid l = some g' →
    nid < g.nodes.length →
    g'.nodes.length = g.nodes.length ∧
    (∀ i e, e ∈ (g.nodes.getD i default).children →
      e ∈ (g'.nodes.getD i default).children) ∧
    ∀ p ∈ l, ∀ v, p.2 = some v →
      (⟨p.1, v⟩ : PRMEdge) ∈ (g'.nodes.getD nid default).children
  | [], g, g', h, _ => by
    have hg := Option.some.inj h
    subst hg
    exact ⟨rfl, fun i e he => he, by simp⟩
  | (id, none) :: rest, g, g', h, _ => by
    exact absurd h (by simp [installBwd])
  | (id, some v) :: rest, g, g', h, hnid => by
    rw [show installBwd g nid ((id, some v) :: rest) =
        installBwd (g.add_edge nid id v) nid rest from rfl] at h
    obtain ⟨hl, hp, hm⟩ := installBwd_mem rest _ g' h
      (by rw [add_edge_length]; exact hnid)
    refine ⟨hl.trans add_edge_length, ?_, ?_⟩
    · intro i e he
      exact hp i e (add_edge_mem_children he)
    · intro p hpmem w hw
      rcases List.mem_cons.mp hpmem with h1 | h1
      · have hid : p.1 = id := by rw [h1]
        have hv : w = v := by
          rw [h1] at hw
          exact (Option.some.inj hw).symm
        rw [hid, hv]
        exact hp nid _ (add_edge_new_child hnid)
      · exact hm p h1 w hw

/-- C9: in each iteration of `grow_graph`, `fwd_edges` and `bwd_edges` are
computed by identical expressions (same neighbour ids, the oracle applied as
`transition_validator(neighbor_node, new_node)` in both, same `is_some`
filter), so for a pure oracle the two lists are equal — here definitionally;
and after the two install loops, every approved neighbour `id` carries both
directed edges with the mask from that single shared expression:
`id → new_node_id` on the neighbour, `new_node_id → id` on the new node. -/
theorem grow_graph_fwd_bwd_edges
    (g : PRMGraph σ) (tv : PRMNode σ → PRMNode σ → Option (List Bool))
    (neighbour_ids : List ℕ) (new_node : PRMNode σ) (g1 g2 : PRMGraph σ)
    (new_node_id : ℕ)
    (hrange : ∀ id ∈ neighbour_ids, id < g.nodes.length)
    (hnid : new_node_id < g.nodes.length)
    (h1 : installFwd g new_node_id
      (fwd_edges g.nodes tv neighbour_ids new_node) = some g1)
    (h2 : installBwd g1 new_node_id
      (bwd_edges g.nodes tv neighbour_ids new_node) = some g2) :
    fwd_edges g.nodes tv neighbour_ids new_node =
      bwd_edges g.nodes tv neighbour_ids new_node ∧
    ∀ p ∈ fwd_edges g.nodes tv neighbour_ids new_node, ∀ v, p.2 = some v →
      (⟨new_node_id, v⟩ : PRMEdge) ∈ (g2.nodes.getD p.1 default).children ∧
      (⟨p.1, v⟩ : PRMEdge) ∈ (g2.nodes.getD new_node_id default).children := by
  obtain ⟨hlF, hpF, hmF⟩ := installFwd_mem _ g g1 h1
    (fun p hp => hrange p.1 (fwd_edges_fst_mem hp))
  obtain ⟨hlB, hpB, hmB⟩ := installBwd_mem _ g1 g2 h2 (by rw [hlF]; exact hnid)
  refine ⟨rfl, fun p hp v hv => ⟨?_, ?_⟩⟩
  · exact hpB _ _ (hmF p hp v hv)
  · exact hmB p hp v hv

def exPRMtv : PRMNode Unit → PRMNode Unit → Option (List Bool) :=
  fun _ _ => some [true]

def exPRMnew : PRMNode Unit := ⟨(), [true], []⟩

def exPRM0 : PRMGraph Unit := ⟨[⟨(), [true], []⟩, ⟨(), [true], []⟩]⟩

def exPRM1 : PRMGraph Unit :=
  ⟨[⟨(), [true], [⟨1, [true]⟩]⟩, ⟨(), [true], []⟩]⟩

def exPRM2 : PRMGraph Unit :=
  ⟨[⟨(), [true], [⟨1, [true]⟩]⟩, ⟨(), [true], [⟨0, [true]⟩]⟩]⟩

theorem grow_graph_fwd_bwd_edges_witness :
    fwd_edges exPRM0.nodes exPRMtv [0] exPRMnew =
      bwd_edges exPRM0.nodes exPRMtv [0] exPRMnew ∧
    ∀ p ∈ fwd_edges exPRM0.nodes exPRMtv [0] exPRMnew, ∀ v, p.2 = some v →
      (⟨1, v⟩ : PRMEdge) ∈ (exPRM2.nodes.getD p.1 default).children ∧
      (⟨p.1, v⟩ : PRMEdge) ∈ (exPRM2.nodes.getD 1 default).children :=
  grow_graph_fwd_bwd_edges exPRM0 exPRMtv [0] exPRMnew exPRM1 exPRM2 1
    (by decide) (by decide) (by decide) (by decide)

/-! Source `src/prm.rs`: `build_belief_graph` (three passes over roadmap ×
reachable beliefs).  The roadmap type is the spec-modelled `PRMGraph` above
(`prm_graph.rs` is missing from `src/`); the belief graph, `add_node`,
`add_edge` and `belief_id` are the source's `BeliefGraph` embedded earlier.
The observation oracle `self.fns.observe` and the reachable-belief
enumeration `self.fns.reachable_belief_states` are abstract parameters.  The
source's `enumerate` loops are rendered as folds over index ranges with the
element fetched by index. -/

/-- `is_compatible` from `src/common.rs`: no positive-probability world may
be invalid in the mask. -/
def is_compatible (belief_state : List α) (validity : List Bool) : Bool :=
  (belief_state.zip validity).all (fun pv => !(decide (0 < pv.1) && !pv.2))

/-- `belief_space_graph.nodes[i].node_type = t`. -/
def BeliefGraph.setType (g : BeliefGraph σ α) (i : ℕ) (t : BeliefNodeType) :
    BeliefGraph σ α :=
  g.setNode i ⟨(g.node i).state, (g.node i).belief_state, (g.node i).belief_id,
    (g.node i).parents, (g.node i).children, t⟩

/-- Pass 1 of `build_belief_graph`: for every roadmap node and every
reachable belief add an `Unknown` belief node, recording its id in the
`node_to_belief_nodes` table when belief and node validity are compatible
(`None` otherwise). -/
def pass1 [DecidableEq α] (roadmap : List (PRMNode σ)) (rbs : List (List α)) :
    BeliefGraph σ α × List (List (Option ℕ)) :=
  (List.range roadmap.length).foldl
    (fun acc id =>
      let gr := (List.range rbs.length).foldl
        (fun (gr : BeliefGraph σ α × List (Option ℕ)) k =>
          let idp := gr.1.add_node (roadmap.getD id default).state (rbs.getD k []) k
            BeliefNodeType.Unknown
          (idp.2,
           gr.2 ++ [if is_compatible (rbs.getD k []) (roadmap.getD id default).validity
             then some idp.1 else none]))
        (acc.1, ([] : List (Option ℕ)))
      (gr.1, acc.2 ++ [gr.2]))
    (⟨[], rbs⟩, [])

/-- The innermost step of pass 2: one observed child belief.  Skip when it
equals the parent belief; look its id up (`none` models the `expect` panic);
when both table entries are present, mark the parent `Observation` and add
the edge. -/
def pass2Child [DecidableEq α] (g : BeliefGraph σ α) (parent? : Option ℕ)
    (row : List (Option ℕ)) (bs child_bs : List α) : Option (BeliefGraph σ α) :=
  if bs ≠ child_bs then
    match g.beliefIdOf child_bs with
    | none => none
    | some child_belief_state_id =>
      match parent?, row.getD child_belief_state_id none with
      | some parent_id, some child_id =>
        some ((g.setType parent_id BeliefNodeType.Observation).add_edge
          parent_id child_id)
      | _, _ => some g
  else some g

/-- Pass 2 of `build_belief_graph`: observation edges. -/
def pass2 [DecidableEq α] (observe : σ → List α → List (List α))
    (roadmap : List (PRMNode σ)) (rbs : List (List α))
    (table : List (List (Option ℕ))) (g0 : BeliefGraph σ α) :
    Option (BeliefGraph σ α) :=
  (List.range roadmap.length).foldlM
    (fun g id =>
      (List.range rbs.length).foldlM
        (fun g k =>
          (observe (roadmap.getD id default).state (rbs.getD k [])).foldlM
            (fun g child_bs =>
              pass2Child g ((table.getD id []).getD k none) (table.getD id [])
                (rbs.getD k []) child_bs)
            g)
        g)
    g0

/-- The innermost step of pass 3: one roadmap child edge.  When both table
entries are present and the parent's belief is compatible with the edge's
validity mask, mark the parent `Action` and add the edge. -/
def pass3Edge [DecidableEq α] (g : BeliefGraph σ α) (parent? : Option ℕ) (k : ℕ)
    (table : List (List (Option ℕ))) (child_edge : PRMEdge) : BeliefGraph σ α :=
  match parent?, (table.getD child_edge.id []).getD k none with
  | some parent_id, some child_id =>
    if is_compatible (g.node parent_id).belief_state child_edge.validity then
      (g.setType parent_id BeliefNodeType.Action).add_edge parent_id child_id
    else g
  | _, _ => g

/-- Pass 3 of `build_belief_graph`: action edges, skipping any parent already
marked `Observation`. -/
def pass3 [DecidableEq α] (roadmap : List (PRMNode σ)) (rbs : List (List α))
    (table : List (List (Option ℕ))) (g0 : BeliefGraph σ α) : BeliefGraph σ α :=
  (List.range roadmap.length).foldl
    (fun g id =>
      (List.range rbs.length).foldl
        (fun g k =>
          if (match (table.getD id []).getD k none with
              | some parent_id =>
                (g.node parent_id).node_type == BeliefNodeType.Observation
              | none => false) then g
          else
            (roadmap.getD id default).children.foldl
              (fun g ce => pass3Edge g ((table.getD id []).getD k none) k table ce)
              g)
        g)
    g0

/-- `build_belief_graph` from `src/prm.rs`: the three passes; the resulting
belief graph and `node_to_belief_nodes` table (`none` propagates the pass-2
panic). -/
def build_belief_graph [DecidableEq α] (observe : σ → List α → List (List α))
    (reachable_belief_states : List (List α)) (roadmap : List (PRMNode σ)) :
    Option (BeliefGraph σ α × List (List (Option ℕ))) :=
  let p1 := pass1 roadmap reachable_belief_states
  match pass2 observe roadmap reachable_belief_states p1.2 p1.1 with
  | none => none
  | some g2 => some (pass3 roadmap reachable_belief_states p1.2 g2, p1.2)

theorem setNode_length {g : BeliefGraph σ α} {i : ℕ} {n : BeliefNode σ α} :
    (g.setNode i n).nodes.length = g.nodes.length := List.length_set _ _ _

theorem setNode_reachable {g : BeliefGraph σ α} {i : ℕ} {n : BeliefNode σ α} :
    (g.setNode i n).reachable_belief_states = g.reachable_belief_states := rfl

theorem setNode_node_ne {g : BeliefGraph σ α} {i j : ℕ} {n : BeliefNode σ α}
    (h : j ≠ i) : (g.setNode i n).node j = g.node j :=
  getD_set_ne _ _ _ _ _ h

theorem setNode_node_self {g : BeliefGraph σ α} {i : ℕ} {n : BeliefNode σ α}
    (h : i < g.nodes.length) : (g.setNode i n).node i = n :=
  getD_set_self _ _ _ _ h

theorem bg_add_edge_length {g : BeliefGraph σ α} {p c : ℕ} :
    (g.add_edge p c).nodes.length = g.nodes.length := by
  unfold BeliefGraph.add_edge
  rw [setNode_length, setNode_length]

theorem bg_add_edge_reachable {g : BeliefGraph σ α} {p c : ℕ} :
    (g.add_edge p c).reachable_belief_states = g.reachable_belief_states := rfl

theorem setType_length {g : BeliefGraph σ α} {i : ℕ} {t : BeliefNodeType} :
    (g.setType i t).nodes.length = g.nodes.length := setNode_length

theorem setType_reachable {g : BeliefGraph σ α} {i : ℕ} {t : BeliefNodeType} :
    (g.setType i t).reachable_belief_states = g.reachable_belief_states := rfl

theorem setType_node_ne {g : BeliefGraph σ α} {i j : ℕ} {t : BeliefNodeType}
    (h : j ≠ i) : (g.setType i t).node j = g.node j := setNode_node_ne h

theorem setType_node_self {g : BeliefGraph σ α} {i : ℕ} {t : BeliefNodeType}
    (h : i < g.nodes.length) :
    (g.setType i t).node i = ⟨(g.node i).state, (g.node i).belief_state,
      (g.node i).belief_id, (g.node i).parents, (g.node i).children, t⟩ :=
  setNode_node_self h

theorem setType_node_bid {g : BeliefGraph σ α} {i : ℕ} {t : BeliefNodeType} (j : ℕ) :
    ((g.setType i t).node j).belief_id = (g.node j).belief_id := by
  by_cases hji : j = i
  · subst hji
    by_cases hlen : j < g.nodes.length
    · rw [setType_node_self hlen]
    · unfold BeliefGraph.setType BeliefGraph.setNode BeliefGraph.node
      rw [List.set_eq_of_length_le (le_of_not_lt hlen)]
  · rw [setType_node_ne hji]

theorem setType_node_children {g : BeliefGraph σ α} {i : ℕ} {t : BeliefNodeType}
    (j : ℕ) : ((g.setType i t).node j).children = (g.node j).children := by
  by_cases hji : j = i
  · subst hji
    by_cases hlen : j < g.nodes.length
    · rw [setType_node_self hlen]
    · unfold BeliefGraph.setType BeliefGraph.setNode BeliefGraph.node
      rw [List.set_eq_of_length_le (le_of_not_lt hlen)]
  · rw [setType_node_ne hji]

theorem setType_node_type_ne {g : BeliefGraph σ α} {i j : ℕ} {t : BeliefNodeType}
    (h : j ≠ i) : ((g.setType i t).node j).node_type = (g.node j).node_type := by
  rw [setType_node_ne h]

theorem setType_node_type_self {g : BeliefGraph σ α} {i : ℕ} {t : BeliefNodeType}
    (h : i < g.nodes.length) : ((g.setType i t).node i).node_type = t := by
  rw [setType_node_self h]


theorem foldlM_option_inv {β γ : Type} {P : β → Prop} :
    ∀ (l : List γ) (f : β → γ → Option β),
    (∀ b c, c ∈ l → P b → ∀ b', f b c = some b' → P b') →
    ∀ (b b' : β), P b → l.foldlM f b = some b' → P b'
  | [], f, hf, b, b', hb, h => by
    simp only [List.foldlM_nil] at h
    exact Option.some.inj h ▸ hb
  | c :: l, f, hf, b, b', hb, h => by
    rw [List.foldlM_cons] at h
    rcases hc : f b c with _ | b1
    · rw [hc] at h
      exact absurd h (by simp)
    · rw [hc] at h
      simp only [Option.bind_eq_bind, Option.some_bind] at h
      exact foldlM_option_inv l f
        (fun b2 c2 hc2 => hf b2 c2 (List.mem_cons_of_mem _ hc2)) b1 b'
        (hf b c (List.mem_cons_self _ _) hb b1 hc) h

theorem foldl_inv {β γ : Type} {P : β → Prop} :
    ∀ (l : List γ) (f : β → γ → β),
    (∀ b c, c ∈ l → P b → P (f b c)) →
    ∀ (b : β), P b → P (l.foldl f b)
  | [], f, hf, b, hb => hb
  | c :: l, f, hf, b, hb => by
    rw [List.foldl_cons]
    exact foldl_inv l f (fun b2 c2 hc2 => hf b2 c2 (List.mem_cons_of_mem _ hc2))
      (f b c) (hf b c (List.mem_cons_self _ _) hb)

theorem setNode_node_oob {g : BeliefGraph σ α} {i j : ℕ} {n : BeliefNode σ α}
    (h : ¬ j < g.nodes.length) : (g.setNode i n).node j = g.node j := by
  unfold BeliefGraph.setNode BeliefGraph.node
  rw [getD_oob _ _ _ (by rw [List.length_set]; exact le_of_not_lt h),
      getD_oob _ _ _ (le_of_not_lt h)]

/-- The node written at the source of `add_edge`. -/
def mkAdd1 (g : BeliefGraph σ α) (p c : ℕ) : BeliefNode σ α :=
  ⟨(g.node p).state, (g.node p).belief_state, (g.node p).belief_id,
   (g.node p).parents, (g.node p).children ++ [c], (g.node p).node_type⟩

/-- The node written at the target of `add_edge`. -/
def mkAdd2 (g1 : BeliefGraph σ α) (p c : ℕ) : BeliefNode σ α :=
  ⟨(g1.node c).state, (g1.node c).belief_state, (g1.node c).belief_id,
   (g1.node c).parents ++ [p], (g1.node c).children, (g1.node c).node_type⟩

theorem add_edge_eq (g : BeliefGraph σ α) (p c : ℕ) :
    g.add_edge p c =
      (g.setNode p (mkAdd1 g p c)).setNode c
        (mkAdd2 (g.setNode p (mkAdd1 g p c)) p c) := rfl

theorem setNode_node_parts {g : BeliefGraph σ α} {i : ℕ} {n : BeliefNode σ α} (j : ℕ)
    (hb : n.belief_id = (g.node i).belief_id)
    (ht : n.node_type = (g.node i).node_type) :
    ((g.setNode i n).node j).belief_id = (g.node j).belief_id ∧
    ((g.setNode i n).node j).node_type = (g.node j).node_type := by
  by_cases hji : j = i
  · subst hji
    by_cases h2 : j < g.nodes.length
    · rw [setNode_node_self h2, hb, ht]
      exact ⟨rfl, rfl⟩
    · rw [setNode_node_oob h2]
      exact ⟨rfl, rfl⟩
  · rw [setNode_node_ne hji]
    exact ⟨rfl, rfl⟩

theorem bg_add_edge_node_bid (g : BeliefGraph σ α) (p c j : ℕ) :
    ((g.add_edge p c).node j).belief_id = (g.node j).belief_id := by
  rw [add_edge_eq]
  have h2 := setNode_node_parts (g := g.setNode p (mkAdd1 g p c)) (i := c)
    (n := mkAdd2 (g.setNode p (mkAdd1 g p c)) p c) j rfl rfl
  have h1 := setNode_node_parts (g := g) (i := p) (n := mkAdd1 g p c) j rfl rfl
  rw [h2.1, h1.1]

theorem bg_add_edge_node_type (g : BeliefGraph σ α) (p c j : ℕ) :
    ((g.add_edge p c).node j).node_type = (g.node j).node_type := by
  rw [add_edge_eq]
  have h2 := setNode_node_parts (g := g.setNode p (mkAdd1 g p c)) (i := c)
    (n := mkAdd2 (g.setNode p (mkAdd1 g p c)) p c) j rfl rfl
  have h1 := setNode_node_parts (g := g) (i := p) (n := mkAdd1 g p c) j rfl rfl
  rw [h2.2, h1.2]

theorem bg_add_edge_children_ne (g : BeliefGraph σ α) {p j : ℕ} (c : ℕ) (h : j ≠ p) :
    ((g.add_edge p c).node j).children = (g.node j).children := by
  rw [add_edge_eq]
  by_cases hjc : j = c
  · subst hjc
    by_cases hlen : j < (g.setNode p (mkAdd1 g p j)).nodes.length
    · rw [setNode_node_self hlen]
      show ((g.setNode p (mkAdd1 g p j)).node j).children = _
      rw [setNode_node_ne h]
    · rw [setNode_node_oob hlen]
      rw [setNode_node_ne h]
  · rw [setNode_node_ne hjc, setNode_node_ne h]

theorem bg_add_edge_children_self (g : BeliefGraph σ α) {p : ℕ} (c : ℕ)
    (h : p < g.nodes.length) :
    ((g.add_edge p c).node p).children = (g.node p).children ++ [c] := by
  rw [add_edge_eq]
  by_cases hpc : p = c
  · subst hpc
    have hlen1 : p < (g.setNode p (mkAdd1 g p p)).nodes.length := by
      rw [setNode_length]
      exact h
    rw [setNode_node_self hlen1]
    show ((g.setNode p (mkAdd1 g p p)).node p).children = _
    rw [setNode_node_self h]
    rfl
  · rw [setNode_node_ne hpc]
    rw [setNode_node_self h]
    rfl

theorem getD_map_range {β : Type} (f : ℕ → β) (d : β) :
    ∀ (n i : ℕ), i < n → ((List.range n).map f).getD i d = f i := by
  intro n
  induction n with
  | zero => intro i h; exact absurd h (Nat.not_lt_zero i)
  | succ n ih =>
    intro i h
    rw [List.range_succ, List.map_append]
    rcases Nat.lt_or_ge i n with h1 | h1
    · rw [List.getD_append _ _ _ _ (by simpa using h1)]
      exact ih i h1
    · have hin : i = n := by omega
      subst hin
      rw [List.getD_append_right _ _ _ _ (by simp)]
      simp

theorem flatten_block_length {β : Type} (f : ℕ → ℕ → β) (B : ℕ) :
    ∀ n, (((List.range n).map (fun i => (List.range B).map (f i))).flatten).length
      = n * B := by
  intro n
  induction n with
  | zero => simp
  | succ n ih =>
    rw [List.range_succ, List.map_append, List.flatten_append]
    simp only [List.length_append, ih]
    simp [Nat.succ_mul]

theorem flatten_block_getD {β : Type} (f : ℕ → ℕ → β) (B : ℕ) (d : β) :
    ∀ (n i k : ℕ), i < n → k < B →
    ((((List.range n).map (fun i => (List.range B).map (f i))).flatten).getD
      (i * B + k) d) = f i k := by
  intro n
  induction n with
  | zero => intro i k h _; exact absurd h (Nat.not_lt_zero i)
  | succ n ih =>
    intro i k hi hk
    rw [List.range_succ, List.map_append, List.flatten_append]
    rcases Nat.lt_or_ge i n with h1 | h1
    · rw [List.getD_append _ _ _ _ ?bound]
      · exact ih i k h1 hk
      case bound =>
        rw [flatten_block_length]
        have h2 : i * B + k < (i + 1) * B := by
          rw [Nat.succ_mul]
          omega
        have h3 : (i + 1) * B ≤ n * B := Nat.mul_le_mul_right B h1
        omega
    · have hin : i = n := by omega
      subst hin
      rw [List.getD_append_right _ _ _ _ (by rw [flatten_block_length]; omega)]
      rw [flatten_block_length]
      have he : i * B + k - i * B = k := by omega
      rw [he]
      simp only [List.map_cons, List.map_nil, List.flatten_cons, List.flatten_nil,
        List.append_nil]
      exact getD_map_range _ _ _ _ hk

/-- The belief node created by pass 1 for roadmap node `i` and belief `k`. -/
def p1Node (roadmap : List (PRMNode σ)) (rbs : List (List α)) (i k : ℕ) :
    BeliefNode σ α :=
  ⟨(roadmap.getD i default).state, rbs.getD k [], k, [], [], BeliefNodeType.Unknown⟩

/-- Row `i` of the `node_to_belief_nodes` table built by pass 1. -/
def p1Row [DecidableEq α] (roadmap : List (PRMNode σ)) (rbs : List (List α))
    (i : ℕ) : List (Option ℕ) :=
  (List.range rbs.length).map
    (fun k => if is_compatible (rbs.getD k []) (roadmap.getD i default).validity
      then some (i * rbs.length + k) else none)

theorem pass1_inner_spec [DecidableEq α] (st : σ) (va : List Bool)
    (rbs : List (List α)) :
    ∀ (B : ℕ) (g : BeliefGraph σ α) (row : List (Option ℕ)),
    (List.range B).foldl
      (fun (gr : BeliefGraph σ α × List (Option ℕ)) k =>
        let idp := gr.1.add_node st (rbs.getD k []) k BeliefNodeType.Unknown
        (idp.2,
         gr.2 ++ [if is_compatible (rbs.getD k []) va then some idp.1 else none]))
      (g, row) =
    (⟨g.nodes ++ (List.range B).map
        (fun k => ⟨st, rbs.getD k [], k, [], [], BeliefNodeType.Unknown⟩),
      g.reachable_belief_states⟩,
     row ++ (List.range B).map
        (fun k => if is_compatible (rbs.getD k []) va then some (g.nodes.length + k)
          else none)) := by
  intro B
  induction B with
  | zero =>
    intro g row
    simp
  | succ B ih =>
    intro g row
    rw [List.range_succ, List.foldl_append, ih]
    rw [List.foldl_cons, List.foldl_nil]
    unfold BeliefGraph.add_node
    simp only [List.length_append, List.length_map, List.length_range]
    rw [List.map_append, List.map_append]
    simp [List.append_assoc]

theorem pass1_outer_spec [DecidableEq α] (roadmap : List (PRMNode σ))
    (rbs : List (List α)) :
    ∀ (n : ℕ),
    (List.range n).foldl
      (fun (acc : BeliefGraph σ α × List (List (Option ℕ))) id =>
        let gr := (List.range rbs.length).foldl
          (fun (gr : BeliefGraph σ α × List (Option ℕ)) k =>
            let idp := gr.1.add_node (roadmap.getD id default).state (rbs.getD k []) k
              BeliefNodeType.Unknown
            (idp.2,
             gr.2 ++ [if is_compatible (rbs.getD k []) (roadmap.getD id default).validity
               then some idp.1 else none]))
          (acc.1, ([] : List (Option ℕ)))
        (gr.1, acc.2 ++ [gr.2]))
      (⟨[], rbs⟩, []) =
    (⟨((List.range n).map
        (fun i => (List.range rbs.length).map (fun k => p1Node roadmap rbs i k))).flatten,
      rbs⟩,
     (List.range n).map (fun i => p1Row roadmap rbs i)) := by
  intro n
  induction n with
  | zero => simp
  | succ n ih =>
    rw [List.range_succ, List.foldl_append, ih, List.foldl_cons, List.foldl_nil]
    rw [pass1_inner_spec]
    rw [List.map_append, List.map_append, List.flatten_append]
    have hlen : (((List.range n).map
        (fun i => (List.range rbs.length).map (fun k => p1Node roadmap rbs i k))).flatten).length
        = n * rbs.length := flatten_block_length _ _ _
    simp only [hlen]
    simp [p1Node, p1Row, List.append_assoc]

theorem pass1_spec [DecidableEq α] (roadmap : List (PRMNode σ)) (rbs : List (List α)) :
    pass1 roadmap rbs =
    (⟨((List.range roadmap.length).map
        (fun i => (List.range rbs.length).map (fun k => p1Node roadmap rbs i k))).flatten,
      rbs⟩,
     (List.range roadmap.length).map (fun i => p1Row roadmap rbs i)) := by
  unfold pass1
  exact pass1_outer_spec roadmap rbs roadmap.length

/-- Static facts preserved by passes 2 and 3: node count, the reachable
belief list, and each node's belief id (`j % B` by the pass-1 layout). -/
def BGStatic (g : BeliefGraph σ α) (N B : ℕ) (rbs : List (List α)) : Prop :=
  g.nodes.length = N * B ∧ g.reachable_belief_states = rbs ∧
  ∀ j, j < N * B → (g.node j).belief_id = j % B

/-- The edge-kind invariant of C3: `Unknown` nodes have no children,
`Observation` nodes only point to a different belief at the same roadmap
node (same block of `B` ids), `Action` nodes only point to the same belief. -/
def edgeInv (g : BeliefGraph σ α) (B : ℕ) : Prop :=
  ∀ j, j < g.nodes.length →
    ((g.node j).node_type = BeliefNodeType.Unknown → (g.node j).children = []) ∧
    ((g.node j).node_type = BeliefNodeType.Observation →
      ∀ c ∈ (g.node j).children, c < g.nodes.length ∧
        (g.node c).belief_id ≠ (g.node j).belief_id ∧ c / B = j / B) ∧
    ((g.node j).node_type = BeliefNodeType.Action →
      ∀ c ∈ (g.node j).children, c < g.nodes.length ∧
        (g.node c).belief_id = (g.node j).belief_id)

/-- During pass 2 no node is ever of kind `Action`. -/
def noActionInv (g : BeliefGraph σ α) : Prop :=
  ∀ j, j < g.nodes.length → (g.node j).node_type ≠ BeliefNodeType.Action

/-- The shape of the pass-1 table: `N` rows; entry `(i, k)` is either the
belief-node id `i * B + k` or `none`. -/
def tableOK (table : List (List (Option ℕ))) (N B : ℕ) : Prop :=
  table.length = N ∧
  ∀ i k, i < N → k < B →
    (table.getD i []).getD k none = some (i * B + k) ∨
    (table.getD i []).getD k none = none

theorem pass1_node_at [DecidableEq α] (roadmap : List (PRMNode σ))
    (rbs : List (List α)) {i k : ℕ} (hi : i < roadmap.length)
    (hk : k < rbs.length) :
    (pass1 roadmap rbs).1.node (i * rbs.length + k) = p1Node roadmap rbs i k := by
  rw [pass1_spec]
  show (((List.range roadmap.length).map
      (fun i => (List.range rbs.length).map (fun k => p1Node roadmap rbs i k))).flatten).getD
      (i * rbs.length + k) _ = _
  exact flatten_block_getD _ _ _ _ _ _ hi hk

theorem pass1_static [DecidableEq α] (roadmap : List (PRMNode σ))
    (rbs : List (List α)) :
    BGStatic (pass1 roadmap rbs).1 roadmap.length rbs.length rbs := by
  refine ⟨?_, ?_, ?_⟩
  · rw [pass1_spec]
    exact flatten_block_length _ _ _
  · rw [pass1_spec]
  · intro j hj
    have hB : 0 < rbs.length := by
      rcases Nat.eq_zero_or_pos rbs.length with h0 | h0
      · rw [h0, Nat.mul_zero] at hj
        exact absurd hj (Nat.not_lt_zero j)
      · exact h0
    have hdecomp : j / rbs.length * rbs.length + j % rbs.length = j := by
      rw [Nat.mul_comm]
      exact Nat.div_add_mod j _
    have hiN : j / rbs.length < roadmap.length := by
      rw [Nat.div_lt_iff_lt_mul hB]
      exact hj
    have hkB : j % rbs.length < rbs.length := Nat.mod_lt _ hB
    have hnode : (pass1 roadmap rbs).1.node j = p1Node roadmap rbs (j / rbs.length)
        (j % rbs.length) := by
      conv_lhs => rw [← hdecomp]
      exact pass1_node_at roadmap rbs hiN hkB
    rw [hnode]
    rfl

theorem pass1_edgeInv [DecidableEq α] (roadmap : List (PRMNode σ))
    (rbs : List (List α)) : edgeInv (pass1 roadmap rbs).1 rbs.length := by
  intro j hj
  have hlen : (pass1 roadmap rbs).1.nodes.length = roadmap.length * rbs.length :=
    (pass1_static roadmap rbs).1
  rw [hlen] at hj
  have hB : 0 < rbs.length := by
    rcases Nat.eq_zero_or_pos rbs.length with h0 | h0
    · rw [h0, Nat.mul_zero] at hj
      exact absurd hj (Nat.not_lt_zero j)
    · exact h0
  have hdecomp : j / rbs.length * rbs.length + j % rbs.length = j := by
      rw [Nat.mul_comm]
      exact Nat.div_add_mod j _
  have hiN : j / rbs.length < roadmap.length := by
    rw [Nat.div_lt_iff_lt_mul hB]
    exact hj
  have hkB : j % rbs.length < rbs.length := Nat.mod_lt _ hB
  have hnode : (pass1 roadmap rbs).1.node j = p1Node roadmap rbs (j / rbs.length)
      (j % rbs.length) := by
    conv_lhs => rw [← hdecomp]
    exact pass1_node_at roadmap rbs hiN hkB
  rw [hnode]
  unfold p1Node
  refine ⟨fun _ => rfl, fun ht => ?_, fun ht => ?_⟩
  · exact absurd ht (by simp)
  · exact absurd ht (by simp)

theorem pass1_noAction [DecidableEq α] (roadmap : List (PRMNode σ))
    (rbs : List (List α)) : noActionInv (pass1 roadmap rbs).1 := by
  intro j hj
  have hlen : (pass1 roadmap rbs).1.nodes.length = roadmap.length * rbs.length :=
    (pass1_static roadmap rbs).1
  rw [hlen] at hj
  have hB : 0 < rbs.length := by
    rcases Nat.eq_zero_or_pos rbs.length with h0 | h0
    · rw [h0, Nat.mul_zero] at hj
      exact absurd hj (Nat.not_lt_zero j)
    · exact h0
  have hdecomp : j / rbs.length * rbs.length + j % rbs.length = j := by
      rw [Nat.mul_comm]
      exact Nat.div_add_mod j _
  have hiN : j / rbs.length < roadmap.length := by
    rw [Nat.div_lt_iff_lt_mul hB]
    exact hj
  have hkB : j % rbs.length < rbs.length := Nat.mod_lt _ hB
  have hnode : (pass1 roadmap rbs).1.node j = p1Node roadmap rbs (j / rbs.length)
      (j % rbs.length) := by
    conv_lhs => rw [← hdecomp]
    exact pass1_node_at roadmap rbs hiN hkB
  rw [hnode]
  unfold p1Node
  simp

theorem pass1_tableOK [DecidableEq α] (roadmap : List (PRMNode σ))
    (rbs : List (List α)) :
    tableOK (pass1 roadmap rbs).2 roadmap.length rbs.length := by
  constructor
  · rw [pass1_spec]
    simp
  · intro i k hi hk
    rw [pass1_spec]
    show ((((List.range roadmap.length).map
      (fun i => p1Row roadmap rbs i)).getD i []).getD k none) = _ ∨ _
    rw [getD_map_range _ _ _ _ hi]
    unfold p1Row
    rw [getD_map_range _ _ _ _ hk]
    by_cases hc : is_compatible (rbs.getD k []) (roadmap.getD i default).validity = true
    · rw [if_pos hc]
      exact Or.inl rfl
    · rw [if_neg hc]
      exact Or.inr rfl

theorem block_lt {N B i k : ℕ} (hi : i < N) (hk : k < B) : i * B + k < N * B := by
  have h2 : i * B + k < (i + 1) * B := by
    rw [Nat.succ_mul]
    omega
  have h3 : (i + 1) * B ≤ N * B := Nat.mul_le_mul_right B hi
  omega

theorem block_mod {B i k : ℕ} (hk : k < B) : (i * B + k) % B = k := by
  rw [Nat.mul_comm, Nat.mul_add_mod]
  exact Nat.mod_eq_of_lt hk

theorem block_div {B i k : ℕ} (hk : k < B) : (i * B + k) / B = i := by
  rw [Nat.mul_comm, Nat.mul_add_div (by omega)]
  rw [Nat.div_eq_of_lt hk, Nat.add_zero]

theorem beliefIdOf_spec [DecidableEq α] {g : BeliefGraph σ α} {bs : List α} {i : ℕ}
    (h : g.beliefIdOf bs = some i) :
    i < g.reachable_belief_states.length ∧
    g.reachable_belief_states.getD i [] = bs := by
  unfold BeliefGraph.beliefIdOf at h
  rw [List.findIdx?_eq_some_iff_getElem] at h
  obtain ⟨hlen, hp, _⟩ := h
  refine ⟨hlen, ?_⟩
  rw [List.getD_eq_getElem _ _ hlen]
  simpa using hp

theorem pass2Child_inv [DecidableEq α] {g g' : BeliefGraph σ α} {N : ℕ}
    {rbs : List (List α)} {table : List (List (Option ℕ))} {id k : ℕ}
    {child_bs : List α}
    (hid : id < N) (hk : k < rbs.length) (ht : tableOK table N rbs.length)
    (hinv : BGStatic g N rbs.length rbs ∧ edgeInv g rbs.length ∧ noActionInv g)
    (h : pass2Child g ((table.getD id []).getD k none) (table.getD id [])
      (rbs.getD k []) child_bs = some g') :
    BGStatic g' N rbs.length rbs ∧ edgeInv g' rbs.length ∧ noActionInv g' := by
  obtain ⟨hs, he, hna⟩ := hinv
  unfold pass2Child at h
  split at h
  case isFalse => exact Option.some.inj h ▸ ⟨hs, he, hna⟩
  case isTrue hne =>
    split at h
    · exact absurd h (by simp)
    · rename_i cid hb
      obtain ⟨hcid, hcbs⟩ := beliefIdOf_spec hb
      rw [hs.2.1] at hcid hcbs
      split at h
      case _ pid c hpar hch =>
          have hpid : pid = id * rbs.length + k := by
            rcases ht.2 id k hid hk with h1 | h1 <;> rw [h1] at hpar
            · exact (Option.some.inj hpar).symm
            · exact absurd hpar (by simp)
          have hc : c = id * rbs.length + cid := by
            rcases ht.2 id cid hid hcid with h1 | h1 <;> rw [h1] at hch
            · exact (Option.some.inj hch).symm
            · exact absurd hch (by simp)
          have hkcid : cid ≠ k := by
            intro hkc
            rw [hkc] at hcbs
            exact hne hcbs
          have heq : g' = (g.setType pid BeliefNodeType.Observation).add_edge pid c :=
            (Option.some.inj h).symm
          have hpidlen : pid < g.nodes.length := by
            rw [hs.1, hpid]
            exact block_lt hid hk
          have hclen : c < g.nodes.length := by
            rw [hs.1, hc]
            exact block_lt hid hcid
          have hlen2 : g'.nodes.length = g.nodes.length := by
            rw [heq, bg_add_edge_length, setType_length]
          have hbid : ∀ x, (g'.node x).belief_id = (g.node x).belief_id := by
            intro x
            rw [heq, bg_add_edge_node_bid, setType_node_bid]
          have htypene : ∀ x, x ≠ pid → (g'.node x).node_type = (g.node x).node_type := by
            intro x hx
            rw [heq, bg_add_edge_node_type, setType_node_type_ne hx]
          have htypep : (g'.node pid).node_type = BeliefNodeType.Observation := by
            rw [heq, bg_add_edge_node_type, setType_node_type_self hpidlen]
          have hchildne : ∀ x, x ≠ pid → (g'.node x).children = (g.node x).children := by
            intro x hx
            rw [heq, bg_add_edge_children_ne _ _ hx, setType_node_children]
          have hchildp : (g'.node pid).children = (g.node pid).children ++ [c] := by
            rw [heq, bg_add_edge_children_self _ _ (by rw [setType_length]; exact hpidlen),
              setType_node_children]
          refine ⟨⟨by rw [hlen2]; exact hs.1, by rw [heq]; exact hs.2.1, ?_⟩, ?_, ?_⟩
          · intro j hj
            rw [hbid]
            exact hs.2.2 j hj
          · intro j hj
            rw [hlen2] at hj
            by_cases hjp : j = pid
            · subst hjp
              refine ⟨fun hu => ?_, fun _ => ?_, fun ha => ?_⟩
              · rw [htypep] at hu
                exact absurd hu (by simp)
              · intro c2 hc2
                rw [hchildp] at hc2
                rcases List.mem_append.mp hc2 with h2 | h2
                · have hold := he j hj
                  have htj : (g.node j).node_type ≠ BeliefNodeType.Action := hna j hj
                  rcases htg : (g.node j).node_type with _ | _ | _
                  · rw [hold.1 htg] at h2
                    exact absurd h2 (by simp)
                  · exact absurd htg htj
                  · obtain ⟨hl, hb2, hd⟩ := hold.2.1 htg c2 h2
                    exact ⟨by rw [hlen2]; exact hl, by rw [hbid, hbid]; exact hb2, hd⟩
                · have hc2c : c2 = c := by simpa using h2
                  subst hc2c
                  refine ⟨by rw [hlen2]; exact hclen, ?_, ?_⟩
                  · rw [hbid, hbid, hc, hpid,
                      hs.2.2 _ (by rw [← hs.1, ← hc]; exact hclen),
                      hs.2.2 _ (by rw [← hs.1, ← hpid]; exact hpidlen),
                      block_mod hcid, block_mod hk]
                    exact hkcid
                  · rw [hc, hpid, block_div hcid, block_div hk]
              · rw [htypep] at ha
                exact absurd ha (by simp)
            · have htj := htypene j hjp
              have hcj := hchildne j hjp
              have hold := he j hj
              refine ⟨fun hu => ?_, fun ho => ?_, fun ha => ?_⟩
              · rw [hcj]
                exact hold.1 (by rw [← htj]; exact hu)
              · intro c2 hc2
                rw [hcj] at hc2
                obtain ⟨hl, hb2, hd⟩ := hold.2.1 (by rw [← htj]; exact ho) c2 hc2
                exact ⟨by rw [hlen2]; exact hl, by rw [hbid, hbid]; exact hb2, hd⟩
              · exact absurd (by rw [← htj]; exact ha) (hna j hj)
          · intro j hj
            rw [hlen2] at hj
            by_cases hjp : j = pid
            · subst hjp
              rw [htypep]
              simp
            · rw [htypene j hjp]
              exact hna j hj
      case _ =>
        exact Option.some.inj h ▸ ⟨hs, he, hna⟩

theorem pass2_inv [DecidableEq α] (observe : σ → List α → List (List α))
    (roadmap : List (PRMNode σ)) (rbs : List (List α))
    {table : List (List (Option ℕ))} {g0 g2 : BeliefGraph σ α}
    (ht : tableOK table roadmap.length rbs.length)
    (hs : BGStatic g0 roadmap.length rbs.length rbs)
    (he : edgeInv g0 rbs.length) (hna : noActionInv g0)
    (h : pass2 observe roadmap rbs table g0 = some g2) :
    BGStatic g2 roadmap.length rbs.length rbs ∧ edgeInv g2 rbs.length ∧
      noActionInv g2 := by
  unfold pass2 at h
  refine foldlM_option_inv (P := fun g => BGStatic g roadmap.length rbs.length rbs ∧
    edgeInv g rbs.length ∧ noActionInv g) _ _ ?_ g0 g2 ⟨hs, he, hna⟩ h
  intro g id hid hg g1 hstep
  refine foldlM_option_inv (P := fun g => BGStatic g roadmap.length rbs.length rbs ∧
    edgeInv g rbs.length ∧ noActionInv g) _ _ ?_ g g1 hg hstep
  intro gk k hk hgk gk1 hkstep
  refine foldlM_option_inv (P := fun g => BGStatic g roadmap.length rbs.length rbs ∧
    edgeInv g rbs.length ∧ noActionInv g) _ _ ?_ gk gk1 hgk hkstep
  intro gc cbs hcbs hgc gc1 hcstep
  exact pass2Child_inv (List.mem_range.mp hid) (List.mem_range.mp hk) ht hgc hcstep

theorem pass3Edge_inv [DecidableEq α] {g : BeliefGraph σ α} {N : ℕ}
    {rbs : List (List α)} {table : List (List (Option ℕ))} {id k : ℕ}
    {ce : PRMEdge}
    (hid : id < N) (hk : k < rbs.length) (ht : tableOK table N rbs.length)
    (hs : BGStatic g N rbs.length rbs) (he : edgeInv g rbs.length)
    (hskip : ∀ pid, (table.getD id []).getD k none = some pid →
      (g.node pid).node_type ≠ BeliefNodeType.Observation) :
    BGStatic (pass3Edge g ((table.getD id []).getD k none) k table ce)
      N rbs.length rbs ∧
    edgeInv (pass3Edge g ((table.getD id []).getD k none) k table ce) rbs.length ∧
    (∀ pid, (table.getD id []).getD k none = some pid →
      ((pass3Edge g ((table.getD id []).getD k none) k table ce).node pid).node_type ≠
        BeliefNodeType.Observation) := by
  unfold pass3Edge
  split
  case _ pid c hpar hch =>
    have hceN : ce.id < N := by
      by_contra hout
      have hrow : table.getD ce.id [] = [] :=
        getD_oob _ _ _ (by rw [ht.1]; omega)
      rw [hrow] at hch
      simp at hch
    have hpid : pid = id * rbs.length + k := by
      rcases ht.2 id k hid hk with h1 | h1 <;> rw [h1] at hpar
      · exact (Option.some.inj hpar).symm
      · exact absurd hpar (by simp)
    have hc : c = ce.id * rbs.length + k := by
      rcases ht.2 ce.id k hceN hk with h1 | h1 <;> rw [h1] at hch
      · exact (Option.some.inj hch).symm
      · exact absurd hch (by simp)
    have hpidlen : pid < g.nodes.length := by
      rw [hs.1, hpid]
      exact block_lt hid hk
    have hclen : c < g.nodes.length := by
      rw [hs.1, hc]
      exact block_lt hceN hk
    split
    case isFalse => exact ⟨hs, he, hskip⟩
    case isTrue hcomp =>
      have hg' : ∀ x, (((g.setType pid BeliefNodeType.Action).add_edge pid c).node x).belief_id
          = (g.node x).belief_id := by
        intro x
        rw [bg_add_edge_node_bid, setType_node_bid]
      have hlen2 : ((g.setType pid BeliefNodeType.Action).add_edge pid c).nodes.length
          = g.nodes.length := by
        rw [bg_add_edge_length, setType_length]
      have htypene : ∀ x, x ≠ pid →
          (((g.setType pid BeliefNodeType.Action).add_edge pid c).node x).node_type
            = (g.node x).node_type := by
        intro x hx
        rw [bg_add_edge_node_type, setType_node_type_ne hx]
      have htypep : (((g.setType pid BeliefNodeType.Action).add_edge pid c).node pid).node_type
          = BeliefNodeType.Action := by
        rw [bg_add_edge_node_type, setType_node_type_self hpidlen]
      have hchildne : ∀ x, x ≠ pid →
          (((g.setType pid BeliefNodeType.Action).add_edge pid c).node x).children
            = (g.node x).children := by
        intro x hx
        rw [bg_add_edge_children_ne _ _ hx, setType_node_children]
      have hchildp : (((g.setType pid BeliefNodeType.Action).add_edge pid c).node pid).children
          = (g.node pid).children ++ [c] := by
        rw [bg_add_edge_children_self _ _ (by rw [setType_length]; exact hpidlen),
          setType_node_children]
      refine ⟨⟨by rw [hlen2]; exact hs.1, by exact hs.2.1, ?_⟩, ?_, ?_⟩
      · intro j hj
        rw [hg']
        exact hs.2.2 j hj
      · intro j hj
        rw [hlen2] at hj
        by_cases hjp : j = pid
        · subst hjp
          refine ⟨fun hu => ?_, fun ho => ?_, fun _ => ?_⟩
          · rw [htypep] at hu
            exact absurd hu (by simp)
          · rw [htypep] at ho
            exact absurd ho (by simp)
          · intro c2 hc2
            rw [hchildp] at hc2
            rcases List.mem_append.mp hc2 with h2 | h2
            · have hold := he j hj
              have hnobs : (g.node j).node_type ≠ BeliefNodeType.Observation :=
                hskip j hpar
              rcases htg : (g.node j).node_type with _ | _ | _
              · rw [hold.1 htg] at h2
                exact absurd h2 (by simp)
              · obtain ⟨hl, hb2⟩ := hold.2.2 htg c2 h2
                exact ⟨by rw [hlen2]; exact hl, by rw [hg', hg']; exact hb2⟩
              · exact absurd htg hnobs
            · have hc2c : c2 = c := by simpa using h2
              subst hc2c
              refine ⟨by rw [hlen2]; exact hclen, ?_⟩
              rw [hg', hg', hc, hpid,
                hs.2.2 _ (by rw [← hs.1, ← hc]; exact hclen),
                hs.2.2 _ (by rw [← hs.1, ← hpid]; exact hpidlen),
                block_mod hk, block_mod hk]
        · have htj := htypene j hjp
          have hcj := hchildne j hjp
          have hold := he j hj
          refine ⟨fun hu => ?_, fun ho => ?_, fun ha => ?_⟩
          · rw [hcj]
            exact hold.1 (by rw [← htj]; exact hu)
          · intro c2 hc2
            rw [hcj] at hc2
            obtain ⟨hl, hb2, hd⟩ := hold.2.1 (by rw [← htj]; exact ho) c2 hc2
            exact ⟨by rw [hlen2]; exact hl, by rw [hg', hg']; exact hb2, hd⟩
          · intro c2 hc2
            rw [hcj] at hc2
            obtain ⟨hl, hb2⟩ := hold.2.2 (by rw [← htj]; exact ha) c2 hc2
            exact ⟨by rw [hlen2]; exact hl, by rw [hg', hg']; exact hb2⟩
      · intro pid2 hpar2
        have hpp : pid2 = pid := by
          rw [hpar] at hpar2
          exact Option.some.inj hpar2.symm
        subst hpp
        rw [htypep]
        simp
  case _ hmm1 =>
    exact ⟨hs, he, hskip⟩

theorem pass3_inv [DecidableEq α] (roadmap : List (PRMNode σ)) (rbs : List (List α))
    {table : List (List (Option ℕ))} {g2 : BeliefGraph σ α}
    (ht : tableOK table roadmap.length rbs.length)
    (hs : BGStatic g2 roadmap.length rbs.length rbs)
    (he : edgeInv g2 rbs.length) :
    BGStatic (pass3 roadmap rbs table g2) roadmap.length rbs.length rbs ∧
    edgeInv (pass3 roadmap rbs table g2) rbs.length := by
  unfold pass3
  refine foldl_inv (P := fun g => BGStatic g roadmap.length rbs.length rbs ∧
    edgeInv g rbs.length) _ _ ?_ g2 ⟨hs, he⟩
  intro g id hid hg
  refine foldl_inv (P := fun g => BGStatic g roadmap.length rbs.length rbs ∧
    edgeInv g rbs.length) _ _ ?_ g hg
  intro gk k hk hgk
  split
  · exact hgk
  · rename_i hguard
    have hskip : ∀ pid, (table.getD id []).getD k none = some pid →
        (gk.node pid).node_type ≠ BeliefNodeType.Observation := by
      intro pid hpar
      rw [hpar] at hguard
      simpa using hguard
    refine (foldl_inv (P := fun g =>
        (BGStatic g roadmap.length rbs.length rbs ∧ edgeInv g rbs.length) ∧
        ∀ pid, (table.getD id []).getD k none = some pid →
          (g.node pid).node_type ≠ BeliefNodeType.Observation)
      ((roadmap.getD id default).children)
      (fun g ce => pass3Edge g ((table.getD id []).getD k none) k table ce) ?_ gk
      ⟨hgk, hskip⟩).1
    intro gc ce hce hP
    obtain ⟨⟨hsc, hec⟩, hskc⟩ := hP
    obtain ⟨h1, h2, h3⟩ := pass3Edge_inv (List.mem_range.mp hid)
      (List.mem_range.mp hk) ht hsc hec hskc
    exact ⟨⟨h1, h2⟩, h3⟩

/-- C3: after `build_belief_graph` completes (any roadmap, any observation
oracle, any reachable-belief list), every belief node carries outgoing edges
of at most one kind.  A node of kind `Observation` received only pass-2
observation edges: each child lives in the same roadmap block (same belief
node family `c / B = j / B`, `B` the number of reachable beliefs) with a
different belief id.  A node of kind `Action` received only pass-3 action
edges: every child has the same belief id (pass 3 skips any node already
marked `Observation`, and pass 2 marks a node `Observation` whenever it
gives it an edge, so no node mixes the two kinds).  A node still `Unknown`
has no children. -/
theorem build_belief_graph_edge_kinds [DecidableEq α]
    (observe : σ → List α → List (List α)) (rbs : List (List α))
    (roadmap : List (PRMNode σ)) (bsg : BeliefGraph σ α)
    (table : List (List (Option ℕ)))
    (hrun : build_belief_graph observe rbs roadmap = some (bsg, table)) :
    ∀ j, j < bsg.nodes.length →
      ((bsg.node j).node_type = BeliefNodeType.Unknown → (bsg.node j).children = []) ∧
      ((bsg.node j).node_type = BeliefNodeType.Observation →
        ∀ c ∈ (bsg.node j).children, c < bsg.nodes.length ∧
          (bsg.node c).belief_id ≠ (bsg.node j).belief_id ∧
          c / rbs.length = j / rbs.length) ∧
      ((bsg.node j).node_type = BeliefNodeType.Action →
        ∀ c ∈ (bsg.node j).children, c < bsg.nodes.length ∧
          (bsg.node c).belief_id = (bsg.node j).belief_id) := by
  unfold build_belief_graph at hrun
  have hrun2 : (match pass2 observe roadmap rbs (pass1 roadmap rbs).2
      (pass1 roadmap rbs).1 with
    | none => none
    | some g2 => some (pass3 roadmap rbs (pass1 roadmap rbs).2 g2,
        (pass1 roadmap rbs).2)) = some (bsg, table) := hrun
  rcases hp2 : pass2 observe roadmap rbs (pass1 roadmap rbs).2 (pass1 roadmap rbs).1
    with _ | g2
  · rw [hp2] at hrun2
    exact absurd hrun2 (by simp)
  · rw [hp2] at hrun2
    obtain ⟨h1, h2⟩ := Prod.mk.injEq .. ▸ Option.some.inj hrun2
    obtain ⟨hs2, he2, _⟩ := pass2_inv observe roadmap rbs (pass1_tableOK roadmap rbs)
      (pass1_static roadmap rbs) (pass1_edgeInv roadmap rbs)
      (pass1_noAction roadmap rbs) hp2
    obtain ⟨hs3, he3⟩ := pass3_inv roadmap rbs (pass1_tableOK roadmap rbs) hs2 he2
    rw [← h1]
    exact he3

def exRoad3 : List (PRMNode Unit) := [⟨(), [true, true], []⟩]

def exRBS3 : List (List ℤ) := [[1, 0], [0, 1]]

def exObs3 : Unit → List ℤ → List (List ℤ) := fun _ _ => [[1, 0], [0, 1]]

def exBSG3 : BeliefGraph Unit ℤ :=
  ⟨[⟨(), [1, 0], 0, [1], [1], BeliefNodeType.Observation⟩,
    ⟨(), [0, 1], 1, [0], [0], BeliefNodeType.Observation⟩], [[1, 0], [0, 1]]⟩

theorem build_belief_graph_edge_kinds_witness :
    build_belief_graph exObs3 exRBS3 exRoad3 = some (exBSG3, [[some 0, some 1]]) ∧
    ∀ j, j < exBSG3.nodes.length →
      ((exBSG3.node j).node_type = BeliefNodeType.Unknown →
        (exBSG3.node j).children = []) ∧
      ((exBSG3.node j).node_type = BeliefNodeType.Observation →
        ∀ c ∈ (exBSG3.node j).children, c < exBSG3.nodes.length ∧
          (exBSG3.node c).belief_id ≠ (exBSG3.node j).belief_id ∧
          c / exRBS3.length = j / exRBS3.length) ∧
      ((exBSG3.node j).node_type = BeliefNodeType.Action →
        ∀ c ∈ (exBSG3.node j).children, c < exBSG3.nodes.length ∧
          (exBSG3.node c).belief_id = (exBSG3.node j).belief_id) :=
  ⟨by decide,
   build_belief_graph_edge_kinds exObs3 exRBS3 exRoad3 exBSG3 [[some 0, some 1]]
     (by decide)⟩
